import Mathlib

/-!
Bookstore command interpreter: shallow embedding of `src/main.cpp`.

The program keeps four pieces of global state (`accounts`, `books`,
`transactions`, `login_stack`) and processes one input line at a time.

Modelling conventions.
* A C++ `std::string` is a `List Char`; every `Char` stands for one byte.
* `std::unordered_map<string, V>` is an association list `Table V`; a key is
  looked up by its first entry, `operator[]=` replaces in place or appends,
  `erase` drops every entry of the key.
* `std::vector<Context> login_stack` is a `List Context` whose HEAD is
  `login_stack.back()`: `push_back` is cons, `pop_back` is tail.
* `long long` / `int` values are `Int`; the arithmetic that can overflow
  (`price_cents * qty`, `stock += qty`, the finance sums) goes through `wrap64`.
* `cout` is the `out` string of a result; persistence (`load_*`, `save_*`) is not
  part of the model, the first-run state is `bootstrap`.
-/

namespace Bookstore

abbrev Str := List Char

/-! ## Data model (source lines 7-38) -/

structure Account where
  user_id : Str
  password : Str
  username : Str
  privilege : Int
deriving DecidableEq, Repr

structure Book where
  isbn : Str
  name : Str
  author : Str
  keyword : Str
  price_cents : Int
  stock : Int
deriving DecidableEq, Repr

structure Context where
  user_id : Str
  privilege : Int
  selected_isbn : Str
deriving DecidableEq, Repr

/-- Association-list model of `unordered_map<string, V>`. -/
abbrev Table (V : Type) := List (Str × V)

/-- Model of `m.find(k)`: the value of the first entry stored under `k`. -/
def Table.find {V : Type} : Table V → Str → Option V
  | [], _ => none
  | (k1, v) :: rest, k => if k1 = k then some v else Table.find rest k

/-- Model of `m.count(k)`. -/
def Table.count {V : Type} (m : Table V) (k : Str) : Bool := (m.find k).isSome

/-- Model of `m[k] = v`: overwrite the entry of `k`, or add one. -/
def Table.assign {V : Type} : Table V → Str → V → Table V
  | [], k, v => [(k, v)]
  | (k1, v1) :: rest, k, v =>
    if k1 = k then (k, v) :: rest else (k1, v1) :: Table.assign rest k v

/-- Model of `m.erase(k)`. -/
def Table.erase {V : Type} (m : Table V) (k : Str) : Table V :=
  m.filter (fun e => decide (e.1 ≠ k))

/-- Model of the reference `m[k]` used as an lvalue: a missing key gets a
value-initialised entry. -/
def Table.touch {V : Type} (m : Table V) (k : Str) (dflt : V) : Table V :=
  match m.find k with
  | some _ => m
  | none => m.assign k dflt

structure State where
  accounts : Table Account
  books : Table Book
  transactions : List Int
  login_stack : List Context
deriving DecidableEq, Repr

/-- A default-constructed `Book`. -/
def Book.empty : Book := ⟨[], [], [], [], 0, 0⟩

/-- State after `load_accounts(); load_books(); load_finance();` on a first run
(no database files): only the root account. -/
def bootstrap : State :=
  { accounts := [("root".toList, ⟨"root".toList, "sjtu".toList, "root".toList, 7⟩)]
    books := []
    transactions := []
    login_stack := [] }

/-- Two's-complement reading of a 64-bit signed result. -/
def wrap64 (x : Int) : Int :=
  (x + 9223372036854775808) % 18446744073709551616 - 9223372036854775808

/-! ## Utilities (source lines 41-143) -/

def is_space (c : Char) : Bool := c == ' '

structure TokSt where
  tok : List Str
  cur : Str
  in_quote : Bool
deriving DecidableEq, Repr

/-- Body of the `for` loop of `tokenize` (lines 48-66). -/
def tokenize_step (s : TokSt) (c : Char) : TokSt :=
  if s.in_quote then
    if c == '"' then ⟨s.tok ++ [s.cur], [], false⟩
    else ⟨s.tok, s.cur ++ [c], true⟩
  else
    if c == '"' then
      ⟨if s.cur ≠ [] then s.tok ++ [s.cur] else s.tok, [], true⟩
    else if is_space c then
      ⟨if s.cur ≠ [] then s.tok ++ [s.cur] else s.tok, [], false⟩
    else ⟨s.tok, s.cur ++ [c], false⟩

def tokenize (line : Str) : List Str :=
  let s := line.foldl tokenize_step ⟨[], [], false⟩
  if s.cur ≠ [] then s.tok ++ [s.cur] else s.tok

/-- The C-locale `isalnum` on a byte. -/
def isalnum (c : Char) : Bool := c.isAlphanum

/-- The C-locale `isdigit` on a byte. -/
def isdigit (c : Char) : Bool := c.isDigit

def is_valid_user_token (s : Str) : Bool :=
  if s = [] ∨ s.length > 30 then false
  else s.all (fun c => isalnum c || c == '_')

def is_valid_username (s : Str) : Bool :=
  if s = [] ∨ s.length > 30 then false
  else s.all (fun c => !decide (c.toNat < 32))

def is_valid_isbn (s : Str) : Bool :=
  if s.length > 20 ∨ s = [] then false
  else s.all (fun c => !decide (c.toNat < 32))

def is_valid_na (s : Str) : Bool :=
  if s.length > 60 then false
  else s.all (fun c => !(decide (c.toNat < 32) || c == '"'))

def is_valid_keyword (s : Str) : Bool :=
  if s.length > 60 then false
  else s.all (fun c => !(decide (c.toNat < 32) || c == '"'))

/-- The `for` loop of `parse_int` (line 105), `val` being the running value. -/
def parse_int_loop : List Char → Int → Option Int
  | [], val => some val
  | c :: cs, val =>
    if !isdigit c then none
    else
      let val1 := val * 10 + ((c.toNat : Int) - 48)
      if val1 > 2147483647 then none else parse_int_loop cs val1

def parse_int (s : Str) : Option Int :=
  if s = [] ∨ s.length > 10 then none else parse_int_loop s 0

structure PriceSt where
  whole : Int
  frac : Int
  frac_len : Nat
  seen_dot : Bool
deriving DecidableEq, Repr

/-- The `for` loop of `parse_price` (lines 112-121). -/
def parse_price_loop : List Char → PriceSt → Option PriceSt
  | [], s => some s
  | c :: cs, s =>
    if c == '.' then
      if s.seen_dot then none else parse_price_loop cs { s with seen_dot := true }
    else if !isdigit c then none
    else if !s.seen_dot then
      let whole1 := s.whole * 10 + ((c.toNat : Int) - 48)
      if whole1 > 90000000000 then none else parse_price_loop cs { s with whole := whole1 }
    else
      if s.frac_len ≥ 2 then none
      else parse_price_loop cs
        { s with frac := s.frac * 10 + ((c.toNat : Int) - 48), frac_len := s.frac_len + 1 }

/-- The padding loop `while (frac_len<2){ frac*=10; frac_len++; }`; at most two
rounds happen. -/
def pad_frac (frac : Int) (frac_len : Nat) : Int :=
  if frac_len = 0 then frac * 10 * 10 else if frac_len = 1 then frac * 10 else frac

def parse_price (s : Str) : Option Int :=
  if s = [] ∨ s.length > 13 then none
  else
    match parse_price_loop s ⟨0, 0, 0, false⟩ with
    | none => none
    | some r =>
      if r.seen_dot ∧ r.frac_len = 0 then none
      else some (r.whole * 100 + pad_frac r.frac r.frac_len)

/-- The decimal digit `d` (0..9) as a character. -/
def digit_char (d : Nat) : Char := Char.ofNat (48 + d)

/-- Decimal digits of `n`, most significant first; `fuel` bounds the number of
digits. -/
def dec_digits : Nat → Nat → Str
  | 0, _ => []
  | fuel + 1, n =>
    if n < 10 then [digit_char n] else dec_digits fuel (n / 10) ++ [digit_char (n % 10)]

/-- What `os << n` writes for a non-negative integer. -/
def nat_to_str (n : Nat) : Str := dec_digits (n + 1) n

/-- What `os << x` writes for a `long long`. -/
def int_to_str (x : Int) : Str :=
  if x < 0 then '-' :: nat_to_str x.natAbs else nat_to_str x.natAbs

/-- What `os << setw(2) << setfill('0') << b` writes for `b ≥ 0`. -/
def pad2 (b : Nat) : Str :=
  if b < 10 then '0' :: nat_to_str b else nat_to_str b

/-- C++ `/` and `%` truncate toward zero. -/
def price_to_str (cents : Int) : Str :=
  let a := Int.tdiv cents 100
  let b := (Int.tmod cents 100).natAbs
  int_to_str a ++ ['.'] ++ pad2 b

structure SplitSt where
  res : List Str
  cur : Str
deriving DecidableEq, Repr

def split_step (s : SplitSt) (c : Char) : SplitSt :=
  if c == '|' then ⟨s.res ++ [s.cur], []⟩ else ⟨s.res, s.cur ++ [c]⟩

def split_keywords (s : Str) : List Str :=
  let r := s.foldl split_step ⟨[], []⟩
  r.res ++ [r.cur]

/-- The loop of `has_duplicate_segments`; `st` lists what the set holds. -/
def dup_loop : List Str → List Str → Bool
  | [], _ => false
  | x :: xs, st =>
    if x = [] then true
    else if x ∈ st then true
    else dup_loop xs (x :: st)

def has_duplicate_segments (s : Str) : Bool := dup_loop (split_keywords s) []

/-! ## Session accessors and results (source lines 206-212) -/

def current_priv (st : State) : Int :=
  match st.login_stack with
  | [] => 0
  | c :: _ => c.privilege

def current_user (st : State) : Str :=
  match st.login_stack with
  | [] => []
  | c :: _ => c.user_id

def current_selected (st : State) : Str :=
  match st.login_stack with
  | [] => []
  | c :: _ => c.selected_isbn

/-- The assignment `current_selected() = isbn`. Every caller has checked
`current_priv() >= 3` before, so the stack is not empty there; on an empty stack
the source writes to a function-local static, which no state component sees. -/
def set_selected (st : State) (isbn : Str) : State :=
  match st.login_stack with
  | [] => st
  | c :: rest => { st with login_stack := { c with selected_isbn := isbn } :: rest }

/-- The token `t[i]`; the handlers only read positions below `t.size()`. -/
def tok_at (t : List Str) (i : Nat) : Str := t.getD i []

/-- Outcome of a command handler: the returned flag, the globals afterwards and
what was written to `cout`. -/
structure Res where
  ok : Bool
  st : State
  out : Str
deriving DecidableEq, Repr

def Res.fail (st : State) : Res := ⟨false, st, []⟩

def Res.done (st : State) : Res := ⟨true, st, []⟩

/-- The text written by `print_invalid`. -/
def invalid_line : Str := "Invalid\n".toList

/-! ## Account commands (source lines 214-288) -/

def cmd_su (st : State) (t : List Str) : Res :=
  if t.length < 2 ∨ t.length > 3 then Res.fail st
  else
    let uid := tok_at t 1
    if !is_valid_user_token uid then Res.fail st
    else
      match st.accounts.find uid with
      | none => Res.fail st
      | some acc =>
        let curp := current_priv st
        if t.length = 2 then
          if curp > acc.privilege then
            Res.done { st with login_stack := ⟨uid, acc.privilege, []⟩ :: st.login_stack }
          else Res.fail st
        else
          if tok_at t 2 ≠ acc.password then Res.fail st
          else Res.done { st with login_stack := ⟨uid, acc.privilege, []⟩ :: st.login_stack }

def cmd_logout (st : State) (t : List Str) : Res :=
  if t.length ≠ 1 then Res.fail st
  else if st.login_stack = [] then Res.fail st
  else Res.done { st with login_stack := st.login_stack.tail }

def cmd_register (st : State) (t : List Str) : Res :=
  if t.length ≠ 4 then Res.fail st
  else
    let uid := tok_at t 1
    let pw := tok_at t 2
    let uname := tok_at t 3
    if !is_valid_user_token uid || !is_valid_user_token pw || !is_valid_username uname then
      Res.fail st
    else if st.accounts.count uid then Res.fail st
    else Res.done { st with accounts := st.accounts.assign uid ⟨uid, pw, uname, 1⟩ }

def cmd_passwd (st : State) (t : List Str) : Res :=
  if t.length ≠ 3 ∧ t.length ≠ 4 then Res.fail st
  else
    let uid := tok_at t 1
    if !is_valid_user_token uid then Res.fail st
    else
      match st.accounts.find uid with
      | none => Res.fail st
      | some acc =>
        if t.length = 3 then
          if current_priv st ≠ 7 then Res.fail st
          else
            let np := tok_at t 2
            if !is_valid_user_token np then Res.fail st
            else Res.done { st with accounts := st.accounts.assign uid { acc with password := np } }
        else
          let cur := tok_at t 2
          let np := tok_at t 3
          if !is_valid_user_token cur || !is_valid_user_token np then Res.fail st
          else if current_priv st = 7 then
            Res.done { st with accounts := st.accounts.assign uid { acc with password := np } }
          else
            if acc.password ≠ cur then Res.fail st
            else Res.done { st with accounts := st.accounts.assign uid { acc with password := np } }

def cmd_useradd (st : State) (t : List Str) : Res :=
  if t.length ≠ 5 then Res.fail st
  else if current_priv st < 3 then Res.fail st
  else
    let uid := tok_at t 1
    let pw := tok_at t 2
    let privs := tok_at t 3
    let uname := tok_at t 4
    if !is_valid_user_token uid || !is_valid_user_token pw || !is_valid_username uname then
      Res.fail st
    else if privs.length ≠ 1 ∨ !isdigit (privs.getD 0 ' ') then Res.fail st
    else
      let p : Int := ((privs.getD 0 ' ').toNat : Int) - 48
      if ¬ (p = 1 ∨ p = 3 ∨ p = 7) then Res.fail st
      else if p ≥ current_priv st then Res.fail st
      else if st.accounts.count uid then Res.fail st
      else Res.done { st with accounts := st.accounts.assign uid ⟨uid, pw, uname, p⟩ }

def cmd_delete (st : State) (t : List Str) : Res :=
  if t.length ≠ 2 then Res.fail st
  else if current_priv st ≠ 7 then Res.fail st
  else
    let uid := tok_at t 1
    if !is_valid_user_token uid then Res.fail st
    else if !st.accounts.count uid then Res.fail st
    else if st.login_stack.any (fun ctx => decide (ctx.user_id = uid)) then Res.fail st
    else Res.done { st with accounts := st.accounts.erase uid }

/-! ## Book commands (source lines 290-365) -/

def cmd_select (st : State) (t : List Str) : Res :=
  if t.length ≠ 2 then Res.fail st
  else if current_priv st < 3 then Res.fail st
  else
    let isbn := tok_at t 1
    if !is_valid_isbn isbn then Res.fail st
    else
      let books1 :=
        if !st.books.count isbn then st.books.assign isbn { Book.empty with isbn := isbn }
        else st.books
      Res.done (set_selected { st with books := books1 } isbn)

/-- The five option heads that `cmd_modify` glues to the following token. -/
def is_modify_flag (s : Str) : Bool :=
  s = "-ISBN=".toList ∨ s = "-name=".toList ∨ s = "-author=".toList ∨
    s = "-keyword=".toList ∨ s = "-price=".toList

/-- The merge loop of `cmd_modify` (lines 310-316), run over `t[1..]`. -/
def merge_flags : List Str → List Str
  | [] => []
  | [s] => [s]
  | s :: v :: rest =>
    if is_modify_flag s then (s ++ v) :: merge_flags rest
    else s :: merge_flags (v :: rest)

/-- The locals `new_*` and `has_*` of `cmd_modify` (line 307). -/
structure ModAcc where
  new_isbn : Str
  new_name : Str
  new_author : Str
  new_keyword : Str
  new_price : Int
  has_isbn : Bool
  has_name : Bool
  has_author : Bool
  has_keyword : Bool
  has_price : Bool
deriving DecidableEq, Repr

def ModAcc.init (b : Book) : ModAcc :=
  ⟨b.isbn, b.name, b.author, b.keyword, b.price_cents, false, false, false, false, false⟩

/-- The option loop of `cmd_modify` (lines 317-325); `none` is `return false`.
`s.rfind(p,0)==0` holds exactly when `p` is an initial segment of `s`. -/
def modify_parse : List Str → ModAcc → Option ModAcc
  | [], a => some a
  | s :: rest, a =>
    if "-ISBN=".toList.isPrefixOf s then
      let v := s.drop 6
      if !is_valid_isbn v then none
      else modify_parse rest { a with new_isbn := v, has_isbn := true }
    else if "-name=".toList.isPrefixOf s then
      let v := s.drop 6
      if !is_valid_na v then none
      else modify_parse rest { a with new_name := v, has_name := true }
    else if "-author=".toList.isPrefixOf s then
      let v := s.drop 8
      if !is_valid_na v then none
      else modify_parse rest { a with new_author := v, has_author := true }
    else if "-keyword=".toList.isPrefixOf s then
      let v := s.drop 9
      if !is_valid_keyword v then none
      else if has_duplicate_segments v then none
      else modify_parse rest { a with new_keyword := v, has_keyword := true }
    else if "-price=".toList.isPrefixOf s then
      let v := s.drop 7
      match parse_price v with
      | none => none
      | some c => modify_parse rest { a with new_price := c, has_price := true }
    else none

/-- The rename part of the commit of `cmd_modify` (lines 328-332), entered with
the table of `st1` in which `b` is the entry of the selected key `sel`.

The source erases the key `b.isbn`, stores the renamed copy under `new_isbn`,
moves the selection and then executes `b = books[new_isbn]`. When `b.isbn ≠ sel`
the entry under `sel` is still alive and receives the copy. When `b.isbn = sel`
the entry `b` refers to has just been erased and that last statement writes
through a dangling reference (`rename_writes_erased`): the behaviour of the
program is undefined, and what it leaves depends on the allocator. The state
returned for that case is the one the program leaves when the write hits nothing
that is in use, as it does when the freed entry is handed to the new key; with
another allocator state the program may leave a corrupted book or abort, which
no state of this embedding describes. -/
def modify_rename (st1 : State) (sel : Str) (b : Book) (a : ModAcc) : State :=
  if a.has_isbn ∧ a.new_isbn ≠ b.isbn then
    let nb : Book := { b with isbn := a.new_isbn }
    let books2 := (st1.books.erase b.isbn).assign a.new_isbn nb
    let books3 := if b.isbn = sel then books2 else books2.assign sel nb
    set_selected { st1 with books := books3 } a.new_isbn
  else st1

/-- The last statement of the rename branch (line 330), `b = books[new_isbn]`,
assigns through the reference `b` taken at line 305 to the entry of the selected
key `sel`. `books.erase(b.isbn)` has destroyed that very entry exactly when
`b.isbn = sel`; the assignment then writes through a dangling reference. -/
def rename_writes_erased (sel : Str) (b : Book) (a : ModAcc) : Bool :=
  a.has_isbn && decide (a.new_isbn ≠ b.isbn) && decide (b.isbn = sel)

/-- The field updates through `ref` (lines 334-337). -/
def modify_fields (r : Book) (a : ModAcc) : Book :=
  let r1 := if a.has_name then { r with name := a.new_name } else r
  let r2 := if a.has_author then { r1 with author := a.new_author } else r1
  let r3 := if a.has_keyword then { r2 with keyword := a.new_keyword } else r2
  if a.has_price then { r3 with price_cents := a.new_price } else r3

/-- The commit part of `cmd_modify` (lines 328-338); `ref` is
`books[current_selected()]` after the rename. -/
def modify_commit (st1 : State) (sel : Str) (b : Book) (a : ModAcc) : State :=
  let st2 := modify_rename st1 sel b a
  let key := current_selected st2
  let books4 := st2.books.touch key Book.empty
  { st2 with
    books := books4.assign key (modify_fields ((books4.find key).getD Book.empty) a) }

def cmd_modify (st : State) (t : List Str) : Res :=
  if t.length < 2 then Res.fail st
  else if current_priv st < 3 then Res.fail st
  else if current_selected st = [] then Res.fail st
  else
    let sel := current_selected st
    let books1 := st.books.touch sel Book.empty
    let st1 := { st with books := books1 }
    let b := (books1.find sel).getD Book.empty
    match modify_parse (merge_flags (t.drop 1)) (ModAcc.init b) with
    | none => Res.fail st1
    | some a =>
      if a.has_isbn ∧ a.new_isbn ≠ b.isbn ∧ books1.count a.new_isbn then Res.fail st1
      else Res.done (modify_commit st1 sel b a)

/-- The tokens `t` make `cmd_modify` execute the write through the erased entry:
the guards of lines 302-304 pass, the option loop ends normally, the key test of
line 326 passes, and the rename branch erases the entry `b` refers to. -/
def modify_writes_erased (st : State) (t : List Str) : Bool :=
  if t.length < 2 then false
  else if current_priv st < 3 then false
  else if current_selected st = [] then false
  else
    let sel := current_selected st
    let books1 := st.books.touch sel Book.empty
    let b := (books1.find sel).getD Book.empty
    match modify_parse (merge_flags (t.drop 1)) (ModAcc.init b) with
    | none => false
    | some a =>
      if a.has_isbn ∧ a.new_isbn ≠ b.isbn ∧ books1.count a.new_isbn then false
      else rename_writes_erased sel b a

def cmd_import (st : State) (t : List Str) : Res :=
  if t.length ≠ 3 then Res.fail st
  else if current_priv st < 3 then Res.fail st
  else if current_selected st = [] then Res.fail st
  else
    match parse_int (tok_at t 1) with
    | none => Res.fail st
    | some qty =>
      if qty ≤ 0 then Res.fail st
      else
        match parse_price (tok_at t 2) with
        | none => Res.fail st
        | some cost =>
          if cost ≤ 0 then Res.fail st
          else
            let sel := current_selected st
            let books1 := st.books.touch sel Book.empty
            let b := (books1.find sel).getD Book.empty
            Res.done { st with
              books := books1.assign sel { b with stock := wrap64 (b.stock + qty) }
              transactions := st.transactions ++ [-cost] }

def cmd_buy (st : State) (t : List Str) : Res :=
  if t.length ≠ 3 then Res.fail st
  else if current_priv st < 1 then Res.fail st
  else
    let isbn := tok_at t 1
    if !is_valid_isbn isbn then Res.fail st
    else
      match st.books.find isbn with
      | none => Res.fail st
      | some b =>
        match parse_int (tok_at t 2) with
        | none => Res.fail st
        | some qty =>
          if qty ≤ 0 then Res.fail st
          else if b.stock < qty then Res.fail st
          else
            let income := wrap64 (b.price_cents * qty)
            ⟨true,
              { st with
                books := st.books.assign isbn { b with stock := b.stock - qty }
                transactions := st.transactions ++ [income] },
              price_to_str income ++ ['\n']⟩

/-! ## Queries (source lines 367-419) -/

/-- Byte-wise `std::string::operator<`. -/
def str_lt : Str → Str → Bool
  | [], [] => false
  | [], _ :: _ => true
  | _ :: _, [] => false
  | a :: as, b :: bs =>
    if a.toNat < b.toNat then true
    else if b.toNat < a.toNat then false
    else str_lt as bs

/-- Order produced by `sort` with the comparator `a->isbn < b->isbn`. -/
def book_le (a b : Book) : Prop := str_lt b.isbn a.isbn = false

instance : DecidableRel book_le := fun a b => by
  unfold book_le
  exact inferInstance

/-- One output row of `cmd_show` (line 394). -/
def show_row (b : Book) : Str :=
  b.isbn ++ ['\t'] ++ b.name ++ ['\t'] ++ b.author ++ ['\t'] ++ b.keyword ++ ['\t'] ++
    price_to_str b.price_cents ++ ['\t'] ++ int_to_str b.stock ++ ['\n']

/-- The four option heads that `cmd_show` glues to the following token. -/
def is_show_flag (s : Str) : Bool :=
  s = "-ISBN=".toList ∨ s = "-name=".toList ∨ s = "-author=".toList ∨ s = "-keyword=".toList

inductive ShowMode where
  | all
  | isbn (val : Str)
  | name (val : Str)
  | author (val : Str)
  | keyword (val : Str)
deriving DecidableEq, Repr

/-- Lines 371-381 of `cmd_show`: the filter, `none` being `return false`. -/
def show_filter (t : List Str) : Option ShowMode :=
  if t.length = 2 ∨ t.length = 3 then
    let s0 := tok_at t 1
    let s := if t.length = 3 ∧ is_show_flag s0 then s0 ++ tok_at t 2 else s0
    if "-ISBN=".toList.isPrefixOf s then
      let val := s.drop 6
      if !is_valid_isbn val then none else some (ShowMode.isbn val)
    else if "-name=".toList.isPrefixOf s then
      let val := s.drop 6
      if !is_valid_na val then none else some (ShowMode.name val)
    else if "-author=".toList.isPrefixOf s then
      let val := s.drop 8
      if !is_valid_na val then none else some (ShowMode.author val)
    else if "-keyword=".toList.isPrefixOf s then
      let val := s.drop 9
      if !is_valid_keyword val then none
      else if '|' ∈ val then none
      else some (ShowMode.keyword val)
    else none
  else some ShowMode.all

/-- Lines 382-390 of `cmd_show`: the books collected into `arr`. -/
def show_select (books : Table Book) : ShowMode → List Book
  | ShowMode.all => books.map Prod.snd
  | ShowMode.isbn val =>
    match books.find val with
    | some b => [b]
    | none => []
  | ShowMode.name val => (books.map Prod.snd).filter (fun b => decide (b.name = val))
  | ShowMode.author val => (books.map Prod.snd).filter (fun b => decide (b.author = val))
  | ShowMode.keyword val =>
    (books.map Prod.snd).filter (fun b => decide (val ∈ split_keywords b.keyword))

def cmd_show (st : State) (t : List Str) : Res :=
  if t.length < 1 ∨ t.length > 3 then Res.fail st
  else if current_priv st < 1 then Res.fail st
  else
    match show_filter t with
    | none => Res.fail st
    | some mode =>
      let arr := (show_select st.books mode).insertionSort book_le
      if arr = [] then ⟨true, st, ['\n']⟩
      else ⟨true, st, (arr.map show_row).flatten⟩

structure FinAcc where
  inc : Int
  exp : Int
deriving DecidableEq, Repr

/-- Body of the summation loops of `cmd_show_finance`. -/
def fin_step (a : FinAcc) (v : Int) : FinAcc :=
  if v ≥ 0 then { a with inc := wrap64 (a.inc + v) } else { a with exp := wrap64 (a.exp - v) }

def fin_line (a : FinAcc) : Str :=
  "+ ".toList ++ price_to_str a.inc ++ " - ".toList ++ price_to_str a.exp ++ ['\n']

def cmd_show_finance (st : State) (t : List Str) : Res :=
  if current_priv st ≠ 7 then Res.fail st
  else if t.length < 2 ∨ t.length > 3 then Res.fail st
  else if tok_at t 1 ≠ "finance".toList then Res.fail st
  else if t.length = 2 then
    ⟨true, st, fin_line (st.transactions.foldl fin_step ⟨0, 0⟩)⟩
  else
    match parse_int (tok_at t 2) with
    | none => Res.fail st
    | some cnt =>
      if cnt = 0 then ⟨true, st, ['\n']⟩
      else if cnt > (st.transactions.length : Int) then Res.fail st
      else
        let tail := st.transactions.drop (st.transactions.length - cnt.toNat)
        ⟨true, st, fin_line (tail.foldl fin_step ⟨0, 0⟩)⟩

def cmd_report_or_log (st : State) (_t : List Str) : Res :=
  if current_priv st ≠ 7 then Res.fail st else Res.done st

/-! ## Main loop (source lines 421-454) -/

/-- The `if / else if` chain of `main` (lines 434-449) for a non-empty token
list whose head is neither `quit` nor `exit`. -/
def dispatch (st : State) (t : List Str) : Res :=
  if tok_at t 0 = "su".toList then cmd_su st t
  else if tok_at t 0 = "logout".toList then cmd_logout st t
  else if tok_at t 0 = "register".toList then cmd_register st t
  else if tok_at t 0 = "passwd".toList then cmd_passwd st t
  else if tok_at t 0 = "useradd".toList then cmd_useradd st t
  else if tok_at t 0 = "delete".toList then cmd_delete st t
  else if tok_at t 0 = "show".toList then
    if t.length ≥ 2 ∧ tok_at t 1 = "finance".toList then cmd_show_finance st t
    else cmd_show st t
  else if tok_at t 0 = "buy".toList then cmd_buy st t
  else if tok_at t 0 = "select".toList then cmd_select st t
  else if tok_at t 0 = "modify".toList then cmd_modify st t
  else if tok_at t 0 = "import".toList then cmd_import st t
  else if tok_at t 0 = "log".toList ∨ (tok_at t 0 = "report".toList ∧ t.length ≥ 2 ∧
      (tok_at t 1 = "finance".toList ∨ tok_at t 1 = "employee".toList)) then
    cmd_report_or_log st t
  else Res.fail st

/-- Effect of one round of the `while` loop: the globals, the text written to
`cout`, and whether the loop was left (`quit` / `exit`). -/
structure StepRes where
  st : State
  out : Str
  halt : Bool
deriving DecidableEq, Repr

/-- One round of the loop of `main` on a line delivered by `getline`. -/
def process_line (st : State) (line : Str) : StepRes :=
  if line.all is_space then ⟨st, [], false⟩
  else
    let t := tokenize line
    if t = [] then ⟨st, [], false⟩
    else
      if tok_at t 0 = "quit".toList ∨ tok_at t 0 = "exit".toList then ⟨st, [], true⟩
      else
        let r := dispatch st t
        ⟨r.st, if r.ok then r.out else r.out ++ invalid_line, false⟩

/-- The loop of `main` over the lines of the input; returns the final globals
and everything written to `cout`. -/
def main_loop : State → List Str → State × Str
  | st, [] => (st, [])
  | st, line :: rest =>
    let r := process_line st line
    if r.halt then (r.st, r.out)
    else ((main_loop r.st rest).1, r.out ++ (main_loop r.st rest).2)

/-- The states the program can be in after reading some input on a first run. -/
def Reachable (st : State) : Prop := ∃ lines : List Str, (main_loop bootstrap lines).1 = st

/-- A line makes the program print `Invalid` (and nothing else). -/
def emits_invalid (st : State) (line : Str) : Prop := (process_line st line).out = invalid_line

instance (st : State) (line : Str) : Decidable (emits_invalid st line) := by
  unfold emits_invalid
  exact inferInstance


/-! ## Properties stated about the program -/

/-- Every account has a privilege in {1,3,7}, and every session context names
an account and carries that account's privilege. -/
def session_inv (st : State) : Prop :=
  (∀ k acc, st.accounts.find k = some acc →
      acc.privilege = 1 ∨ acc.privilege = 3 ∨ acc.privilege = 7) ∧
    ∀ c ∈ st.login_stack, ∃ acc, st.accounts.find c.user_id = some acc ∧
      c.privilege = acc.privilege

/-- The identity part (user id, privilege) of the session stack. -/
def ctx_ids (st : State) : List (Str × Int) :=
  st.login_stack.map (fun c => (c.user_id, c.privilege))

/-- The wording "formatted as fixed 2-decimal currency" for a signed amount of
cents, written independently of `price_to_str`: a minus sign for a negative
amount, the whole units, a point, and exactly two digits of cents. -/
def spec_currency (c : Int) : Str :=
  (if c < 0 then ['-'] else []) ++ nat_to_str (c.natAbs / 100) ++ ['.'] ++ pad2 (c.natAbs % 100)

/-! ### Writing a `modify` command -/

/-- The five fields a `modify` command can assign. -/
inductive Field where
  | isbn
  | name
  | author
  | keyword
  | price
deriving DecidableEq, Repr

/-- The option head of a field. -/
def Field.head : Field → Str
  | Field.isbn => "-ISBN=".toList
  | Field.name => "-name=".toList
  | Field.author => "-author=".toList
  | Field.keyword => "-keyword=".toList
  | Field.price => "-price=".toList

/-- One assignment of a `modify` command as it is written on the line: the
field, the value, and whether the value was written in double quotes (the
tokenizer then delivers the head and the value as two tokens). -/
structure Assign where
  field : Field
  value : Str
  quoted : Bool
deriving DecidableEq, Repr

/-- The tokens an assignment contributes. -/
def Assign.tokens (a : Assign) : List Str :=
  if a.quoted then [a.field.head, a.value] else [a.field.head ++ a.value]

/-- The token list of `modify` followed by the given assignments. -/
def modify_tokens (asg : List Assign) : List Str :=
  "modify".toList :: (asg.map Assign.tokens).flatten

/-- An assignment is well formed: its value passes the validator of its field,
and a value written without quotes is not empty. -/
def Assign.valid (a : Assign) : Bool :=
  (a.quoted || decide (a.value ≠ [])) &&
    match a.field with
    | Field.isbn => is_valid_isbn a.value
    | Field.name => is_valid_na a.value
    | Field.author => is_valid_na a.value
    | Field.keyword => is_valid_keyword a.value && !has_duplicate_segments a.value
    | Field.price => (parse_price a.value).isSome

/-- The value a list of assignments gives to a field: that of its last
assignment to the field, if any. -/
def assigned (f : Field) : List Assign → Option Str
  | [] => none
  | a :: rest =>
    match assigned f rest with
    | some v => some v
    | none => if a.field = f then some a.value else none

/-- The book a list of well-formed assignments asks for: assigned fields take
the new value (the price in cents), the other fields and the stock stay. -/
def modified_book (b : Book) (asg : List Assign) : Book :=
  { isbn := (assigned Field.isbn asg).getD b.isbn
    name := (assigned Field.name asg).getD b.name
    author := (assigned Field.author asg).getD b.author
    keyword := (assigned Field.keyword asg).getD b.keyword
    price_cents :=
      match assigned Field.price asg with
      | some v => (parse_price v).getD b.price_cents
      | none => b.price_cents
    stock := b.stock }

/-- Effect of one well-formed assignment on the locals of `cmd_modify`. -/
def ModAcc.set (m : ModAcc) (a : Assign) : ModAcc :=
  match a.field with
  | Field.isbn => { m with new_isbn := a.value, has_isbn := true }
  | Field.name => { m with new_name := a.value, has_name := true }
  | Field.author => { m with new_author := a.value, has_author := true }
  | Field.keyword => { m with new_keyword := a.value, has_keyword := true }
  | Field.price =>
    match parse_price a.value with
    | some c => { m with new_price := c, has_price := true }
    | none => m

/-! ### Currency text -/

/-- One step of reading a decimal digit string. -/
def dec_step (v : Int) (c : Char) : Int := v * 10 + ((c.toNat : Int) - 48)

/-- Value of the digit string `s` read in base ten after the value `v`. -/
def dec_value_from (v : Int) (s : Str) : Int := s.foldl dec_step v

/-- Value of a digit string read in base ten (0 for the empty string). -/
def dec_value (s : Str) : Int := dec_value_from 0 s

/-- The part of a currency text before the first point. -/
def whole_part (s : Str) : Str := s.takeWhile (fun c => c != '.')

/-- The part of a currency text after the first point (empty without a point). -/
def frac_part (s : Str) : Str := (s.dropWhile (fun c => c != '.')).drop 1

/-- The currency format in words: not empty, at most 13 bytes, only decimal
digits and at most one point, one or two digits after the point when there is
one, and a whole part of at most 90,000,000,000. -/
def price_format (s : Str) : Prop :=
  s ≠ [] ∧ s.length ≤ 13 ∧ (∀ c ∈ s, isdigit c = true ∨ c = '.') ∧ s.count '.' ≤ 1 ∧
    ('.' ∈ s → 1 ≤ (frac_part s).length ∧ (frac_part s).length ≤ 2) ∧
    dec_value (whole_part s) ≤ 90000000000

/-- The amount in cents a currency text denotes: the whole part times 100 plus
the fractional digits right-padded with zeros to two digits. -/
def price_cents_of (s : Str) : Int :=
  dec_value (whole_part s) * 100 +
    dec_value (frac_part s ++ List.replicate (2 - (frac_part s).length) '0')

/-! ### Field formats in words -/

/-- An identifier token in words: 1 to 30 bytes, each an ASCII letter, a decimal
digit or the underscore. -/
def ident_format (s : Str) : Prop :=
  1 ≤ s.length ∧ s.length ≤ 30 ∧
    ∀ c ∈ s, (65 ≤ c.toNat ∧ c.toNat ≤ 90) ∨ (97 ≤ c.toNat ∧ c.toNat ≤ 122) ∨
      (48 ≤ c.toNat ∧ c.toNat ≤ 57) ∨ c = '_'

/-- A display name in words: 1 to 30 bytes, none below 32. -/
def display_name_format (s : Str) : Prop :=
  1 ≤ s.length ∧ s.length ≤ 30 ∧ ∀ c ∈ s, 32 ≤ c.toNat

/-- The privilege a `useradd` privilege token denotes: a single digit 1, 3 or 7. -/
def privilege_of_token (s : Str) : Option Int :=
  if s = ['1'] then some 1 else if s = ['3'] then some 3 else if s = ['7'] then some 7 else none

/-! ### Ledger totals -/

/-- Income of a ledger: the sum of its non-negative entries. -/
def income_sum (l : List Int) : Int := (l.filter (fun v => decide (v ≥ 0))).sum

/-- Expenditure of a ledger: the sum of the absolute values of its negative
entries. -/
def expense_sum (l : List Int) : Int :=
  ((l.filter (fun v => decide (v < 0))).map (fun v => (v.natAbs : Int))).sum

/-- The summary line `+ <income> - <expenditure>` of a ledger, both amounts as
2-decimal currency. -/
def finance_text (l : List Int) : Str :=
  "+ ".toList ++ spec_currency (income_sum l) ++ " - ".toList ++
    spec_currency (expense_sum l) ++ ['\n']

/-! ### Writing a line of tokens -/

/-- A token as it is written on an input line: its content, whether it is
enclosed in double quotes, and how many spaces beyond the first separate it from
the next token. -/
structure Written where
  word : Str
  quoted : Bool
  gap : Nat
deriving DecidableEq, Repr

/-- A run of `n` spaces. -/
def spaces (n : Nat) : Str := List.replicate n ' '

/-- The text of one token: bare, or between a pair of double quotes. -/
def write_token (x : Written) : Str :=
  if x.quoted then '"' :: (x.word ++ ['"']) else x.word

/-- The written tokens joined by one or more spaces, followed by `trail`
spaces. -/
def written_line : List Written → Nat → Str
  | [], trail => spaces trail
  | [x], trail => write_token x ++ spaces trail
  | x :: y :: rest, trail =>
    write_token x ++ spaces (x.gap + 1) ++ written_line (y :: rest) trail

/-- A token can be written this way: it holds no double quote, and a bare token
is not empty and holds no space. -/
def Written.ok (x : Written) : Prop :=
  '"' ∉ x.word ∧ (x.quoted = false → x.word ≠ [] ∧ ' ' ∉ x.word)

instance (x : Written) : Decidable x.ok := by
  unfold Written.ok
  exact inferInstance

/-- The end of `tokenize` (line 68): a pending token is pushed. -/
def tokenize_finish (s : TokSt) : List Str :=
  if s.cur ≠ [] then s.tok ++ [s.cur] else s.tok

/-! ### Show queries -/

/-- The filter a written `show` option stands for; `show` has no price filter. -/
def show_query_mode : Field → Str → Option ShowMode
  | Field.isbn, v => some (ShowMode.isbn v)
  | Field.name, v => some (ShowMode.name v)
  | Field.author, v => some (ShowMode.author v)
  | Field.keyword, v => some (ShowMode.keyword v)
  | Field.price, _ => none

/-- The value of a `show` filter is well formed for its field; a keyword value is
one tag without the delimiter. -/
def show_value_ok : Field → Str → Bool
  | Field.isbn, v => is_valid_isbn v
  | Field.name, v => is_valid_na v
  | Field.author, v => is_valid_na v
  | Field.keyword, v => is_valid_keyword v && !decide ('|' ∈ v)
  | Field.price, _ => false

/-- A book satisfies a filter: every book without a filter, else equality of
the isbn, name or author, or the value being one of the `|`-delimited segments of
the keyword field. -/
def book_matches : ShowMode → Book → Prop
  | ShowMode.all, _ => True
  | ShowMode.isbn v, b => b.isbn = v
  | ShowMode.name v, b => b.name = v
  | ShowMode.author v, b => b.author = v
  | ShowMode.keyword v, b => v ∈ b.keyword.splitOn '|'

/-- The text `cmd_show` prints for the rows `rows`. -/
def show_text (rows : List Book) : Str :=
  if rows = [] then ['\n'] else (rows.map show_row).flatten

/-- The table is a map (its keys are pairwise distinct) and every book is stored
under its own isbn. -/
def books_keyed (books : Table Book) : Prop :=
  (books.map Prod.fst).Nodup ∧ ∀ e ∈ books, e.2.isbn = e.1

/-! ## Concrete states used by the examples below -/

/-- A state whose only account is stored under a key that is not an identifier
token (such a table is what `load_accounts` builds from a database file holding
that user id). -/
def su_rule_state : State :=
  { accounts := [("a-b".toList, ⟨"a-b".toList, "pw".toList, "n".toList, 1⟩)]
    books := []
    transactions := []
    login_stack := [] }

/-- A customer session and one book whose stored price is negative (such a
table is what `load_books` builds from a database file holding that price). -/
def negative_price_state : State :=
  { accounts := []
    books := [("111".toList, ⟨"111".toList, [], [], [], -50, 1⟩)]
    transactions := []
    login_stack := [⟨"u".toList, 1, []⟩] }

/-- A customer session and one book with price 12.50 and stock 5. -/
def buy_example_state : State :=
  { accounts := []
    books := [("111".toList, ⟨"111".toList, [], [], [], 1250, 5⟩)]
    transactions := []
    login_stack := [⟨"u".toList, 1, []⟩] }

/-- Input after which the root session has book `111` selected. -/
def select_trace : List Str :=
  ["su root sjtu".toList, "select 111".toList]

/-- Input after which books `222` and `111` exist and `111` is selected. -/
def two_books_trace : List Str :=
  ["su root sjtu".toList, "select 222".toList, "select 111".toList]

/-- Input in which a nested session renames the book that the outer session
has selected as well. -/
def stale_selection_trace : List Str :=
  ["su root sjtu".toList, "select 111".toList, "su root sjtu".toList, "select 111".toList,
    "modify -ISBN=222".toList]

/-- The same input followed by the return to the outer session. -/
def stale_top_trace : List Str :=
  stale_selection_trace ++ ["logout".toList]

/-- Input after which book `1` has the largest price `parse_price` accepts
(90000000000.00) and the largest stock one `import` can add. -/
def large_sale_trace : List Str :=
  ["su root sjtu".toList, "select 1".toList, "modify -price=90000000000".toList,
    "import 2147483647 1".toList]

/-- Input after which the ledger holds two sales of 90000000000000000.00 each. -/
def large_ledger_trace : List Str :=
  ["su root sjtu".toList, "select 1".toList, "modify -price=90000000000".toList,
    "import 2000000 1".toList, "buy 1 1000000".toList, "buy 1 1000000".toList]

/-- A root session over a ledger of 2147483648 entries, all zero. -/
def long_ledger_state : State :=
  { accounts := []
    books := []
    transactions := List.replicate 2147483648 0
    login_stack := [⟨"root".toList, 7, []⟩] }

/-- A root session over the ledger of the specification's example. -/
def finance_example_state : State :=
  { accounts := []
    books := []
    transactions := [50000, -20000, 30000]
    login_stack := [⟨"root".toList, 7, []⟩] }

/-- A customer session over three books stored under their own isbn, not in isbn
order. -/
def show_example_state : State :=
  { accounts := []
    books := [("222".toList, ⟨"222".toList, "n2".toList, "au".toList, "x|y".toList, 100, 1⟩),
      ("111".toList, ⟨"111".toList, "n1".toList, "au".toList, "y|z".toList, 250, 2⟩),
      ("333".toList, ⟨"333".toList, "n3".toList, "bu".toList, "xy".toList, 5, 0⟩)]
    transactions := []
    login_stack := [⟨"u".toList, 1, []⟩] }

/-- A line of seven unknown 184-byte tokens after the word `foo`; the program
answers `Invalid`, and the buffers it allocates and frees for the tokens decide
where the allocator places the entries of the next command. -/
def filler_line : Str :=
  "foo".toList ++ (List.replicate 7 (' ' :: List.replicate 184 'x')).flatten

/-- Input after which the root session has selected the book stored under the
18-byte isbn `IIIIIIIIIIIIIIIIII`, with a 24-byte author. -/
def dangling_rename_trace : List Str :=
  ["su root sjtu".toList, "select IIIIIIIIIIIIIIIIII".toList,
    "modify -author=AAAAAAAAAAAAAAAAAAAAAAAA".toList, filler_line]
/-! ## Basic facts about the model -/

theorem Table.find_assign_same {V : Type} (m : Table V) (k : Str) (v : V) :
    (m.assign k v).find k = some v := by
  induction m with
  | nil => simp [Table.assign, Table.find]
  | cons e rest ih =>
    obtain ⟨k1, v1⟩ := e
    by_cases h : k1 = k
    · simp [Table.assign, Table.find, h]
    · simp [Table.assign, Table.find, h, ih]

theorem Table.find_assign_other {V : Type} (m : Table V) (k j : Str) (v : V) (h : j ≠ k) :
    (m.assign k v).find j = m.find j := by
  have hkj : ¬ k = j := fun e => h e.symm
  induction m with
  | nil => simp [Table.assign, Table.find, hkj]
  | cons e rest ih =>
    obtain ⟨k1, v1⟩ := e
    by_cases h1 : k1 = k
    · subst h1
      simp [Table.assign, Table.find, hkj]
    · by_cases h2 : k1 = j
      · subst h2
        simp [Table.assign, Table.find, h1]
      · simp [Table.assign, Table.find, h1, h2, ih]

theorem Table.erase_cons {V : Type} (k1 : Str) (v1 : V) (rest : Table V) (k : Str) :
    Table.erase ((k1, v1) :: rest) k =
      if k1 = k then Table.erase rest k else (k1, v1) :: Table.erase rest k := by
  by_cases h : k1 = k <;> simp [Table.erase, List.filter, h]

theorem Table.find_erase_same {V : Type} (m : Table V) (k : Str) :
    (m.erase k).find k = none := by
  induction m with
  | nil => simp [Table.erase, Table.find]
  | cons e rest ih =>
    obtain ⟨k1, v1⟩ := e
    rw [Table.erase_cons]
    by_cases h : k1 = k
    · simp [h, ih]
    · simp [h, Table.find, ih]

theorem Table.find_erase_other {V : Type} (m : Table V) (k j : Str) (h : j ≠ k) :
    (m.erase k).find j = m.find j := by
  induction m with
  | nil => simp [Table.erase, Table.find]
  | cons e rest ih =>
    obtain ⟨k1, v1⟩ := e
    rw [Table.erase_cons]
    by_cases h1 : k1 = k
    · subst h1
      have h2 : ¬ k1 = j := fun e => h e.symm
      simp [Table.find, h2, ih]
    · by_cases h2 : k1 = j
      · subst h2
        simp [h1, Table.find]
      · simp [h1, Table.find, h2, ih]

theorem Table.touch_of_find {V : Type} (m : Table V) (k : Str) (d v : V)
    (h : m.find k = some v) : m.touch k d = m := by
  simp [Table.touch, h]

@[simp] theorem tok_at_nil (i : Nat) : tok_at [] i = [] := by
  simp [tok_at]

@[simp] theorem tok_at_zero (a : Str) (t : List Str) : tok_at (a :: t) 0 = a := by
  simp [tok_at]

@[simp] theorem tok_at_succ (a : Str) (t : List Str) (i : Nat) :
    tok_at (a :: t) (i + 1) = tok_at t i := by
  simp [tok_at]

theorem tokenize_fold_space (line : Str) (h : line.all is_space = true) :
    line.foldl tokenize_step ⟨[], [], false⟩ = ⟨[], [], false⟩ := by
  induction line with
  | nil => rfl
  | cons c cs ih =>
    simp only [List.all_cons, Bool.and_eq_true] at h
    have hc : c = ' ' := by simpa [is_space] using h.1
    subst hc
    simpa [List.foldl, tokenize_step, is_space] using ih h.2

theorem tokenize_all_space (line : Str) (h : line.all is_space = true) :
    tokenize line = [] := by
  simp [tokenize, tokenize_fold_space line h]

/-- A line whose first token is a command word other than `quit` / `exit` is
handed to `dispatch`. -/
theorem process_line_dispatch (st : State) (line : Str) (t : List Str)
    (ht : tokenize line = t) (hne : t ≠ [])
    (hq : tok_at t 0 ≠ "quit".toList) (he : tok_at t 0 ≠ "exit".toList) :
    process_line st line =
      ⟨(dispatch st t).st,
        if (dispatch st t).ok then (dispatch st t).out else (dispatch st t).out ++ invalid_line,
        false⟩ := by
  have hsp : ¬ (line.all is_space = true) := by
    intro h
    exact hne (ht ▸ tokenize_all_space line h)
  unfold process_line
  rw [if_neg hsp]
  simp only [ht]
  rw [if_neg hne, if_neg (by tauto)]

/-! ## Sessions: `su` and `logout` -/

theorem cmd_su_cases (st : State) (t : List Str) :
    ((cmd_su st t).ok = false ∧ (cmd_su st t).st = st ∧ (cmd_su st t).out = []) ∨
    ((cmd_su st t).ok = true ∧ (cmd_su st t).out = [] ∧
      ∃ acc, st.accounts.find (tok_at t 1) = some acc ∧
        (cmd_su st t).st =
          { st with login_stack := ⟨tok_at t 1, acc.privilege, []⟩ :: st.login_stack }) := by
  unfold cmd_su
  cases hf : st.accounts.find (tok_at t 1) with
  | none => simp only [hf]; split_ifs <;> simp [Res.fail]
  | some acc => simp only [hf]; split_ifs <;> simp [Res.fail, Res.done]

theorem dispatch_su (st : State) (t : List Str) (h : tok_at t 0 = "su".toList) :
    dispatch st t = cmd_su st t := by
  simp [dispatch, h]

theorem dispatch_logout (st : State) (t : List Str) (h : tok_at t 0 = "logout".toList) :
    dispatch st t = cmd_logout st t := by
  simp [dispatch, h]

theorem dispatch_delete (st : State) (t : List Str) (h : tok_at t 0 = "delete".toList) :
    dispatch st t = cmd_delete st t := by
  simp [dispatch, h]

/-- What a successful `su` line does. -/
theorem su_line_ok (st : State) (line : Str)
    (h : tok_at (tokenize line) 0 = "su".toList) (hok : ¬ emits_invalid st line) :
    ∃ c, (process_line st line) = ⟨{ st with login_stack := c :: st.login_stack }, [], false⟩ := by
  have hne : tokenize line ≠ [] := by
    intro h0
    rw [h0] at h
    simp at h
  have hp := process_line_dispatch st line (tokenize line) rfl hne (by rw [h]; decide)
    (by rw [h]; decide)
  rw [dispatch_su st _ h] at hp
  rcases cmd_su_cases st (tokenize line) with ⟨h1, h2, h3⟩ | ⟨h1, h2, acc, _, h4⟩
  · exfalso
    apply hok
    simp [emits_invalid, hp, h1, h3]
  · refine ⟨⟨tok_at (tokenize line) 1, acc.privilege, []⟩, ?_⟩
    rw [hp, h1, h2, h4]
    simp

theorem logout_line (st : State) (lo : Str) (hlo : tokenize lo = ["logout".toList]) :
    process_line st lo =
      if st.login_stack = [] then ⟨st, invalid_line, false⟩
      else ⟨{ st with login_stack := st.login_stack.tail }, [], false⟩ := by
  have hp := process_line_dispatch st lo _ hlo (by simp) (by decide) (by decide)
  rw [dispatch_logout st _ (by rfl)] at hp
  rw [hp]
  by_cases h : st.login_stack = [] <;> simp [cmd_logout, h, Res.fail, Res.done]

/-- C3. Session nesting round trip: after two `su` lines that both succeed, two
`logout` lines bring back the state (accounts, books, ledger and the whole
session stack) from before the first `su`; and `logout` on an empty session
stack prints `Invalid`. -/
theorem session_nesting_round_trip (st : State) (lA lB lo : Str)
    (hA : tok_at (tokenize lA) 0 = "su".toList)
    (hB : tok_at (tokenize lB) 0 = "su".toList)
    (hlo : tokenize lo = ["logout".toList])
    (hokA : ¬ emits_invalid st lA)
    (hokB : ¬ emits_invalid (process_line st lA).st lB) :
    (main_loop st [lA, lB, lo, lo]).1 = st ∧
      ∀ s0 : State, s0.login_stack = [] → emits_invalid s0 lo := by
  constructor
  · obtain ⟨cA, hpA⟩ := su_line_ok st lA hA hokA
    rw [hpA] at hokB
    obtain ⟨cB, hpB⟩ := su_line_ok _ lB hB hokB
    simp [main_loop, hpA, hpB, logout_line _ lo hlo]
  · intro s0 h0
    simp [emits_invalid, logout_line _ lo hlo, h0]

/-- The round trip on the bootstrap state with two password logins of root. -/
theorem session_nesting_round_trip_witness :
    (main_loop bootstrap ["su root sjtu".toList, "su root sjtu".toList, "logout".toList,
        "logout".toList]).1 = bootstrap ∧
      ∀ s0 : State, s0.login_stack = [] → emits_invalid s0 "logout".toList :=
  session_nesting_round_trip bootstrap "su root sjtu".toList "su root sjtu".toList "logout".toList
    (by decide) (by decide) (by decide) (by decide) (by decide)

/-- C2 (amended). Login rule: `su uid` without a password succeeds exactly when
`uid` is a valid identifier naming an existing account whose privilege is
strictly below the current privilege; `su uid pw` succeeds exactly when `uid` is
a valid identifier, the account exists and `pw` equals its stored password. On
success exactly one context (uid, the account's privilege, empty selection) is
pushed, nothing is printed and accounts, books, ledger and the lower contexts are
unchanged; with an empty stack a password-less `su` never succeeds when every
account has privilege in {1,3,7}. -/
theorem su_login_rule (st : State) (line : Str) (uid : Str) :
    (tokenize line = ["su".toList, uid] →
        (¬ emits_invalid st line ↔
          is_valid_user_token uid = true ∧
            ∃ acc, st.accounts.find uid = some acc ∧ current_priv st > acc.privilege)) ∧
    (∀ pw, tokenize line = ["su".toList, uid, pw] →
        (¬ emits_invalid st line ↔
          is_valid_user_token uid = true ∧
            ∃ acc, st.accounts.find uid = some acc ∧ pw = acc.password)) ∧
    ((tokenize line = ["su".toList, uid] ∨ ∃ pw, tokenize line = ["su".toList, uid, pw]) →
        ¬ emits_invalid st line →
        ∃ acc, st.accounts.find uid = some acc ∧
          process_line st line =
            ⟨{ st with login_stack := ⟨uid, acc.privilege, []⟩ :: st.login_stack }, [], false⟩) ∧
    (tokenize line = ["su".toList, uid] → st.login_stack = [] →
        (∀ k acc, st.accounts.find k = some acc →
          acc.privilege = 1 ∨ acc.privilege = 3 ∨ acc.privilege = 7) →
        emits_invalid st line) := by
  have key2 : tokenize line = ["su".toList, uid] →
      (¬ emits_invalid st line ↔
          is_valid_user_token uid = true ∧
            ∃ acc, st.accounts.find uid = some acc ∧ current_priv st > acc.privilege) := by
    intro ht
    have hp := process_line_dispatch st line _ ht (by simp) (by simp) (by simp)
    rw [dispatch_su st _ (by rfl)] at hp
    unfold emits_invalid
    rw [hp]
    cases hf : st.accounts.find uid with
    | none => simp [cmd_su, hf, Res.fail]
    | some acc =>
      by_cases hv : is_valid_user_token uid = true <;>
        by_cases hc : acc.privilege < current_priv st <;>
        simp [cmd_su, hf, Res.fail, Res.done, hv, hc, invalid_line]
  have key3 : ∀ pw, tokenize line = ["su".toList, uid, pw] →
      (¬ emits_invalid st line ↔
          is_valid_user_token uid = true ∧
            ∃ acc, st.accounts.find uid = some acc ∧ pw = acc.password) := by
    intro pw ht
    have hp := process_line_dispatch st line _ ht (by simp) (by simp) (by simp)
    rw [dispatch_su st _ (by rfl)] at hp
    unfold emits_invalid
    rw [hp]
    cases hf : st.accounts.find uid with
    | none => simp [cmd_su, hf, Res.fail]
    | some acc =>
      by_cases hv : is_valid_user_token uid = true <;>
        by_cases hc : pw = acc.password <;>
        simp [cmd_su, hf, Res.fail, Res.done, hv, hc, invalid_line]
  refine ⟨key2, key3, ?_, ?_⟩
  · intro hform hok
    have hhead : tok_at (tokenize line) 0 = "su".toList := by
      rcases hform with h | ⟨pw, h⟩ <;> rw [h] <;> rfl
    have hu : tok_at (tokenize line) 1 = uid := by
      rcases hform with h | ⟨pw, h⟩ <;> rw [h] <;> rfl
    have hne : tokenize line ≠ [] := by
      rcases hform with h | ⟨pw, h⟩ <;> rw [h] <;> simp
    have hp := process_line_dispatch st line (tokenize line) rfl hne (by rw [hhead]; decide)
      (by rw [hhead]; decide)
    rw [dispatch_su st _ hhead] at hp
    rcases cmd_su_cases st (tokenize line) with ⟨h1, h2, h3⟩ | ⟨h1, h2, acc, h4, h5⟩
    · exfalso
      apply hok
      simp [emits_invalid, hp, h1, h3]
    · rw [hu] at h4 h5
      refine ⟨acc, h4, ?_⟩
      rw [hp, h1, h2, h5]
      simp
  · intro ht hst hall
    by_contra hcon
    obtain ⟨_, acc, hf, hgt⟩ := (key2 ht).mp hcon
    have h0 : current_priv st = 0 := by simp [current_priv, hst]
    rw [h0] at hgt
    rcases hall uid acc hf with h | h | h <;> omega


/-- The login rule on concrete lines: switching down from root to a registered
user without a password, a password login of root, the context it pushes, and the
rejected password-less login on the empty stack. -/
theorem su_login_rule_witness :
    (¬ emits_invalid (main_loop bootstrap ["su root sjtu".toList, "register u1 p1 n1".toList]).1
          "su u1".toList ↔
        is_valid_user_token "u1".toList = true ∧
          ∃ acc, (main_loop bootstrap
              ["su root sjtu".toList, "register u1 p1 n1".toList]).1.accounts.find "u1".toList =
                some acc ∧
            current_priv (main_loop bootstrap
              ["su root sjtu".toList, "register u1 p1 n1".toList]).1 > acc.privilege) ∧
      (¬ emits_invalid bootstrap "su root sjtu".toList ↔
        is_valid_user_token "root".toList = true ∧
          ∃ acc, bootstrap.accounts.find "root".toList = some acc ∧
            "sjtu".toList = acc.password) ∧
      (∃ acc, bootstrap.accounts.find "root".toList = some acc ∧
        process_line bootstrap "su root sjtu".toList =
          ⟨{ bootstrap with
              login_stack := ⟨"root".toList, acc.privilege, []⟩ :: bootstrap.login_stack },
            [], false⟩) ∧
      emits_invalid bootstrap "su root".toList :=
  ⟨(su_login_rule _ "su u1".toList "u1".toList).1 (by decide),
    (su_login_rule bootstrap "su root sjtu".toList "root".toList).2.1 "sjtu".toList (by decide),
    (su_login_rule bootstrap "su root sjtu".toList "root".toList).2.2.1
      (Or.inr ⟨"sjtu".toList, by decide⟩) (by decide),
    (su_login_rule bootstrap "su root".toList "root".toList).2.2.2 (by decide) (by decide)
      (by
        intro k acc h
        simp only [bootstrap, Table.find] at h
        split at h
        · injection h with h
          subst h
          simp
        · simp at h)⟩

/-- C2 (as stated) fails: in `su_rule_state` the account `a-b` exists and the
supplied password equals the stored one, yet `su a-b pw` prints `Invalid`,
because `a-b` is not a valid identifier token. -/
theorem su_login_rule_counterexample :
    tokenize "su a-b pw".toList = ["su".toList, "a-b".toList, "pw".toList] ∧
      su_rule_state.accounts.find "a-b".toList =
        some ⟨"a-b".toList, "pw".toList, "n".toList, 1⟩ ∧
      emits_invalid su_rule_state "su a-b pw".toList := by
  decide

/-! ## Account deletion -/

/-- C7. Delete guard: `delete u` prints `Invalid` and changes nothing whenever `u`
is the user id of some context of the session stack (top or not); when the
current privilege is 7, `u` is a valid identifier naming an existing account and
`u` occurs in no context, `delete u` removes exactly the account `u` and changes
nothing else. -/
theorem delete_guard (st : State) (line : Str) (u : Str)
    (ht : tokenize line = ["delete".toList, u]) :
    ((∃ c ∈ st.login_stack, c.user_id = u) →
        emits_invalid st line ∧ (process_line st line).st = st) ∧
    (current_priv st = 7 → is_valid_user_token u = true → st.accounts.count u = true →
        (∀ c ∈ st.login_stack, c.user_id ≠ u) →
        process_line st line = ⟨{ st with accounts := st.accounts.erase u }, [], false⟩ ∧
          (st.accounts.erase u).find u = none ∧
          ∀ v, v ≠ u → (st.accounts.erase u).find v = st.accounts.find v) := by
  have hp := process_line_dispatch st line _ ht (by simp) (by simp) (by simp)
  rw [dispatch_delete st _ (by rfl)] at hp
  constructor
  · rintro ⟨c, hc, hcu⟩
    have hany : st.login_stack.any (fun ctx => decide (ctx.user_id = u)) = true := by
      simp only [List.any_eq_true, decide_eq_true_eq]
      exact ⟨c, hc, hcu⟩
    unfold emits_invalid
    rw [hp]
    simp only [cmd_delete, tok_at_succ, tok_at_zero, hany]
    split_ifs <;> simp_all [Res.fail]
  · intro hpriv hv hcount hnot
    have hany : st.login_stack.any (fun ctx => decide (ctx.user_id = u)) = false := by
      rw [Bool.eq_false_iff]
      intro h
      simp only [List.any_eq_true, decide_eq_true_eq] at h
      obtain ⟨c, hc, hcu⟩ := h
      exact hnot c hc hcu
    refine ⟨?_, Table.find_erase_same _ _, fun v hvu => Table.find_erase_other _ _ _ hvu⟩
    rw [hp]
    simp [cmd_delete, hpriv, hv, hcount, hany, Res.done]

/-- The delete guard on concrete lines: root, who is logged in, cannot be deleted;
a registered user with no session is removed. -/
theorem delete_guard_witness :
    (emits_invalid (main_loop bootstrap ["su root sjtu".toList, "register u1 p1 n1".toList]).1
          "delete root".toList ∧
        (process_line (main_loop bootstrap
            ["su root sjtu".toList, "register u1 p1 n1".toList]).1 "delete root".toList).st =
          (main_loop bootstrap ["su root sjtu".toList, "register u1 p1 n1".toList]).1) ∧
      (process_line (main_loop bootstrap ["su root sjtu".toList, "register u1 p1 n1".toList]).1
            "delete u1".toList =
          ⟨{ (main_loop bootstrap ["su root sjtu".toList, "register u1 p1 n1".toList]).1 with
              accounts := (main_loop bootstrap
                ["su root sjtu".toList, "register u1 p1 n1".toList]).1.accounts.erase
                  "u1".toList }, [], false⟩ ∧
        ((main_loop bootstrap
            ["su root sjtu".toList, "register u1 p1 n1".toList]).1.accounts.erase
              "u1".toList).find "u1".toList = none ∧
        ∀ v, v ≠ "u1".toList →
          ((main_loop bootstrap
            ["su root sjtu".toList, "register u1 p1 n1".toList]).1.accounts.erase
              "u1".toList).find v =
            (main_loop bootstrap
              ["su root sjtu".toList, "register u1 p1 n1".toList]).1.accounts.find v) :=
  ⟨(delete_guard _ "delete root".toList "root".toList (by decide)).1
      ⟨⟨"root".toList, 7, []⟩, by decide, by decide⟩,
    (delete_guard _ "delete u1".toList "u1".toList (by decide)).2
      (by decide) (by decide) (by decide) (by decide)⟩

/-! ## Dispatch and authorization -/

theorem dispatch_register (st : State) (t : List Str) (h : tok_at t 0 = "register".toList) :
    dispatch st t = cmd_register st t := by
  simp [dispatch, h]

theorem dispatch_passwd (st : State) (t : List Str) (h : tok_at t 0 = "passwd".toList) :
    dispatch st t = cmd_passwd st t := by
  simp [dispatch, h]

theorem dispatch_useradd (st : State) (t : List Str) (h : tok_at t 0 = "useradd".toList) :
    dispatch st t = cmd_useradd st t := by
  simp [dispatch, h]

theorem dispatch_show (st : State) (t : List Str) (h : tok_at t 0 = "show".toList) :
    dispatch st t =
      if t.length ≥ 2 ∧ tok_at t 1 = "finance".toList then cmd_show_finance st t
      else cmd_show st t := by
  simp [dispatch, h]

theorem dispatch_buy (st : State) (t : List Str) (h : tok_at t 0 = "buy".toList) :
    dispatch st t = cmd_buy st t := by
  simp [dispatch, h]

theorem dispatch_select (st : State) (t : List Str) (h : tok_at t 0 = "select".toList) :
    dispatch st t = cmd_select st t := by
  simp [dispatch, h]

theorem dispatch_modify (st : State) (t : List Str) (h : tok_at t 0 = "modify".toList) :
    dispatch st t = cmd_modify st t := by
  simp [dispatch, h]

theorem dispatch_import (st : State) (t : List Str) (h : tok_at t 0 = "import".toList) :
    dispatch st t = cmd_import st t := by
  simp [dispatch, h]

/-- A line whose handler returns `false` without touching the globals prints
`Invalid` and leaves the state as it was. -/
theorem line_rejected (st : State) (line : Str)
    (hq : tok_at (tokenize line) 0 ≠ "quit".toList)
    (he : tok_at (tokenize line) 0 ≠ "exit".toList)
    (hne : tokenize line ≠ [])
    (hd : dispatch st (tokenize line) = Res.fail st) :
    emits_invalid st line ∧ (process_line st line).st = st := by
  have hp := process_line_dispatch st line _ rfl hne hq he
  unfold emits_invalid
  rw [hp, hd]
  simp [Res.fail]

theorem tokens_ne_nil (t : List Str) (c : Str) (h : tok_at t 0 = c) (hc : c ≠ []) : t ≠ [] := by
  intro h0
  rw [h0] at h
  simp at h
  exact hc h

/-- C9. Authorization thresholds: a line prints `Invalid` when its command is
`useradd`, `select`, `modify` or `import` and the current privilege is below 3,
when it is `delete` or `show finance` and the current privilege is below 7, and
when it is `buy` or an inventory `show` and the current privilege is below 1;
whereas `register` with well-formed arguments and a fresh user id succeeds in
every state, so also at privilege 0, adding the new account with privilege 1. -/
theorem authorization_thresholds (st : State) (line : Str) :
    ((tok_at (tokenize line) 0 = "useradd".toList ∨ tok_at (tokenize line) 0 = "select".toList ∨
        tok_at (tokenize line) 0 = "modify".toList ∨
        tok_at (tokenize line) 0 = "import".toList) →
      current_priv st < 3 → emits_invalid st line) ∧
    ((tok_at (tokenize line) 0 = "delete".toList ∨
        (tok_at (tokenize line) 0 = "show".toList ∧ (tokenize line).length ≥ 2 ∧
          tok_at (tokenize line) 1 = "finance".toList)) →
      current_priv st < 7 → emits_invalid st line) ∧
    ((tok_at (tokenize line) 0 = "buy".toList ∨
        (tok_at (tokenize line) 0 = "show".toList ∧
          ¬ ((tokenize line).length ≥ 2 ∧ tok_at (tokenize line) 1 = "finance".toList))) →
      current_priv st < 1 → emits_invalid st line) ∧
    (∀ uid pw name, tokenize line = ["register".toList, uid, pw, name] →
      is_valid_user_token uid = true → is_valid_user_token pw = true →
      is_valid_username name = true → st.accounts.count uid = false →
      process_line st line =
        ⟨{ st with accounts := st.accounts.assign uid ⟨uid, pw, name, 1⟩ }, [], false⟩) := by
  refine ⟨?_, ?_, ?_, ?_⟩
  · intro hcmd hpriv
    rcases hcmd with h | h | h | h
    · refine (line_rejected st line (by rw [h]; decide) (by rw [h]; decide)
        (tokens_ne_nil _ _ h (by decide)) ?_).1
      rw [dispatch_useradd st _ h]
      simp [cmd_useradd, hpriv]
    · refine (line_rejected st line (by rw [h]; decide) (by rw [h]; decide)
        (tokens_ne_nil _ _ h (by decide)) ?_).1
      rw [dispatch_select st _ h]
      simp [cmd_select, hpriv]
    · refine (line_rejected st line (by rw [h]; decide) (by rw [h]; decide)
        (tokens_ne_nil _ _ h (by decide)) ?_).1
      rw [dispatch_modify st _ h]
      simp [cmd_modify, hpriv]
    · refine (line_rejected st line (by rw [h]; decide) (by rw [h]; decide)
        (tokens_ne_nil _ _ h (by decide)) ?_).1
      rw [dispatch_import st _ h]
      simp [cmd_import, hpriv]
  · intro hcmd hpriv
    have hne7 : current_priv st ≠ 7 := by omega
    rcases hcmd with h | ⟨h, hfin⟩
    · refine (line_rejected st line (by rw [h]; decide) (by rw [h]; decide)
        (tokens_ne_nil _ _ h (by decide)) ?_).1
      rw [dispatch_delete st _ h]
      simp [cmd_delete, hne7]
    · refine (line_rejected st line (by rw [h]; decide) (by rw [h]; decide)
        (tokens_ne_nil _ _ h (by decide)) ?_).1
      rw [dispatch_show st _ h, if_pos hfin]
      simp [cmd_show_finance, hne7]
  · intro hcmd hpriv
    rcases hcmd with h | ⟨h, hfin⟩
    · refine (line_rejected st line (by rw [h]; decide) (by rw [h]; decide)
        (tokens_ne_nil _ _ h (by decide)) ?_).1
      rw [dispatch_buy st _ h]
      simp [cmd_buy, hpriv]
    · refine (line_rejected st line (by rw [h]; decide) (by rw [h]; decide)
        (tokens_ne_nil _ _ h (by decide)) ?_).1
      rw [dispatch_show st _ h, if_neg hfin]
      simp [cmd_show, hpriv]
  · intro uid pw name ht hu hpw hn hc
    have hp := process_line_dispatch st line _ ht (by simp) (by simp) (by simp)
    rw [dispatch_register st _ (by rfl)] at hp
    rw [hp]
    simp [cmd_register, hu, hpw, hn, hc, Res.done]


/-- The thresholds on the bootstrap state (privilege 0): `select`, `show finance`
and `show` are rejected, `register` succeeds. -/
theorem authorization_thresholds_witness :
    emits_invalid bootstrap "select 111".toList ∧
      emits_invalid bootstrap "show finance".toList ∧
      emits_invalid bootstrap "show".toList ∧
      process_line bootstrap "register u1 p1 n1".toList =
        ⟨{ bootstrap with
            accounts := bootstrap.accounts.assign "u1".toList
              ⟨"u1".toList, "p1".toList, "n1".toList, 1⟩ }, [], false⟩ :=
  ⟨(authorization_thresholds bootstrap "select 111".toList).1 (Or.inr (Or.inl (by decide)))
      (by decide),
    (authorization_thresholds bootstrap "show finance".toList).2.1
      (Or.inr ⟨by decide, by decide, by decide⟩) (by decide),
    (authorization_thresholds bootstrap "show".toList).2.2.1
      (Or.inr ⟨by decide, by decide⟩) (by decide),
    (authorization_thresholds bootstrap "register u1 p1 n1".toList).2.2.2
      "u1".toList "p1".toList "n1".toList (by decide) (by decide) (by decide) (by decide)
      (by decide)⟩

/-! ## Sessions name live accounts -/

theorem session_inv_frame (st st1 : State) (hacc : st1.accounts = st.accounts)
    (hids : ctx_ids st1 = ctx_ids st) (h : session_inv st) : session_inv st1 := by
  obtain ⟨h1, h2⟩ := h
  refine ⟨?_, ?_⟩
  · intro k acc hf
    rw [hacc] at hf
    exact h1 k acc hf
  · intro c hc
    have hm : (c.user_id, c.privilege) ∈ ctx_ids st1 := by
      unfold ctx_ids
      exact List.mem_map.mpr ⟨c, hc, rfl⟩
    rw [hids] at hm
    unfold ctx_ids at hm
    obtain ⟨c0, hc0, he⟩ := List.mem_map.mp hm
    obtain ⟨acc, hf, hp⟩ := h2 c0 hc0
    simp only [Prod.mk.injEq] at he
    refine ⟨acc, ?_, ?_⟩
    · rw [hacc, ← he.1]; exact hf
    · rw [← he.2]; exact hp

@[simp] theorem set_selected_accounts (st : State) (i : Str) :
    (set_selected st i).accounts = st.accounts := by
  unfold set_selected
  split <;> rfl

@[simp] theorem set_selected_transactions (st : State) (i : Str) :
    (set_selected st i).transactions = st.transactions := by
  unfold set_selected
  split <;> rfl

@[simp] theorem set_selected_books (st : State) (i : Str) :
    (set_selected st i).books = st.books := by
  unfold set_selected
  split <;> rfl

@[simp] theorem ctx_ids_set_selected (st : State) (i : Str) :
    ctx_ids (set_selected st i) = ctx_ids st := by
  unfold set_selected ctx_ids
  split
  · rfl
  · rename_i c rest h
    simp [h]

@[simp] theorem ctx_ids_with_books (st : State) (b : Table Book) :
    ctx_ids { st with books := b } = ctx_ids st := rfl

theorem modify_rename_frame (st1 : State) (sel : Str) (b : Book) (a : ModAcc) :
    (modify_rename st1 sel b a).accounts = st1.accounts ∧
      ctx_ids (modify_rename st1 sel b a) = ctx_ids st1 ∧
      (modify_rename st1 sel b a).transactions = st1.transactions := by
  unfold modify_rename
  split_ifs <;> simp

theorem modify_commit_frame (st1 : State) (sel : Str) (b : Book) (a : ModAcc) :
    (modify_commit st1 sel b a).accounts = st1.accounts ∧
      ctx_ids (modify_commit st1 sel b a) = ctx_ids st1 ∧
      (modify_commit st1 sel b a).transactions = st1.transactions := by
  obtain ⟨h1, h2, h3⟩ := modify_rename_frame st1 sel b a
  exact ⟨h1, h2, h3⟩

theorem cmd_modify_frame (st : State) (t : List Str) :
    (cmd_modify st t).st.accounts = st.accounts ∧
      ctx_ids (cmd_modify st t).st = ctx_ids st ∧
      (cmd_modify st t).st.transactions = st.transactions := by
  unfold cmd_modify
  dsimp only
  split_ifs
  · simp [Res.fail]
  · simp [Res.fail]
  · simp [Res.fail]
  · split
    · simp [Res.fail]
    · split_ifs
      · simp [Res.fail]
      · simpa [Res.done] using modify_commit_frame _ _ _ _

theorem cmd_select_frame (st : State) (t : List Str) :
    (cmd_select st t).st.accounts = st.accounts ∧ ctx_ids (cmd_select st t).st = ctx_ids st := by
  unfold cmd_select
  dsimp only
  split_ifs <;> simp [Res.fail, Res.done]

theorem cmd_import_frame (st : State) (t : List Str) :
    (cmd_import st t).st.accounts = st.accounts ∧ ctx_ids (cmd_import st t).st = ctx_ids st := by
  unfold cmd_import
  split_ifs
  · simp [Res.fail]
  · simp [Res.fail]
  · simp [Res.fail]
  · split
    · simp [Res.fail]
    · split_ifs
      · simp [Res.fail]
      · split
        · simp [Res.fail]
        · split_ifs
          · simp [Res.fail]
          · exact ⟨rfl, rfl⟩

theorem cmd_buy_frame (st : State) (t : List Str) :
    (cmd_buy st t).st.accounts = st.accounts ∧ ctx_ids (cmd_buy st t).st = ctx_ids st := by
  unfold cmd_buy
  split_ifs
  · simp [Res.fail]
  · simp [Res.fail]
  · dsimp only
    split_ifs
    · simp [Res.fail]
    · split
      · simp [Res.fail]
      · split
        · simp [Res.fail]
        · split_ifs
          · simp [Res.fail]
          · simp [Res.fail]
          · exact ⟨rfl, rfl⟩

theorem cmd_show_state (st : State) (t : List Str) : (cmd_show st t).st = st := by
  unfold cmd_show
  split_ifs
  · rfl
  · rfl
  · split
    · rfl
    · dsimp only
      split_ifs <;> rfl

theorem cmd_show_finance_state (st : State) (t : List Str) :
    (cmd_show_finance st t).st = st := by
  unfold cmd_show_finance
  split_ifs
  · rfl
  · rfl
  · rfl
  · rfl
  · split
    · rfl
    · split_ifs <;> rfl

theorem cmd_report_or_log_state (st : State) (t : List Str) :
    (cmd_report_or_log st t).st = st := by
  unfold cmd_report_or_log
  split_ifs <;> rfl

theorem cmd_su_inv (st : State) (t : List Str) (h : session_inv st) :
    session_inv (cmd_su st t).st := by
  rcases cmd_su_cases st t with ⟨_, h2, _⟩ | ⟨_, _, acc, h4, h5⟩
  · rw [h2]; exact h
  · rw [h5]
    refine ⟨h.1, ?_⟩
    intro c hc
    simp only [List.mem_cons] at hc
    rcases hc with hc | hc
    · subst hc
      exact ⟨acc, h4, rfl⟩
    · exact h.2 c hc

theorem cmd_logout_inv (st : State) (t : List Str) (h : session_inv st) :
    session_inv (cmd_logout st t).st := by
  unfold cmd_logout
  split_ifs
  · exact h
  · exact h
  · exact ⟨h.1, fun c hc => h.2 c (List.mem_of_mem_tail hc)⟩

/-- Adding an account under a key that was free keeps the invariant. -/
theorem session_inv_add (st : State) (uid : Str) (a : Account)
    (hfree : st.accounts.count uid = false)
    (hp : a.privilege = 1 ∨ a.privilege = 3 ∨ a.privilege = 7) (h : session_inv st) :
    session_inv { st with accounts := st.accounts.assign uid a } := by
  have hnone : st.accounts.find uid = none := by
    simpa [Table.count] using hfree
  refine ⟨?_, ?_⟩
  · intro k acc hf
    by_cases hk : k = uid
    · subst hk
      rw [Table.find_assign_same] at hf
      injection hf with hf
      subst hf
      exact hp
    · rw [Table.find_assign_other _ _ _ _ hk] at hf
      exact h.1 k acc hf
  · intro c hc
    obtain ⟨acc, hf, hpr⟩ := h.2 c hc
    have hk : c.user_id ≠ uid := by
      intro e
      rw [e, hnone] at hf
      exact Option.noConfusion hf
    exact ⟨acc, by rw [Table.find_assign_other _ _ _ _ hk]; exact hf, hpr⟩

/-- Replacing the password of an existing account keeps the invariant. -/
theorem session_inv_passwd (st : State) (uid np : Str) (acc : Account)
    (hf : st.accounts.find uid = some acc) (h : session_inv st) :
    session_inv { st with accounts := st.accounts.assign uid { acc with password := np } } := by
  refine ⟨?_, ?_⟩
  · intro k a hk
    by_cases hku : k = uid
    · subst hku
      rw [Table.find_assign_same] at hk
      injection hk with hk
      subst hk
      exact h.1 k acc hf
    · rw [Table.find_assign_other _ _ _ _ hku] at hk
      exact h.1 k a hk
  · intro c hc
    obtain ⟨a, hfa, hpr⟩ := h.2 c hc
    by_cases hku : c.user_id = uid
    · have hfa2 : acc = a := by
        rw [hku, hf] at hfa
        exact Option.some.inj hfa
      subst hfa2
      exact ⟨{ acc with password := np }, by rw [hku]; exact Table.find_assign_same _ _ _, hpr⟩
    · exact ⟨a, by rw [Table.find_assign_other _ _ _ _ hku]; exact hfa, hpr⟩

theorem cmd_register_inv (st : State) (t : List Str) (h : session_inv st) :
    session_inv (cmd_register st t).st := by
  unfold cmd_register
  dsimp only
  split_ifs with h1 h2 h3
  · exact h
  · exact h
  · exact h
  · exact session_inv_add st _ _ (by simpa using h3) (Or.inl rfl) h

theorem cmd_useradd_inv (st : State) (t : List Str) (h : session_inv st) :
    session_inv (cmd_useradd st t).st := by
  unfold cmd_useradd
  dsimp only
  split_ifs with h1 h2 h3 h4 h5 h6 h7
  all_goals first
    | exact h
    | exact session_inv_add st _ _ (by simpa using h7) h5 h

theorem cmd_passwd_inv (st : State) (t : List Str) (h : session_inv st) :
    session_inv (cmd_passwd st t).st := by
  unfold cmd_passwd
  dsimp only
  cases hf : st.accounts.find (tok_at t 1) with
  | none => split_ifs <;> exact h
  | some acc =>
    dsimp only
    split_ifs
    all_goals first
      | exact h
      | exact session_inv_passwd st _ _ acc hf h

/-- Erasing an account that no session context names keeps the invariant. -/
theorem session_inv_erase (st : State) (uid : Str)
    (hno : ∀ c ∈ st.login_stack, c.user_id ≠ uid) (h : session_inv st) :
    session_inv { st with accounts := st.accounts.erase uid } := by
  refine ⟨?_, ?_⟩
  · intro k acc hf
    by_cases hk : k = uid
    · subst hk
      rw [Table.find_erase_same] at hf
      exact Option.noConfusion hf
    · rw [Table.find_erase_other _ _ _ hk] at hf
      exact h.1 k acc hf
  · intro c hc
    obtain ⟨acc, hf, hpr⟩ := h.2 c hc
    exact ⟨acc, by rw [Table.find_erase_other _ _ _ (hno c hc)]; exact hf, hpr⟩

theorem cmd_delete_inv (st : State) (t : List Str) (h : session_inv st) :
    session_inv (cmd_delete st t).st := by
  unfold cmd_delete
  dsimp only
  split_ifs with h1 h2 h3 h4 h5
  · exact h
  · exact h
  · exact h
  · exact h
  · exact h
  · refine session_inv_erase st _ ?_ h
    intro c hc e
    apply h5
    simp only [List.any_eq_true, decide_eq_true_eq]
    exact ⟨c, hc, e⟩

/-- The last two branches of the chain in `dispatch`. -/
theorem dispatch_other (st : State) (t : List Str)
    (h1 : tok_at t 0 ≠ "su".toList) (h2 : tok_at t 0 ≠ "logout".toList)
    (h3 : tok_at t 0 ≠ "register".toList) (h4 : tok_at t 0 ≠ "passwd".toList)
    (h5 : tok_at t 0 ≠ "useradd".toList) (h6 : tok_at t 0 ≠ "delete".toList)
    (h7 : tok_at t 0 ≠ "show".toList) (h8 : tok_at t 0 ≠ "buy".toList)
    (h9 : tok_at t 0 ≠ "select".toList) (h10 : tok_at t 0 ≠ "modify".toList)
    (h11 : tok_at t 0 ≠ "import".toList) :
    dispatch st t = cmd_report_or_log st t ∨ dispatch st t = Res.fail st := by
  unfold dispatch
  rw [if_neg h1, if_neg h2, if_neg h3, if_neg h4, if_neg h5, if_neg h6, if_neg h7, if_neg h8,
    if_neg h9, if_neg h10, if_neg h11]
  by_cases h : tok_at t 0 = "log".toList ∨ (tok_at t 0 = "report".toList ∧ t.length ≥ 2 ∧
      (tok_at t 1 = "finance".toList ∨ tok_at t 1 = "employee".toList))
  · left; rw [if_pos h]
  · right; rw [if_neg h]

theorem dispatch_inv (st : State) (t : List Str) (h : session_inv st) :
    session_inv (dispatch st t).st := by
  by_cases h1 : tok_at t 0 = "su".toList
  · rw [dispatch_su st t h1]; exact cmd_su_inv st t h
  by_cases h2 : tok_at t 0 = "logout".toList
  · rw [dispatch_logout st t h2]; exact cmd_logout_inv st t h
  by_cases h3 : tok_at t 0 = "register".toList
  · rw [dispatch_register st t h3]; exact cmd_register_inv st t h
  by_cases h4 : tok_at t 0 = "passwd".toList
  · rw [dispatch_passwd st t h4]; exact cmd_passwd_inv st t h
  by_cases h5 : tok_at t 0 = "useradd".toList
  · rw [dispatch_useradd st t h5]; exact cmd_useradd_inv st t h
  by_cases h6 : tok_at t 0 = "delete".toList
  · rw [dispatch_delete st t h6]; exact cmd_delete_inv st t h
  by_cases h7 : tok_at t 0 = "show".toList
  · rw [dispatch_show st t h7]
    by_cases hf : t.length ≥ 2 ∧ tok_at t 1 = "finance".toList
    · rw [if_pos hf, cmd_show_finance_state]; exact h
    · rw [if_neg hf, cmd_show_state]; exact h
  by_cases h8 : tok_at t 0 = "buy".toList
  · rw [dispatch_buy st t h8]
    exact session_inv_frame st _ (cmd_buy_frame st t).1 (cmd_buy_frame st t).2 h
  by_cases h9 : tok_at t 0 = "select".toList
  · rw [dispatch_select st t h9]
    exact session_inv_frame st _ (cmd_select_frame st t).1 (cmd_select_frame st t).2 h
  by_cases h10 : tok_at t 0 = "modify".toList
  · rw [dispatch_modify st t h10]
    exact session_inv_frame st _ (cmd_modify_frame st t).1 (cmd_modify_frame st t).2.1 h
  by_cases h11 : tok_at t 0 = "import".toList
  · rw [dispatch_import st t h11]
    exact session_inv_frame st _ (cmd_import_frame st t).1 (cmd_import_frame st t).2 h
  rcases dispatch_other st t h1 h2 h3 h4 h5 h6 h7 h8 h9 h10 h11 with e | e
  · rw [e, cmd_report_or_log_state]; exact h
  · rw [e]; exact h

theorem process_line_inv (st : State) (line : Str) (h : session_inv st) :
    session_inv (process_line st line).st := by
  unfold process_line
  dsimp only
  split_ifs
  · exact h
  · exact h
  · exact h
  · exact dispatch_inv st _ h
  · exact dispatch_inv st _ h

theorem main_loop_inv (lines : List Str) :
    ∀ st : State, session_inv st → session_inv (main_loop st lines).1 := by
  induction lines with
  | nil => intro st h; exact h
  | cons line rest ih =>
    intro st h
    unfold main_loop
    dsimp only
    split_ifs
    · exact process_line_inv st line h
    · exact ih _ (process_line_inv st line h)

theorem bootstrap_inv : session_inv bootstrap := by
  refine ⟨?_, ?_⟩
  · intro k acc hf
    simp only [bootstrap, Table.find] at hf
    split at hf
    · injection hf with hf
      subst hf
      simp
    · simp at hf
  · intro c hc
    simp [bootstrap] at hc

/-- C8. Session contexts always name live accounts: in every state reachable from
the bootstrap state by processing input lines, every context of the session
stack has a user id that is a key of the account collection, and the context's
privilege snapshot equals that account's current privilege, which is one of
1, 3, 7. -/
theorem session_contexts_live (st : State) (h : Reachable st) :
    ∀ c ∈ st.login_stack, ∃ acc, st.accounts.find c.user_id = some acc ∧
      c.privilege = acc.privilege ∧
      (acc.privilege = 1 ∨ acc.privilege = 3 ∨ acc.privilege = 7) := by
  obtain ⟨lines, rfl⟩ := h
  have hinv := main_loop_inv lines bootstrap bootstrap_inv
  intro c hc
  obtain ⟨acc, hf, hp⟩ := hinv.2 c hc
  exact ⟨acc, hf, hp, hinv.1 _ acc hf⟩

/-- The invariant on a reachable state with a nested session of a privilege-3
account. -/
theorem session_contexts_live_witness :
    ∃ acc, (main_loop bootstrap ["su root sjtu".toList, "useradd u1 p1 3 n1".toList,
          "su u1".toList]).1.accounts.find
            (⟨"u1".toList, 3, []⟩ : Context).user_id = some acc ∧
        (⟨"u1".toList, 3, []⟩ : Context).privilege = acc.privilege ∧
        (acc.privilege = 1 ∨ acc.privilege = 3 ∨ acc.privilege = 7) :=
  session_contexts_live
    (main_loop bootstrap ["su root sjtu".toList, "useradd u1 p1 3 n1".toList,
      "su u1".toList]).1
    ⟨_, rfl⟩ ⟨"u1".toList, 3, []⟩ (by decide)

/-! ## Decimal output and `buy` -/

theorem digit_char_spec (d : Nat) (h : d < 10) :
    isdigit (digit_char d) = true ∧ ((digit_char d).toNat : Int) - 48 = d := by
  interval_cases d <;> decide

theorem parse_int_loop_append (s : Str) (c : Char) (v : Int) :
    parse_int_loop (s ++ [c]) v = (parse_int_loop s v).bind (fun w => parse_int_loop [c] w) := by
  induction s generalizing v with
  | nil => simp [parse_int_loop]
  | cons x xs ih =>
    by_cases hd : isdigit x = true
    · by_cases hv : v * 10 + ((x.toNat : Int) - 48) > 2147483647
      · simp [parse_int_loop, hd, hv]
      · simp [parse_int_loop, hd, hv, ih]
    · simp [parse_int_loop, hd]

theorem parse_int_loop_digits (fuel : Nat) :
    ∀ n : Nat, n < fuel → n ≤ 2147483647 →
      parse_int_loop (dec_digits fuel n) 0 = some (n : Int) := by
  induction fuel with
  | zero => intro n h; omega
  | succ fuel ih =>
    intro n hn hb
    unfold dec_digits
    by_cases h10 : n < 10
    · rw [if_pos h10]
      obtain ⟨h1, h2⟩ := digit_char_spec n h10
      simp only [parse_int_loop, h1, h2]
      have : ¬ ((0 : Int) * 10 + (n : Int) > 2147483647) := by omega
      simp only [Bool.not_true, Bool.false_eq_true, if_false, if_neg this]
      simp
    · rw [if_neg h10, parse_int_loop_append, ih (n / 10) (by omega) (by omega)]
      obtain ⟨h1, h2⟩ := digit_char_spec (n % 10) (by omega)
      simp only [Option.some_bind, parse_int_loop, h1, h2]
      have e : ((n / 10 : Nat) : Int) * 10 + ((n % 10 : Nat) : Int) = (n : Int) := by omega
      rw [e]
      have : ¬ ((n : Int) > 2147483647) := by omega
      simp only [Bool.not_true, Bool.false_eq_true, if_false, if_neg this]

theorem dec_digits_length (fuel : Nat) :
    ∀ n k : Nat, 1 ≤ k → n < 10 ^ k → (dec_digits fuel n).length ≤ k := by
  induction fuel with
  | zero => intro n k hk _; simp [dec_digits]
  | succ fuel ih =>
    intro n k hk hn
    unfold dec_digits
    by_cases h10 : n < 10
    · rw [if_pos h10]; simpa using hk
    · rw [if_neg h10]
      have hk2 : 2 ≤ k := by
        by_contra hlt
        have : k = 1 := by omega
        subst this
        omega
      have hdiv : n / 10 < 10 ^ (k - 1) := by
        have e : 10 ^ k = 10 ^ (k - 1) * 10 := by
          rw [← pow_succ]
          congr 1
          omega
        rw [e] at hn
        exact Nat.div_lt_of_lt_mul (by rw [Nat.mul_comm]; exact hn)
      have := ih (n / 10) (k - 1) (by omega) hdiv
      simp only [List.length_append, List.length_singleton]
      omega

theorem nat_to_str_ne_nil (n : Nat) : nat_to_str n ≠ [] := by
  unfold nat_to_str dec_digits
  split_ifs <;> simp

/-- Parsing the decimal text of a quantity gives the quantity back. -/
theorem parse_int_nat_to_str (q : Nat) (h : q ≤ 2147483647) :
    parse_int (nat_to_str q) = some (q : Int) := by
  unfold parse_int
  have hlen : (nat_to_str q).length ≤ 10 :=
    dec_digits_length (q + 1) q 10 (by omega) (by omega)
  rw [if_neg (by
    intro hcon
    rcases hcon with hcon | hcon
    · exact nat_to_str_ne_nil q hcon
    · omega)]
  exact parse_int_loop_digits (q + 1) q (by omega) h

theorem wrap64_id (x : Int) (h0 : 0 ≤ x) (h1 : x < 9223372036854775808) : wrap64 x = x := by
  unfold wrap64
  omega

/-- On non-negative amounts `price_to_str` is the 2-decimal currency text. -/
theorem price_to_str_nonneg (c : Int) (h : 0 ≤ c) : price_to_str c = spec_currency c := by
  obtain ⟨n, rfl⟩ := Int.eq_ofNat_of_zero_le h
  have h1 : Int.tdiv (n : Int) 100 = ((n / 100 : Nat) : Int) := rfl
  have h2 : Int.tmod (n : Int) 100 = ((n % 100 : Nat) : Int) := rfl
  have h3 : ¬ ((n : Int) < 0) := by omega
  have h4 : ¬ (((n / 100 : Nat) : Int) < 0) := by omega
  unfold price_to_str spec_currency int_to_str
  simp only [h1, h2, h3, h4, if_false, Int.natAbs_ofNat, List.nil_append]

/-- C10 (amended). Buy: with current privilege at least 1, a book stored under a
valid ISBN `i` with price `p ≥ 0` (cents) and stock `s`, and a quantity `q` with
`1 ≤ q ≤ 2147483647` and `p*q < 2^63`: if `s ≥ q` then `buy i q` sets that book's
stock to `s - q`, appends `p*q` as the new last ledger entry, prints `p*q` as
2-decimal currency, and changes nothing else; if `s < q` it prints `Invalid` and
the state (so stock and ledger) is unchanged. -/
theorem buy_rule (st : State) (line i : Str) (b : Book) (q : Nat)
    (ht : tokenize line = ["buy".toList, i, nat_to_str q])
    (hpriv : current_priv st ≥ 1) (hi : is_valid_isbn i = true)
    (hb : st.books.find i = some b) (hp : 0 ≤ b.price_cents)
    (hq1 : 1 ≤ q) (hq2 : q ≤ 2147483647)
    (hov : b.price_cents * (q : Int) < 9223372036854775808) :
    (b.stock ≥ (q : Int) →
        process_line st line =
          ⟨{ st with
              books := st.books.assign i { b with stock := b.stock - (q : Int) }
              transactions := st.transactions ++ [b.price_cents * (q : Int)] },
            spec_currency (b.price_cents * (q : Int)) ++ ['\n'], false⟩) ∧
      (b.stock < (q : Int) → emits_invalid st line ∧ (process_line st line).st = st) := by
  have hp0 := process_line_dispatch st line _ ht (by simp) (by simp) (by simp)
  rw [dispatch_buy st _ (by rfl)] at hp0
  have hpi := parse_int_nat_to_str q hq2
  have hnp : ¬ (current_priv st < 1) := by omega
  have hq0 : ¬ ((q : Int) ≤ 0) := by omega
  have hprod : 0 ≤ b.price_cents * (q : Int) := Int.mul_nonneg hp (by omega)
  constructor
  · intro hs
    have hns : ¬ (b.stock < (q : Int)) := by omega
    rw [hp0]
    simp [cmd_buy, hnp, hi, hb, hpi, hq0, hns, wrap64_id _ hprod hov,
      price_to_str_nonneg _ hprod]
  · intro hs
    unfold emits_invalid
    rw [hp0]
    simp [cmd_buy, hnp, hi, hb, hpi, hq0, hs, Res.fail]

/-- The example of the specification: stock 5 and price 12.50; buying 3 prints
`37.50`, buying 10 is rejected. -/
theorem buy_rule_witness :
    (process_line buy_example_state "buy 111 3".toList =
        ⟨{ buy_example_state with
            books := buy_example_state.books.assign "111".toList
              { (⟨"111".toList, [], [], [], 1250, 5⟩ : Book) with stock := 5 - ((3 : Nat) : Int) }
            transactions := buy_example_state.transactions ++ [1250 * ((3 : Nat) : Int)] },
          spec_currency (1250 * ((3 : Nat) : Int)) ++ ['\n'], false⟩) ∧
      spec_currency (1250 * ((3 : Nat) : Int)) = "37.50".toList ∧
      emits_invalid buy_example_state "buy 111 10".toList ∧
      (process_line buy_example_state "buy 111 10".toList).st = buy_example_state :=
  ⟨(buy_rule buy_example_state "buy 111 3".toList "111".toList
      ⟨"111".toList, [], [], [], 1250, 5⟩ 3 (by decide) (by decide) (by decide) (by decide)
      (by decide) (by decide) (by decide) (by decide)).1 (by decide),
    by decide,
    (buy_rule buy_example_state "buy 111 10".toList "111".toList
      ⟨"111".toList, [], [], [], 1250, 5⟩ 10 (by decide) (by decide) (by decide) (by decide)
      (by decide) (by decide) (by decide) (by decide)).2 (by decide)⟩

/-- C10 (as stated) fails for a stored price below zero: in
`negative_price_state` the book `111` has price -50 and stock 1, so `p*q = -50`
for `q = 1` satisfies every hypothesis of the claim, but `buy 111 1` prints
`0.50`, which is not -50 cents as 2-decimal currency (`-0.50`). -/
theorem buy_rule_counterexample :
    current_priv negative_price_state ≥ 1 ∧
      is_valid_isbn "111".toList = true ∧
      negative_price_state.books.find "111".toList =
        some ⟨"111".toList, [], [], [], -50, 1⟩ ∧
      (1 : Int) ≥ ((1 : Nat) : Int) ∧
      (-50 : Int) * ((1 : Nat) : Int) < 9223372036854775808 ∧
      tokenize "buy 111 1".toList = ["buy".toList, "111".toList, nat_to_str 1] ∧
      (process_line negative_price_state "buy 111 1".toList).out = "0.50\n".toList ∧
      spec_currency ((-50 : Int) * ((1 : Nat) : Int)) ++ ['\n'] = "-0.50\n".toList := by
  decide

/-! ## `modify` -/

theorem is_modify_flag_head (f : Field) : is_modify_flag f.head = true := by
  cases f <;> decide

theorem is_modify_flag_glued (f : Field) (v : Str) (hv : v ≠ []) :
    is_modify_flag (f.head ++ v) = false := by
  cases v with
  | nil => exact absurd rfl hv
  | cons c cs => cases f <;> simp [is_modify_flag, Field.head]

theorem merge_flags_cons_other (s : Str) (r : List Str) (h : is_modify_flag s = false) :
    merge_flags (s :: r) = s :: merge_flags r := by
  cases r with
  | nil => simp [merge_flags]
  | cons x xs => simp [merge_flags, h]

/-- The merge loop glues every written assignment into one `-field=value`
token. -/
theorem merge_flags_tokens (asg : List Assign) (hv : ∀ a ∈ asg, a.valid = true) :
    merge_flags (asg.map Assign.tokens).flatten = asg.map (fun a => a.field.head ++ a.value) := by
  induction asg with
  | nil => simp [merge_flags]
  | cons a rest ih =>
    have ih1 := ih (fun x hx => hv x (List.mem_cons_of_mem _ hx))
    have ha := hv a (List.mem_cons_self _ _)
    simp only [List.map_cons, List.flatten_cons]
    by_cases hq : a.quoted = true
    · simp only [Assign.tokens, hq, if_true, List.cons_append, List.nil_append, merge_flags,
        is_modify_flag_head, ih1]
    · have hne : a.value ≠ [] := by
        simp only [Assign.valid, Bool.and_eq_true, Bool.or_eq_true, decide_eq_true_eq] at ha
        rcases ha.1 with h | h
        · exact absurd h hq
        · exact h
      have hq2 : a.quoted = false := by simpa using hq
      simp only [Assign.tokens, hq2, Bool.false_eq_true, if_false, List.cons_append,
        List.nil_append]
      rw [merge_flags_cons_other _ _ (is_modify_flag_glued _ _ hne), ih1]

theorem foldl_set_isbn (asg : List Assign) :
    ∀ m : ModAcc, (asg.foldl ModAcc.set m).new_isbn = (assigned Field.isbn asg).getD m.new_isbn ∧
      (asg.foldl ModAcc.set m).has_isbn = ((assigned Field.isbn asg).isSome || m.has_isbn) := by
  induction asg with
  | nil => intro m; simp [assigned]
  | cons a rest ih =>
    intro m
    obtain ⟨h1, h2⟩ := ih (m.set a)
    simp only [List.foldl_cons, h1, h2, assigned]
    cases hr : assigned Field.isbn rest with
    | some v => simp
    | none =>
      cases hf : a.field <;> simp [ModAcc.set, hf]
      all_goals split <;> simp

theorem foldl_set_name (asg : List Assign) :
    ∀ m : ModAcc, (asg.foldl ModAcc.set m).new_name = (assigned Field.name asg).getD m.new_name ∧
      (asg.foldl ModAcc.set m).has_name = ((assigned Field.name asg).isSome || m.has_name) := by
  induction asg with
  | nil => intro m; simp [assigned]
  | cons a rest ih =>
    intro m
    obtain ⟨h1, h2⟩ := ih (m.set a)
    simp only [List.foldl_cons, h1, h2, assigned]
    cases hr : assigned Field.name rest with
    | some v => simp
    | none =>
      cases hf : a.field <;> simp [ModAcc.set, hf]
      all_goals split <;> simp

theorem foldl_set_author (asg : List Assign) :
    ∀ m : ModAcc, (asg.foldl ModAcc.set m).new_author = (assigned Field.author asg).getD m.new_author ∧
      (asg.foldl ModAcc.set m).has_author = ((assigned Field.author asg).isSome || m.has_author) := by
  induction asg with
  | nil => intro m; simp [assigned]
  | cons a rest ih =>
    intro m
    obtain ⟨h1, h2⟩ := ih (m.set a)
    simp only [List.foldl_cons, h1, h2, assigned]
    cases hr : assigned Field.author rest with
    | some v => simp
    | none =>
      cases hf : a.field <;> simp [ModAcc.set, hf]
      all_goals split <;> simp

theorem foldl_set_keyword (asg : List Assign) :
    ∀ m : ModAcc, (asg.foldl ModAcc.set m).new_keyword = (assigned Field.keyword asg).getD m.new_keyword ∧
      (asg.foldl ModAcc.set m).has_keyword = ((assigned Field.keyword asg).isSome || m.has_keyword) := by
  induction asg with
  | nil => intro m; simp [assigned]
  | cons a rest ih =>
    intro m
    obtain ⟨h1, h2⟩ := ih (m.set a)
    simp only [List.foldl_cons, h1, h2, assigned]
    cases hr : assigned Field.keyword rest with
    | some v => simp
    | none =>
      cases hf : a.field <;> simp [ModAcc.set, hf]
      all_goals split <;> simp

theorem assigned_mem (f : Field) (asg : List Assign) (v : Str) (h : assigned f asg = some v) :
    ∃ a ∈ asg, a.field = f ∧ a.value = v := by
  induction asg with
  | nil => simp [assigned] at h
  | cons a rest ih =>
    simp only [assigned] at h
    cases hr : assigned f rest with
    | some w =>
      rw [hr] at h
      simp only [Option.some.injEq] at h
      subst h
      obtain ⟨x, hx, hxf⟩ := ih hr
      exact ⟨x, List.mem_cons_of_mem _ hx, hxf⟩
    | none =>
      rw [hr] at h
      simp only at h
      split_ifs at h with hf
      simp only [Option.some.injEq] at h
      exact ⟨a, List.mem_cons_self _ _, hf, h⟩

theorem foldl_set_price (asg : List Assign) (hv : ∀ a ∈ asg, a.valid = true) :
    ∀ m : ModAcc,
      (asg.foldl ModAcc.set m).new_price =
          (match assigned Field.price asg with
            | some v => (parse_price v).getD m.new_price
            | none => m.new_price) ∧
        (asg.foldl ModAcc.set m).has_price = ((assigned Field.price asg).isSome || m.has_price) := by
  induction asg with
  | nil => intro m; simp [assigned]
  | cons a rest ih =>
    intro m
    obtain ⟨h1, h2⟩ := ih (fun x hx => hv x (List.mem_cons_of_mem _ hx)) (m.set a)
    have ha := hv a (List.mem_cons_self _ _)
    simp only [List.foldl_cons, h1, h2, assigned]
    cases hr : assigned Field.price rest with
    | some v =>
      obtain ⟨x, hx, hxf, hxv⟩ := assigned_mem Field.price rest v hr
      have hvx := hv x (List.mem_cons_of_mem _ hx)
      simp only [Assign.valid, hxf, Bool.and_eq_true] at hvx
      obtain ⟨c, hc⟩ := Option.isSome_iff_exists.mp hvx.2
      rw [hxv] at hc
      simp [hc]
    | none =>
      cases hf : a.field
      case price =>
        simp only [Assign.valid, hf, Bool.and_eq_true] at ha
        obtain ⟨c, hc⟩ := Option.isSome_iff_exists.mp ha.2
        simp [ModAcc.set, hf, hc]
      all_goals simp [ModAcc.set, hf]

/-- One well-formed `-field=value` token in the option loop. -/
theorem modify_parse_step (a : Assign) (ha : a.valid = true) (rest : List Str) (m : ModAcc) :
    modify_parse ((a.field.head ++ a.value) :: rest) m = modify_parse rest (m.set a) := by
  obtain ⟨f, v, q⟩ := a
  simp only [Assign.valid, Bool.and_eq_true] at ha
  have ha2 := ha.2
  cases f
  case isbn =>
    simp only at ha2
    simp [modify_parse, Field.head, List.isPrefixOf, ha2, ModAcc.set]
  case name =>
    simp only at ha2
    simp [modify_parse, Field.head, List.isPrefixOf, ha2, ModAcc.set]
  case author =>
    simp only at ha2
    simp [modify_parse, Field.head, List.isPrefixOf, ha2, ModAcc.set]
  case keyword =>
    simp only [Bool.and_eq_true, Bool.not_eq_true'] at ha2
    simp [modify_parse, Field.head, List.isPrefixOf, ha2.1, ha2.2, ModAcc.set]
  case price =>
    simp only at ha2
    obtain ⟨c, hc⟩ := Option.isSome_iff_exists.mp ha2
    simp [modify_parse, Field.head, List.isPrefixOf, hc, ModAcc.set]

theorem modify_parse_glued (asg : List Assign) (hv : ∀ a ∈ asg, a.valid = true) :
    ∀ m : ModAcc,
      modify_parse (asg.map (fun a => a.field.head ++ a.value)) m =
        some (asg.foldl ModAcc.set m) := by
  induction asg with
  | nil => intro m; simp [modify_parse]
  | cons a rest ih =>
    intro m
    simp only [List.map_cons, List.foldl_cons]
    rw [modify_parse_step a (hv a (List.mem_cons_self _ _))]
    exact ih (fun x hx => hv x (List.mem_cons_of_mem _ hx)) _

theorem modify_tokens_length (asg : List Assign) (hne : asg ≠ []) :
    ¬ ((modify_tokens asg).length < 2) := by
  cases asg with
  | nil => exact absurd rfl hne
  | cons a rest =>
    unfold modify_tokens Assign.tokens
    simp only [List.map_cons, List.flatten_cons, List.length_cons, List.length_append]
    split_ifs
    · simp only [List.length_cons, List.length_nil]; omega
    · simp only [List.length_cons, List.length_nil]; omega

/-- What a well-formed `modify` line does when the session may modify and its
selection names a stored book `b`: the option loop ends with the locals
`asg.foldl ModAcc.set (ModAcc.init b)`, then the key test and the commit run. -/
theorem modify_line (st : State) (line : Str) (asg : List Assign) (b : Book)
    (ht : tokenize line = modify_tokens asg) (hne : asg ≠ [])
    (hv : ∀ a ∈ asg, a.valid = true)
    (hpriv : current_priv st ≥ 3) (hsel : current_selected st ≠ [])
    (hb : st.books.find (current_selected st) = some b) :
    process_line st line =
      if (asg.foldl ModAcc.set (ModAcc.init b)).has_isbn = true ∧
          (asg.foldl ModAcc.set (ModAcc.init b)).new_isbn ≠ b.isbn ∧
          st.books.count (asg.foldl ModAcc.set (ModAcc.init b)).new_isbn = true then
        ⟨st, invalid_line, false⟩
      else
        ⟨modify_commit st (current_selected st) b (asg.foldl ModAcc.set (ModAcc.init b)), [],
          false⟩ := by
  have hp := process_line_dispatch st line _ ht (by simp [modify_tokens])
    (by simp [modify_tokens]) (by simp [modify_tokens])
  rw [dispatch_modify st _ (by simp [modify_tokens])] at hp
  rw [hp]
  have hlen := modify_tokens_length asg hne
  have hnp : ¬ (current_priv st < 3) := by omega
  have hdrop : (modify_tokens asg).drop 1 = (asg.map Assign.tokens).flatten := by
    simp [modify_tokens]
  have hst : ({ st with books := st.books } : State) = st := rfl
  unfold cmd_modify
  rw [if_neg hlen, if_neg hnp, if_neg hsel]
  simp only [Table.touch_of_find _ _ _ _ hb, hb, Option.getD_some, hdrop,
    merge_flags_tokens asg hv, modify_parse_glued asg hv, hst]
  by_cases hc : (asg.foldl ModAcc.set (ModAcc.init b)).has_isbn = true ∧
      (asg.foldl ModAcc.set (ModAcc.init b)).new_isbn ≠ b.isbn ∧
      st.books.count (asg.foldl ModAcc.set (ModAcc.init b)).new_isbn = true
  · simp only [if_pos hc]
    simp [Res.fail]
  · simp only [if_neg hc]
    simp [Res.done]

theorem modify_fields_fold (b : Book) (i : Str) (asg : List Assign)
    (hv : ∀ a ∈ asg, a.valid = true) :
    modify_fields { b with isbn := i } (asg.foldl ModAcc.set (ModAcc.init b)) =
      { modified_book b asg with isbn := i } := by
  obtain ⟨n1, n2⟩ := foldl_set_name asg (ModAcc.init b)
  obtain ⟨a1, a2⟩ := foldl_set_author asg (ModAcc.init b)
  obtain ⟨k1, k2⟩ := foldl_set_keyword asg (ModAcc.init b)
  obtain ⟨p1, p2⟩ := foldl_set_price asg hv (ModAcc.init b)
  generalize asg.foldl ModAcc.set (ModAcc.init b) = m at n1 n2 a1 a2 k1 k2 p1 p2 ⊢
  unfold modify_fields modified_book
  simp only [n1, n2, a1, a2, k1, k2, p1, p2]
  simp only [ModAcc.init]
  cases assigned Field.name asg <;> cases assigned Field.author asg <;>
    cases assigned Field.keyword asg <;> cases assigned Field.price asg <;> simp

theorem set_selected_stack (st : State) (c : Context) (rest : List Context) (i : Str)
    (h : st.login_stack = c :: rest) :
    set_selected st i =
      { st with login_stack := { c with selected_isbn := i } :: rest } := by
  unfold set_selected
  rw [h]

/-- The commit of a `modify` that keeps the key. -/
theorem modify_commit_same_key (st : State) (k : Str) (b : Book) (a : ModAcc)
    (hb : st.books.find k = some b) (hk : current_selected st = k)
    (hno : ¬ (a.has_isbn = true ∧ a.new_isbn ≠ b.isbn)) :
    modify_commit st k b a = { st with books := st.books.assign k (modify_fields b a) } := by
  unfold modify_commit modify_rename
  simp only [if_neg hno, hk, Table.touch_of_find _ _ _ _ hb, hb, Option.getD_some]

/-- Whether a well-formed `modify` line executes the write through the erased
entry, in terms of the locals the option loop ends with. -/
theorem modify_writes_erased_line (st : State) (t : List Str) (asg : List Assign) (b : Book)
    (ht : t = modify_tokens asg) (hne : asg ≠ [])
    (hv : ∀ a ∈ asg, a.valid = true)
    (hpriv : current_priv st ≥ 3) (hsel : current_selected st ≠ [])
    (hb : st.books.find (current_selected st) = some b) :
    modify_writes_erased st t =
      if (asg.foldl ModAcc.set (ModAcc.init b)).has_isbn = true ∧
          (asg.foldl ModAcc.set (ModAcc.init b)).new_isbn ≠ b.isbn ∧
          st.books.count (asg.foldl ModAcc.set (ModAcc.init b)).new_isbn = true then
        false
      else
        rename_writes_erased (current_selected st) b
          (asg.foldl ModAcc.set (ModAcc.init b)) := by
  subst ht
  have hlen := modify_tokens_length asg hne
  have hnp : ¬ (current_priv st < 3) := by omega
  have hdrop : (modify_tokens asg).drop 1 = (asg.map Assign.tokens).flatten := by
    simp [modify_tokens]
  unfold modify_writes_erased
  rw [if_neg hlen, if_neg hnp, if_neg hsel]
  simp only [Table.touch_of_find _ _ _ _ hb, hb, Option.getD_some, hdrop,
    merge_flags_tokens asg hv, modify_parse_glued asg hv]

/-- An accepted `modify` that gives a book stored under its own isbn another
isbn always executes the write through the erased entry. -/
theorem keyed_rename_writes_erased (st : State) (line : Str) (c : Context)
    (rest : List Context) (b : Book) (asg : List Assign) (n : Str)
    (hstack : st.login_stack = c :: rest) (hpriv : c.privilege ≥ 3)
    (hsel : c.selected_isbn ≠ [])
    (hb : st.books.find c.selected_isbn = some b) (hkey : b.isbn = c.selected_isbn)
    (ht : tokenize line = modify_tokens asg) (hne : asg ≠ [])
    (hv : ∀ a ∈ asg, a.valid = true)
    (hn : assigned Field.isbn asg = some n)
    (hnk : n ≠ c.selected_isbn) (hfree : st.books.count n = false) :
    modify_writes_erased st (tokenize line) = true := by
  have hcs : current_selected st = c.selected_isbn := by simp [current_selected, hstack]
  have hl := modify_writes_erased_line st _ asg b ht hne hv
    (by simpa [current_priv, hstack] using hpriv) (by rw [hcs]; exact hsel)
    (by rw [hcs]; exact hb)
  obtain ⟨i1, i2⟩ := foldl_set_isbn asg (ModAcc.init b)
  rw [hn] at i1 i2
  simp only [Option.getD_some, Option.isSome_some] at i1 i2
  rw [hl, i1, i2, hcs]
  rw [if_neg (by rw [hfree]; simp)]
  simp [rename_writes_erased, i1, i2, hkey, hnk]

theorem set_set_same (m : ModAcc) (f : Field) (v1 v2 : Str) (q1 q2 : Bool)
    (h2 : Assign.valid ⟨f, v2, q2⟩ = true) :
    (m.set ⟨f, v1, q1⟩).set ⟨f, v2, q2⟩ = m.set ⟨f, v2, q2⟩ := by
  cases f
  case price =>
    simp only [Assign.valid, Bool.and_eq_true] at h2
    obtain ⟨c, hc⟩ := Option.isSome_iff_exists.mp h2.2
    simp only [ModAcc.set, hc]
    split <;> rfl
  all_goals simp [ModAcc.set]

/-- C4 (amended). A `modify` line that assigns the same field twice with valid
values, in a state where modify is authorized (current privilege at least 3, a
stored book selected), is not rejected for the repetition. It executes the write
through the erased entry of line 330 exactly when the line with only the second
assignment does, and when it does not, it does exactly what that line does. For
name, author, keyword and price it never executes that write, prints nothing and
leaves the selected book with the second value in that field (the other fields,
the isbn field and the stock as before). -/
theorem modify_repeated_field (st : State) (line : Str) (c : Context) (rest : List Context)
    (b : Book) (f : Field) (v1 v2 : Str) (q1 q2 : Bool)
    (hstack : st.login_stack = c :: rest) (hpriv : c.privilege ≥ 3)
    (hsel : c.selected_isbn ≠ [])
    (hb : st.books.find c.selected_isbn = some b)
    (ht : tokenize line = modify_tokens [⟨f, v1, q1⟩, ⟨f, v2, q2⟩])
    (h1 : Assign.valid ⟨f, v1, q1⟩ = true) (h2 : Assign.valid ⟨f, v2, q2⟩ = true) :
    (∀ line2, tokenize line2 = modify_tokens [⟨f, v2, q2⟩] →
        modify_writes_erased st (tokenize line) = modify_writes_erased st (tokenize line2) ∧
        (modify_writes_erased st (tokenize line) = false →
          process_line st line = process_line st line2)) ∧
      (f ≠ Field.isbn →
        modify_writes_erased st (tokenize line) = false ∧
        (process_line st line).out = [] ∧
        (process_line st line).st.books.find c.selected_isbn =
          some (modified_book b [⟨f, v2, q2⟩]) ∧
        (modified_book b [⟨f, v2, q2⟩]).isbn = b.isbn ∧
        (modified_book b [⟨f, v2, q2⟩]).stock = b.stock) := by
  have hcs : current_selected st = c.selected_isbn := by simp [current_selected, hstack]
  have hp3 : current_priv st ≥ 3 := by simpa [current_priv, hstack] using hpriv
  have hv2 : ∀ a ∈ [(⟨f, v2, q2⟩ : Assign)], a.valid = true := by
    intro a ha
    simp only [List.mem_singleton] at ha
    rw [ha]; exact h2
  have hv12 : ∀ a ∈ [(⟨f, v1, q1⟩ : Assign), ⟨f, v2, q2⟩], a.valid = true := by
    intro a ha
    simp only [List.mem_cons, List.mem_singleton, List.not_mem_nil, or_false] at ha
    rcases ha with ha | ha <;> rw [ha] <;> assumption
  have hl := modify_line st line _ b ht (by simp) hv12 hp3 (by rw [hcs]; exact hsel)
    (by rw [hcs]; exact hb)
  have hw := modify_writes_erased_line st _ _ b ht (by simp) hv12 hp3 (by rw [hcs]; exact hsel)
    (by rw [hcs]; exact hb)
  have hfold : [(⟨f, v1, q1⟩ : Assign), ⟨f, v2, q2⟩].foldl ModAcc.set (ModAcc.init b) =
      [(⟨f, v2, q2⟩ : Assign)].foldl ModAcc.set (ModAcc.init b) := by
    simp only [List.foldl_cons, List.foldl_nil]
    exact set_set_same _ f v1 v2 q1 q2 h2
  rw [hfold] at hl hw
  constructor
  · intro line2 ht2
    have hl2 := modify_line st line2 _ b ht2 (by simp) hv2 hp3 (by rw [hcs]; exact hsel)
      (by rw [hcs]; exact hb)
    have hw2 := modify_writes_erased_line st _ _ b ht2 (by simp) hv2 hp3
      (by rw [hcs]; exact hsel) (by rw [hcs]; exact hb)
    exact ⟨by rw [hw, hw2], fun _ => by rw [hl, hl2]⟩
  · intro hf
    obtain ⟨i1, i2⟩ := foldl_set_isbn [(⟨f, v2, q2⟩ : Assign)] (ModAcc.init b)
    have hnone : assigned Field.isbn [(⟨f, v2, q2⟩ : Assign)] = none := by
      simp [assigned, hf]
    have hhas : ([(⟨f, v2, q2⟩ : Assign)].foldl ModAcc.set (ModAcc.init b)).has_isbn = false := by
      rw [i2, hnone]; rfl
    have hisbn : (modified_book b [⟨f, v2, q2⟩]).isbn = b.isbn := by
      simp only [modified_book, hnone, Option.getD_none]
    have hmf := modify_fields_fold b b.isbn [(⟨f, v2, q2⟩ : Assign)] hv2
    have hmb : ({ modified_book b [⟨f, v2, q2⟩] with isbn := b.isbn } : Book) =
        modified_book b [⟨f, v2, q2⟩] := by
      rw [← hisbn]
    rw [hmb] at hmf
    rw [if_neg (by rw [hhas]; simp), hcs,
      modify_commit_same_key st _ b _ hb hcs (by rw [hhas]; simp)] at hl
    rw [if_neg (by rw [hhas]; simp)] at hw
    rw [hl]
    refine ⟨?_, rfl, ?_, hisbn, rfl⟩
    · rw [hw]
      unfold rename_writes_erased
      rw [hhas]
      rfl
    · show (st.books.assign c.selected_isbn _).find c.selected_isbn = _
      rw [Table.find_assign_same]
      exact congrArg some hmf

/-- The line `modify -name=a -name=b` on a freshly selected book, and the line
`modify -ISBN=111 -ISBN=222` when `222` is taken: it is rejected exactly as
`modify -ISBN=222` is, for the key and not for the repetition. -/
theorem modify_repeated_field_witness :
    (modify_writes_erased (main_loop bootstrap select_trace).1
          (tokenize "modify -name=a -name=b".toList) = false ∧
        (process_line (main_loop bootstrap select_trace).1
          "modify -name=a -name=b".toList).out = [] ∧
        (process_line (main_loop bootstrap select_trace).1
          "modify -name=a -name=b".toList).st.books.find
            (⟨"root".toList, 7, "111".toList⟩ : Context).selected_isbn =
              some (modified_book ⟨"111".toList, [], [], [], 0, 0⟩
                [⟨Field.name, "b".toList, false⟩]) ∧
        (modified_book ⟨"111".toList, [], [], [], 0, 0⟩ [⟨Field.name, "b".toList, false⟩]).isbn =
          (⟨"111".toList, [], [], [], 0, 0⟩ : Book).isbn ∧
        (modified_book ⟨"111".toList, [], [], [], 0, 0⟩ [⟨Field.name, "b".toList, false⟩]).stock =
          (⟨"111".toList, [], [], [], 0, 0⟩ : Book).stock) ∧
      process_line (main_loop bootstrap select_trace).1 "modify -name=a -name=b".toList =
        process_line (main_loop bootstrap select_trace).1 "modify -name=b".toList ∧
      modified_book ⟨"111".toList, [], [], [], 0, 0⟩ [⟨Field.name, "b".toList, false⟩] =
        ⟨"111".toList, "b".toList, [], [], 0, 0⟩ ∧
      process_line (main_loop bootstrap two_books_trace).1 "modify -ISBN=111 -ISBN=222".toList =
        process_line (main_loop bootstrap two_books_trace).1 "modify -ISBN=222".toList :=
  ⟨(modify_repeated_field (main_loop bootstrap select_trace).1 "modify -name=a -name=b".toList
      ⟨"root".toList, 7, "111".toList⟩ [] ⟨"111".toList, [], [], [], 0, 0⟩ Field.name
      "a".toList "b".toList false false (by decide) (by decide) (by decide) (by decide)
      (by decide) (by decide) (by decide)).2 (by decide),
    ((modify_repeated_field (main_loop bootstrap select_trace).1 "modify -name=a -name=b".toList
      ⟨"root".toList, 7, "111".toList⟩ [] ⟨"111".toList, [], [], [], 0, 0⟩ Field.name
      "a".toList "b".toList false false (by decide) (by decide) (by decide) (by decide)
      (by decide) (by decide) (by decide)).1 "modify -name=b".toList (by decide)).2 (by decide),
    by decide,
    ((modify_repeated_field (main_loop bootstrap two_books_trace).1 "modify -ISBN=111 -ISBN=222".toList
      ⟨"root".toList, 7, "111".toList⟩ [] ⟨"111".toList, [], [], [], 0, 0⟩ Field.isbn
      "111".toList "222".toList false false (by decide) (by decide) (by decide) (by decide)
      (by decide) (by decide) (by decide)).1 "modify -ISBN=222".toList (by decide)).2
      (by decide)⟩

/-- C4 (as stated) fails: after `su root sjtu` and `select 111` the line
`modify -name=a -name=b` prints nothing instead of `Invalid`, and the selected
book ends with the name `b`: the second occurrence has overwritten the first. -/
theorem modify_repeated_field_counterexample :
    current_priv (main_loop bootstrap select_trace).1 = 7 ∧
      current_selected (main_loop bootstrap select_trace).1 = "111".toList ∧
      (main_loop bootstrap select_trace).1.books.find "111".toList =
        some ⟨"111".toList, [], [], [], 0, 0⟩ ∧
      ¬ emits_invalid (main_loop bootstrap select_trace).1 "modify -name=a -name=b".toList ∧
      (process_line (main_loop bootstrap select_trace).1
        "modify -name=a -name=b".toList).out = [] ∧
      (process_line (main_loop bootstrap select_trace).1
        "modify -name=a -name=b".toList).st.books.find "111".toList =
          some ⟨"111".toList, "b".toList, [], [], 0, 0⟩ := by
  decide

/-! ## Stale selections -/

/-- C5 fails on the code. After `stale_selection_trace` (two nested root
sessions select book `111`, the inner one renames it to `222`) the outer
context still has the selection `111`, which is not empty and is no key of the
Book collection: `cmd_modify` moves only the selection of the top context. -/
theorem selection_liveness_violated :
    Reachable (main_loop bootstrap stale_selection_trace).1 ∧
      (main_loop bootstrap stale_selection_trace).1.login_stack =
        [⟨"root".toList, 7, "222".toList⟩, ⟨"root".toList, 7, "111".toList⟩] ∧
      (main_loop bootstrap stale_selection_trace).1.books =
        [("222".toList, ⟨"222".toList, [], [], [], 0, 0⟩)] ∧
      "111".toList ≠ [] ∧
      (main_loop bootstrap stale_selection_trace).1.books.count "111".toList = false :=
  ⟨⟨stale_selection_trace, rfl⟩, by decide⟩

/-- C1 fails on the code. After `stale_top_trace` the top context selects `111`,
which names no book. The line `modify -bad` prints `Invalid`, but before it
looks at the options `cmd_modify` evaluates `books[current_selected()]`, which
inserts a default book under `111`: the Book collection is not what it was. -/
theorem invalid_modify_changes_state :
    Reachable (main_loop bootstrap stale_top_trace).1 ∧
      emits_invalid (main_loop bootstrap stale_top_trace).1 "modify -bad".toList ∧
      (main_loop bootstrap stale_top_trace).1.books =
        [("222".toList, ⟨"222".toList, [], [], [], 0, 0⟩)] ∧
      (process_line (main_loop bootstrap stale_top_trace).1 "modify -bad".toList).st.books =
        [("222".toList, ⟨"222".toList, [], [], [], 0, 0⟩),
          ("111".toList, ⟨[], [], [], [], 0, 0⟩)] ∧
      (process_line (main_loop bootstrap stale_top_trace).1 "modify -bad".toList).st ≠
        (main_loop bootstrap stale_top_trace).1 :=
  ⟨⟨stale_top_trace, rfl⟩, by decide⟩

/-! ## Rejected commands outside the stale-selection case -/

theorem cmd_logout_reject (st : State) (t : List Str) (h : (cmd_logout st t).ok = false) :
    (cmd_logout st t).st = st := by
  unfold cmd_logout at h ⊢
  split_ifs at h ⊢ <;> simp_all [Res.fail, Res.done]

theorem cmd_register_reject (st : State) (t : List Str) (h : (cmd_register st t).ok = false) :
    (cmd_register st t).st = st := by
  unfold cmd_register at h ⊢
  dsimp only at h ⊢
  split_ifs at h ⊢ <;> simp_all [Res.fail, Res.done]

theorem cmd_passwd_reject (st : State) (t : List Str) (h : (cmd_passwd st t).ok = false) :
    (cmd_passwd st t).st = st := by
  unfold cmd_passwd at h ⊢
  dsimp only at h ⊢
  cases hf : st.accounts.find (tok_at t 1) with
  | none => simp only [hf] at h ⊢; split_ifs at h ⊢ <;> simp_all [Res.fail, Res.done]
  | some acc => simp only [hf] at h ⊢; split_ifs at h ⊢ <;> simp_all [Res.fail, Res.done]

theorem cmd_useradd_reject (st : State) (t : List Str) (h : (cmd_useradd st t).ok = false) :
    (cmd_useradd st t).st = st := by
  unfold cmd_useradd at h ⊢
  dsimp only at h ⊢
  split_ifs at h ⊢ <;> simp_all [Res.fail, Res.done]

theorem cmd_delete_reject (st : State) (t : List Str) (h : (cmd_delete st t).ok = false) :
    (cmd_delete st t).st = st := by
  unfold cmd_delete at h ⊢
  dsimp only at h ⊢
  split_ifs at h ⊢ <;> simp_all [Res.fail, Res.done]

theorem cmd_select_reject (st : State) (t : List Str) (h : (cmd_select st t).ok = false) :
    (cmd_select st t).st = st := by
  unfold cmd_select at h ⊢
  dsimp only at h ⊢
  split_ifs at h ⊢ <;> simp_all [Res.fail, Res.done]

theorem cmd_import_reject (st : State) (t : List Str) (h : (cmd_import st t).ok = false) :
    (cmd_import st t).st = st := by
  unfold cmd_import at h ⊢
  cases h1 : parse_int (tok_at t 1) with
  | none => simp only [h1] at h ⊢; split_ifs at h ⊢ <;> simp_all [Res.fail, Res.done]
  | some qty =>
    cases h2 : parse_price (tok_at t 2) with
    | none => simp only [h1, h2] at h ⊢; split_ifs at h ⊢ <;> simp_all [Res.fail, Res.done]
    | some cost =>
      simp only [h1, h2] at h ⊢
      split_ifs at h ⊢ <;> simp_all [Res.fail, Res.done]

theorem cmd_buy_reject (st : State) (t : List Str) (h : (cmd_buy st t).ok = false) :
    (cmd_buy st t).st = st := by
  unfold cmd_buy at h ⊢
  dsimp only at h ⊢
  cases h1 : st.books.find (tok_at t 1) with
  | none => simp only [h1] at h ⊢; split_ifs at h ⊢ <;> simp_all [Res.fail]
  | some b =>
    cases h2 : parse_int (tok_at t 2) with
    | none => simp only [h1, h2] at h ⊢; split_ifs at h ⊢ <;> simp_all [Res.fail]
    | some qty =>
      simp only [h1, h2] at h ⊢
      split_ifs at h ⊢ <;> simp_all [Res.fail]

theorem cmd_modify_reject (st : State) (t : List Str)
    (hlive : current_selected st = [] ∨ st.books.count (current_selected st) = true)
    (h : (cmd_modify st t).ok = false) : (cmd_modify st t).st = st := by
  unfold cmd_modify at h ⊢
  by_cases h1 : t.length < 2
  · simp [h1, Res.fail]
  by_cases h2 : current_priv st < 3
  · simp [h2, Res.fail]
  by_cases h3 : current_selected st = []
  · simp [h3, Res.fail]
  rw [if_neg h1, if_neg h2, if_neg h3] at h ⊢
  have hc : st.books.count (current_selected st) = true := by
    rcases hlive with e | e
    · exact absurd e h3
    · exact e
  obtain ⟨b, hb⟩ := Option.isSome_iff_exists.mp hc
  have hst : ({ st with books := st.books } : State) = st := rfl
  simp only [Table.touch_of_find _ _ _ _ hb, hst] at h ⊢
  cases hm : modify_parse (merge_flags (List.drop 1 t))
      (ModAcc.init ((st.books.find (current_selected st)).getD Book.empty)) with
  | none => rfl
  | some a =>
    simp only [hm] at h ⊢
    split_ifs at h ⊢
    · rfl
    · simp [Res.done] at h

/-- Outside the stale-selection case a handler that returns `false` leaves the
globals alone: if the top context's selection is empty or names a stored book,
a rejected command changes nothing. -/
theorem dispatch_reject_state (st : State) (t : List Str)
    (hlive : current_selected st = [] ∨ st.books.count (current_selected st) = true)
    (h : (dispatch st t).ok = false) : (dispatch st t).st = st := by
  by_cases h1 : tok_at t 0 = "su".toList
  · rw [dispatch_su st t h1] at h ⊢
    rcases cmd_su_cases st t with ⟨_, h2, _⟩ | ⟨h2, _⟩
    · exact h2
    · rw [h2] at h; exact absurd h (by decide)
  by_cases h2 : tok_at t 0 = "logout".toList
  · rw [dispatch_logout st t h2] at h ⊢; exact cmd_logout_reject st t h
  by_cases h3 : tok_at t 0 = "register".toList
  · rw [dispatch_register st t h3] at h ⊢; exact cmd_register_reject st t h
  by_cases h4 : tok_at t 0 = "passwd".toList
  · rw [dispatch_passwd st t h4] at h ⊢; exact cmd_passwd_reject st t h
  by_cases h5 : tok_at t 0 = "useradd".toList
  · rw [dispatch_useradd st t h5] at h ⊢; exact cmd_useradd_reject st t h
  by_cases h6 : tok_at t 0 = "delete".toList
  · rw [dispatch_delete st t h6] at h ⊢; exact cmd_delete_reject st t h
  by_cases h7 : tok_at t 0 = "show".toList
  · rw [dispatch_show st t h7]
    by_cases hf : t.length ≥ 2 ∧ tok_at t 1 = "finance".toList
    · rw [if_pos hf, cmd_show_finance_state]
    · rw [if_neg hf, cmd_show_state]
  by_cases h8 : tok_at t 0 = "buy".toList
  · rw [dispatch_buy st t h8] at h ⊢; exact cmd_buy_reject st t h
  by_cases h9 : tok_at t 0 = "select".toList
  · rw [dispatch_select st t h9] at h ⊢; exact cmd_select_reject st t h
  by_cases h10 : tok_at t 0 = "modify".toList
  · rw [dispatch_modify st t h10] at h ⊢; exact cmd_modify_reject st t hlive h
  by_cases h11 : tok_at t 0 = "import".toList
  · rw [dispatch_import st t h11] at h ⊢; exact cmd_import_reject st t h
  rcases dispatch_other st t h1 h2 h3 h4 h5 h6 h7 h8 h9 h10 h11 with e | e
  · rw [e, cmd_report_or_log_state]
  · rw [e]; rfl

/-! ## Currency parsing -/

theorem isdigit_range (c : Char) (h : isdigit c = true) : 48 ≤ c.toNat ∧ c.toNat ≤ 57 := by
  simp only [isdigit, Char.isDigit, Bool.and_eq_true, decide_eq_true_eq] at h
  obtain ⟨h1, h2⟩ := h
  rw [ge_iff_le, UInt32.le_def] at h1
  rw [UInt32.le_def] at h2
  exact ⟨h1, h2⟩

theorem isdigit_not_dot (c : Char) (h : isdigit c = true) : (c == '.') = false := by
  have := isdigit_range c h
  rw [beq_eq_false_iff_ne]
  intro e
  subst e
  revert this
  decide

theorem dec_value_from_ge (s : Str) :
    ∀ v : Int, 0 ≤ v → (∀ c ∈ s, isdigit c = true) → v ≤ dec_value_from v s := by
  induction s with
  | nil => intro v _ _; exact le_refl _
  | cons c cs ih =>
    intro v hv hd
    have hc := isdigit_range c (hd c (List.mem_cons_self _ _))
    have h1 : v ≤ dec_step v c := by unfold dec_step; omega
    have h2 := ih (dec_step v c) (by omega) (fun x hx => hd x (List.mem_cons_of_mem _ hx))
    show v ≤ dec_value_from (dec_step v c) cs
    omega

/-- The loop of `parse_price` over the text before the point. -/
theorem parse_price_loop_whole (w : Str) (hw : ∀ c ∈ w, (c == '.') = false) (r : Str) :
    ∀ v : Int, 0 ≤ v → v ≤ 90000000000 →
      parse_price_loop (w ++ r) ⟨v, 0, 0, false⟩ =
        if (∀ c ∈ w, isdigit c = true) ∧ dec_value_from v w ≤ 90000000000 then
          parse_price_loop r ⟨dec_value_from v w, 0, 0, false⟩
        else none := by
  induction w with
  | nil => intro v _ hle; simp [dec_value_from, hle]
  | cons c cs ih =>
    intro v hv _
    have hc := hw c (List.mem_cons_self _ _)
    have hcs : ∀ x ∈ cs, (x == '.') = false := fun x hx => hw x (List.mem_cons_of_mem _ hx)
    by_cases hd : isdigit c = true
    · have hr := isdigit_range c hd
      by_cases hb : dec_step v c > 90000000000
      · have hall : ¬ ((∀ x ∈ c :: cs, isdigit x = true) ∧
            dec_value_from v (c :: cs) ≤ 90000000000) := by
          rintro ⟨ha, hle⟩
          have := dec_value_from_ge cs (dec_step v c) (by unfold dec_step; omega)
            (fun x hx => ha x (List.mem_cons_of_mem _ hx))
          have e : dec_value_from v (c :: cs) = dec_value_from (dec_step v c) cs := rfl
          omega
        rw [if_neg hall]
        have hb2 : v * 10 + ((c.toNat : Int) - 48) > 90000000000 := hb
        simp [parse_price_loop, hc, hd, hb2]
      · have hb2 : ¬ (v * 10 + ((c.toNat : Int) - 48) > 90000000000) := hb
        have e : dec_value_from v (c :: cs) = dec_value_from (dec_step v c) cs := rfl
        have step : parse_price_loop (c :: (cs ++ r)) ⟨v, 0, 0, false⟩ =
            parse_price_loop (cs ++ r) ⟨dec_step v c, 0, 0, false⟩ := by
          simp [parse_price_loop, hc, hd, hb2, dec_step]
        rw [List.cons_append, step, ih hcs (dec_step v c) (by unfold dec_step; omega)
          (by omega), e]
        simp [hd]
    · have hall : ¬ ((∀ x ∈ c :: cs, isdigit x = true) ∧
          dec_value_from v (c :: cs) ≤ 90000000000) := by
        rintro ⟨ha, _⟩
        exact hd (ha c (List.mem_cons_self _ _))
      rw [if_neg hall]
      simp [parse_price_loop, hc, hd]

/-- The loop of `parse_price` over the text after the point. -/
theorem parse_price_loop_frac (f : Str) :
    ∀ (w fr : Int) (fl : Nat), fl ≤ 2 →
      parse_price_loop f ⟨w, fr, fl, true⟩ =
        if (∀ c ∈ f, isdigit c = true) ∧ fl + f.length ≤ 2 then
          some ⟨w, dec_value_from fr f, fl + f.length, true⟩
        else none := by
  induction f with
  | nil => intro w fr fl hfl2; simp [parse_price_loop, dec_value_from, hfl2]
  | cons c cs ih =>
    intro w fr fl _
    by_cases hd : isdigit c = true
    · have hc := isdigit_not_dot c hd
      by_cases hfl : fl ≥ 2
      · have hall : ¬ ((∀ x ∈ c :: cs, isdigit x = true) ∧ fl + (c :: cs).length ≤ 2) := by
          rintro ⟨_, hle⟩
          simp only [List.length_cons] at hle
          omega
        rw [if_neg hall]
        simp [parse_price_loop, hc, hd, hfl]
      · have step : parse_price_loop (c :: cs) ⟨w, fr, fl, true⟩ =
            parse_price_loop cs ⟨w, dec_step fr c, fl + 1, true⟩ := by
          simp [parse_price_loop, hc, hd, hfl, dec_step]
        rw [step, ih _ _ _ (by omega)]
        have e : dec_value_from fr (c :: cs) = dec_value_from (dec_step fr c) cs := rfl
        simp only [List.length_cons, List.mem_cons, forall_eq_or_imp, hd, true_and, e]
        have e2 : fl + 1 + cs.length = fl + (cs.length + 1) := by omega
        rw [e2]
    · have hall : ¬ ((∀ x ∈ c :: cs, isdigit x = true) ∧ fl + (c :: cs).length ≤ 2) := by
        rintro ⟨ha, _⟩
        exact hd (ha c (List.mem_cons_self _ _))
      rw [if_neg hall]
      by_cases hc : (c == '.') = true
      · simp [parse_price_loop, hc]
      · simp [parse_price_loop, hc, hd]

theorem whole_part_no_dot (s : Str) : ∀ c ∈ whole_part s, (c == '.') = false := by
  intro c hc
  have := List.mem_takeWhile_imp hc
  simpa using this

theorem dropWhile_dot_cases (s : Str) :
    s.dropWhile (fun c => c != '.') = [] ∨
      s.dropWhile (fun c => c != '.') = '.' :: frac_part s := by
  unfold frac_part
  cases h : s.dropWhile (fun c => c != '.') with
  | nil => left; rfl
  | cons x xs =>
    right
    have hx := List.head_dropWhile_not (fun c => c != '.') s (by rw [h]; simp)
    simp only [h, List.head_cons, bne_iff_ne, ne_eq, Bool.not_eq_true, decide_eq_false_iff_not,
      Decidable.not_not] at hx
    simp at hx
    simp [hx]

theorem split_at_dot (s : Str) :
    s = whole_part s ++ s.dropWhile (fun c => c != '.') :=
  (List.takeWhile_append_dropWhile _ s).symm

theorem parse_price_loop_dot (w f : Str) (hw : ∀ c ∈ w, (c == '.') = false) :
    parse_price_loop (w ++ '.' :: f) ⟨0, 0, 0, false⟩ =
      if (∀ c ∈ w, isdigit c = true) ∧ dec_value w ≤ 90000000000 then
        if (∀ c ∈ f, isdigit c = true) ∧ f.length ≤ 2 then
          some ⟨dec_value w, dec_value f, f.length, true⟩
        else none
      else none := by
  rw [parse_price_loop_whole w hw _ 0 (le_refl _) (by omega)]
  have step : ∀ v : Int, parse_price_loop ('.' :: f) ⟨v, 0, 0, false⟩ =
      parse_price_loop f ⟨v, 0, 0, true⟩ := by
    intro v
    simp [parse_price_loop]
  rw [step, parse_price_loop_frac f _ _ 0 (by omega)]
  simp only [Nat.zero_add, dec_value]

theorem pad_frac_eq (f : Str) (h1 : 1 ≤ f.length) (h2 : f.length ≤ 2) :
    pad_frac (dec_value f) f.length =
      dec_value (f ++ List.replicate (2 - f.length) '0') := by
  have hcases : f.length = 1 ∨ f.length = 2 := by omega
  rcases hcases with h | h
  · have e : '0'.toNat = 48 := by decide
    simp [pad_frac, h, dec_value, dec_value_from, List.foldl_append, dec_step, e]
  · simp [pad_frac, h, dec_value, dec_value_from]

/-- What `parse_price` returns, in terms of the text before and after the
first point. -/
theorem parse_price_eq (s : Str) :
    parse_price s =
      if s ≠ [] ∧ s.length ≤ 13 ∧ (∀ c ∈ whole_part s, isdigit c = true) ∧
          dec_value (whole_part s) ≤ 90000000000 ∧
          ('.' ∈ s → (∀ c ∈ frac_part s, isdigit c = true) ∧ 1 ≤ (frac_part s).length ∧
            (frac_part s).length ≤ 2) then
        some (price_cents_of s)
      else none := by
  have hsplit := split_at_dot s
  have hw := whole_part_no_dot s
  have hwdot : '.' ∉ whole_part s := by
    intro hmem
    have := hw '.' hmem
    simp at this
  unfold parse_price
  by_cases h0 : s = [] ∨ s.length > 13
  · rw [if_pos h0, if_neg]
    rintro ⟨h1, h2, _⟩
    rcases h0 with h0 | h0
    · exact h1 h0
    · omega
  rw [if_neg h0]
  have h1 : s ≠ [] := fun e => h0 (Or.inl e)
  have h2 : s.length ≤ 13 := by
    by_contra hc
    exact h0 (Or.inr (by omega))
  rcases dropWhile_dot_cases s with hr | hr
  · -- no point in the text
    rw [hr, List.append_nil] at hsplit
    have hws : whole_part s = s := hsplit.symm
    have hnd : '.' ∉ s := by rw [hsplit]; exact hwdot
    have hf : frac_part s = [] := by simp [frac_part, hr]
    have hloop := parse_price_loop_whole (whole_part s) hw [] 0 (le_refl _) (by omega)
    have hval : price_cents_of s = dec_value (whole_part s) * 100 := by
      have e : '0'.toNat = 48 := by decide
      simp [price_cents_of, hf, dec_value, dec_value_from, dec_step, e]
    rw [List.append_nil] at hloop
    rw [hws] at hloop hval hw
    rw [hloop, hws]
    by_cases hc : (∀ c ∈ s, isdigit c = true) ∧ dec_value_from 0 s ≤ 90000000000
    · rw [if_pos hc, if_pos ⟨h1, h2, hc.1, hc.2, fun hd => absurd hd hnd⟩]
      simp [parse_price_loop, pad_frac, hval, dec_value]
    · rw [if_neg hc, if_neg]
      rintro ⟨_, _, h3, h4, _⟩
      exact hc ⟨h3, h4⟩
  · -- a point, followed by `frac_part s`
    rw [hr] at hsplit
    have hd : '.' ∈ s := by rw [hsplit]; simp
    have hloop := parse_price_loop_dot (whole_part s) (frac_part s) hw
    rw [← hsplit] at hloop
    rw [hloop]
    by_cases hc : (∀ c ∈ whole_part s, isdigit c = true) ∧
        dec_value (whole_part s) ≤ 90000000000
    · rw [if_pos hc]
      by_cases hfr : (∀ c ∈ frac_part s, isdigit c = true) ∧ (frac_part s).length ≤ 2
      · rw [if_pos hfr]
        by_cases hz : (frac_part s).length = 0
        · rw [if_neg]
          · simp [hz]
          · rintro ⟨_, _, _, _, h5⟩
            have := (h5 hd).2.1
            omega
        · have hpos : 1 ≤ (frac_part s).length := by omega
          rw [if_pos ⟨h1, h2, hc.1, hc.2, fun _ => ⟨hfr.1, hpos, hfr.2⟩⟩]
          simp only [hz, and_false, if_false, price_cents_of,
            pad_frac_eq (frac_part s) hpos hfr.2]
      · rw [if_neg hfr, if_neg]
        rintro ⟨_, _, _, _, h5⟩
        exact hfr ⟨(h5 hd).1, (h5 hd).2.2⟩
    · rw [if_neg hc, if_neg]
      rintro ⟨_, _, h3, h4, _⟩
      exact hc ⟨h3, h4⟩

theorem count_dot_digits (f : Str) (h : ∀ c ∈ f, isdigit c = true) : f.count '.' = 0 := by
  rw [List.count_eq_zero]
  intro hmem
  have := isdigit_not_dot '.' (h '.' hmem)
  simp at this

theorem dec_value_two (g : Str) (hl : g.length = 2) (hd : ∀ c ∈ g, isdigit c = true) :
    dec_value g ≤ 99 := by
  match g, hl with
  | [a, b], _ =>
    have ha := isdigit_range a (hd a (by simp))
    have hb := isdigit_range b (hd b (by simp))
    simp only [dec_value, dec_value_from, List.foldl_cons, List.foldl_nil, dec_step]
    omega

/-- The condition tested by `parse_price` is the currency format. -/
theorem price_format_iff (s : Str) :
    price_format s ↔
      (s ≠ [] ∧ s.length ≤ 13 ∧ (∀ c ∈ whole_part s, isdigit c = true) ∧
        dec_value (whole_part s) ≤ 90000000000 ∧
        ('.' ∈ s → (∀ c ∈ frac_part s, isdigit c = true) ∧ 1 ≤ (frac_part s).length ∧
          (frac_part s).length ≤ 2)) := by
  have hsplit := split_at_dot s
  have hw := whole_part_no_dot s
  have hwdot : '.' ∉ whole_part s := by
    intro hmem
    have := hw '.' hmem
    simp at this
  have hwcount : (whole_part s).count '.' = 0 := List.count_eq_zero.mpr hwdot
  unfold price_format
  rcases dropWhile_dot_cases s with hr | hr
  · rw [hr, List.append_nil] at hsplit
    have hws : whole_part s = s := hsplit.symm
    have hnd : '.' ∉ s := by rw [hsplit]; exact hwdot
    rw [hws] at hwcount
    constructor
    · rintro ⟨h1, h2, h3, _, _, h6⟩
      refine ⟨h1, h2, ?_, h6, fun hd => absurd hd hnd⟩
      intro c hc
      rw [hws] at hc
      rcases h3 c hc with h | h
      · exact h
      · exact absurd (h ▸ hc) hnd
    · rintro ⟨h1, h2, h3, h4, _⟩
      refine ⟨h1, h2, ?_, by omega, fun hd => absurd hd hnd, h4⟩
      intro c hc
      left
      exact h3 c (by rw [hws]; exact hc)
  · rw [hr] at hsplit
    have hd : '.' ∈ s := by rw [hsplit]; simp
    have hcount : s.count '.' = 1 + (frac_part s).count '.' := by
      conv_lhs => rw [hsplit]
      rw [List.count_append, hwcount, List.count_cons_self]
      omega
    constructor
    · rintro ⟨h1, h2, h3, h4, h5, h6⟩
      refine ⟨h1, h2, ?_, h6, fun _ => ⟨?_, h5 hd⟩⟩
      · intro c hc
        have hcs : c ∈ s := by rw [hsplit]; exact List.mem_append_left _ hc
        rcases h3 c hcs with h | h
        · exact h
        · exact absurd (h ▸ hc) hwdot
      · intro c hc
        have hcs : c ∈ s := by
          rw [hsplit]
          exact List.mem_append_right _ (List.mem_cons_of_mem _ hc)
        rcases h3 c hcs with h | h
        · exact h
        · exfalso
          have hz : (frac_part s).count '.' = 0 := by omega
          exact (List.count_eq_zero.mp hz) (h ▸ hc)
    · rintro ⟨h1, h2, h3, h4, h5⟩
      obtain ⟨hf, hl1, hl2⟩ := h5 hd
      refine ⟨h1, h2, ?_, ?_, fun _ => ⟨hl1, hl2⟩, h4⟩
      · intro c hc
        rw [hsplit] at hc
        simp only [List.mem_append, List.mem_cons] at hc
        rcases hc with hc | hc | hc
        · left; exact h3 c hc
        · right; exact hc
        · left; exact hf c hc
      · rw [hcount, count_dot_digits _ hf]

theorem price_cents_of_bound (s : Str)
    (h : s ≠ [] ∧ s.length ≤ 13 ∧ (∀ c ∈ whole_part s, isdigit c = true) ∧
        dec_value (whole_part s) ≤ 90000000000 ∧
        ('.' ∈ s → (∀ c ∈ frac_part s, isdigit c = true) ∧ 1 ≤ (frac_part s).length ∧
          (frac_part s).length ≤ 2)) :
    price_cents_of s < 9223372036854775808 := by
  obtain ⟨_, _, _, h4, h5⟩ := h
  have hfrac : dec_value (frac_part s ++ List.replicate (2 - (frac_part s).length) '0') ≤ 99 := by
    rcases dropWhile_dot_cases s with hr | hr
    · have hf : frac_part s = [] := by simp [frac_part, hr]
      rw [hf]
      decide
    · have hd : '.' ∈ s := by
        have := split_at_dot s
        rw [hr] at this
        rw [this]; simp
      obtain ⟨hf, hl1, hl2⟩ := h5 hd
      apply dec_value_two
      · simp only [List.length_append, List.length_replicate]
        omega
      · intro c hc
        simp only [List.mem_append, List.mem_replicate] at hc
        rcases hc with hc | ⟨_, hc⟩
        · exact hf c hc
        · rw [hc]; decide
  unfold price_cents_of
  omega

/-- C14. Currency parsing: `parse_price` accepts `s` exactly when `s` is not
empty and at most 13 bytes long, consists only of decimal digits and at most one
point, has one or two digits after the point when there is one, and the digits
before the point (value 0 when there are none) denote a whole part of at most
90,000,000,000; on acceptance the result is the whole part times 100 plus the
fractional digits right-padded with zeros to two digits (`9.9` gives 990, `9.99`
gives 999, `12` gives 1200), and it is below 2^63. -/
theorem currency_parsing (s : Str) :
    ((parse_price s).isSome = true ↔ price_format s) ∧
      (∀ v, parse_price s = some v → v = price_cents_of s ∧ v < 9223372036854775808) ∧
      parse_price "9.9".toList = some 990 ∧ parse_price "9.99".toList = some 999 ∧
      parse_price "12".toList = some 1200 := by
  refine ⟨?_, ?_, by decide, by decide, by decide⟩
  · rw [price_format_iff, parse_price_eq]
    split_ifs with h
    · simp only [Option.isSome_some, true_iff]; exact h
    · simp only [Option.isSome_none, Bool.false_eq_true, false_iff]; exact h
  · intro v hv
    rw [parse_price_eq] at hv
    split_ifs at hv with h
    simp only [Option.some.injEq] at hv
    subst hv
    exact ⟨rfl, price_cents_of_bound s h⟩

/-! ## Currency round trip -/

theorem dec_digits_isdigit (fuel : Nat) :
    ∀ n : Nat, ∀ c ∈ dec_digits fuel n, isdigit c = true := by
  induction fuel with
  | zero => intro n c hc; simp [dec_digits] at hc
  | succ fuel ih =>
    intro n c hc
    unfold dec_digits at hc
    split_ifs at hc with h10
    · simp only [List.mem_singleton] at hc
      rw [hc]
      exact (digit_char_spec n h10).1
    · simp only [List.mem_append, List.mem_singleton] at hc
      rcases hc with hc | hc
      · exact ih _ c hc
      · rw [hc]
        exact (digit_char_spec (n % 10) (by omega)).1

theorem dec_value_dec_digits (fuel : Nat) :
    ∀ n : Nat, n < fuel → dec_value (dec_digits fuel n) = (n : Int) := by
  induction fuel with
  | zero => intro n h; omega
  | succ fuel ih =>
    intro n hn
    unfold dec_digits
    by_cases h10 : n < 10
    · rw [if_pos h10]
      have h2 := (digit_char_spec n h10).2
      simp only [dec_value, dec_value_from, List.foldl_cons, List.foldl_nil, dec_step]
      omega
    · rw [if_neg h10]
      have h2 := (digit_char_spec (n % 10) (by omega)).2
      have hi := ih (n / 10) (by omega)
      simp only [dec_value, dec_value_from, List.foldl_append, List.foldl_cons, List.foldl_nil,
        dec_step] at hi ⊢
      rw [hi]
      omega

theorem pad2_eq (b : Nat) (h : b < 100) : pad2 b = [digit_char (b / 10), digit_char (b % 10)] := by
  unfold pad2 nat_to_str
  by_cases h10 : b < 10
  · have e1 : b / 10 = 0 := by omega
    have e2 : b % 10 = b := by omega
    rw [if_pos h10, e1, e2]
    unfold dec_digits
    rw [if_pos h10]
    rfl
  · rw [if_neg h10]
    unfold dec_digits
    rw [if_neg h10]
    have hq : b / 10 < 10 := by omega
    have hf : ∃ k, b = k + 1 := ⟨b - 1, by omega⟩
    obtain ⟨k, rfl⟩ := hf
    unfold dec_digits
    rw [if_pos hq]
    rfl

/-- The round trip for a natural number of cents. -/
theorem currency_round_trip_nat (c : Nat) (h : c < 1000000000000) :
    price_to_str (c : Int) =
        nat_to_str (c / 100) ++ '.' :: [digit_char (c % 100 / 10), digit_char (c % 10)] ∧
      parse_price (price_to_str (c : Int)) = some (c : Int) := by
  have hstr : price_to_str (c : Int) =
      nat_to_str (c / 100) ++ '.' :: [digit_char (c % 100 / 10), digit_char (c % 10)] := by
    rw [price_to_str_nonneg _ (by omega)]
    unfold spec_currency
    have h3 : ¬ ((c : Int) < 0) := by omega
    have e : c % 100 % 10 = c % 10 := by omega
    simp only [h3, if_false, Int.natAbs_ofNat, List.nil_append, pad2_eq (c % 100) (by omega), e,
      List.append_assoc, List.singleton_append]
  refine ⟨hstr, ?_⟩
  rw [hstr]
  have hwd := dec_digits_isdigit (c / 100 + 1) (c / 100)
  have hw : ∀ x ∈ nat_to_str (c / 100), (x == '.') = false :=
    fun x hx => isdigit_not_dot x (hwd x hx)
  have hwv : dec_value (nat_to_str (c / 100)) = ((c / 100 : Nat) : Int) :=
    dec_value_dec_digits _ _ (by omega)
  have hlen : (nat_to_str (c / 100)).length ≤ 10 :=
    dec_digits_length _ _ 10 (by omega) (by omega)
  obtain ⟨d1a, d1b⟩ := digit_char_spec (c % 100 / 10) (by omega)
  obtain ⟨d2a, d2b⟩ := digit_char_spec (c % 10) (by omega)
  have hfd : ∀ x ∈ [digit_char (c % 100 / 10), digit_char (c % 10)], isdigit x = true := by
    intro x hx
    simp only [List.mem_cons, List.mem_singleton, List.not_mem_nil, or_false] at hx
    rcases hx with hx | hx <;> rw [hx] <;> assumption
  have hfv : dec_value [digit_char (c % 100 / 10), digit_char (c % 10)] =
      ((c % 100 : Nat) : Int) := by
    simp only [dec_value, dec_value_from, List.foldl_cons, List.foldl_nil, dec_step]
    omega
  unfold parse_price
  rw [if_neg (by
    intro hcon
    rcases hcon with hcon | hcon
    · simp at hcon
    · simp only [List.length_append, List.length_cons, List.length_nil] at hcon
      omega)]
  rw [parse_price_loop_dot _ _ hw, if_pos ⟨hwd, by rw [hwv]; omega⟩,
    if_pos ⟨hfd, by simp⟩, hwv, hfv]
  simp only [List.length_cons, List.length_nil, pad_frac]
  simp
  omega

/-- C20. Currency format/parse round trip: for every integer `c` with
`0 ≤ c < 10^12`, `price_to_str c` is the decimal whole part `c / 100`, a point,
and exactly two digits of `c mod 100`, and `parse_price` applied to that string
succeeds and returns `c`. -/
theorem currency_round_trip (c : Int) (h0 : 0 ≤ c) (h : c < 1000000000000) :
    price_to_str c =
        nat_to_str (c.toNat / 100) ++
          '.' :: [digit_char (c.toNat % 100 / 10), digit_char (c.toNat % 10)] ∧
      parse_price (price_to_str c) = some c := by
  obtain ⟨n, rfl⟩ := Int.eq_ofNat_of_zero_le h0
  have hn : n < 1000000000000 := by omega
  exact currency_round_trip_nat n hn

/-- The round trip on the amount 37.50. -/
theorem currency_round_trip_witness :
    price_to_str 3750 =
        nat_to_str ((3750 : Int).toNat / 100) ++
          '.' :: [digit_char ((3750 : Int).toNat % 100 / 10),
            digit_char ((3750 : Int).toNat % 10)] ∧
      parse_price (price_to_str 3750) = some 3750 :=
  currency_round_trip 3750 (by decide) (by decide)

/-! ## Account creation and password change -/

theorem isalnum_iff (c : Char) :
    isalnum c = true ↔
      (65 ≤ c.toNat ∧ c.toNat ≤ 90) ∨ (97 ≤ c.toNat ∧ c.toNat ≤ 122) ∨
        (48 ≤ c.toNat ∧ c.toNat ≤ 57) := by
  simp only [isalnum, Char.isAlphanum, Char.isAlpha, Char.isUpper, Char.isLower, Char.isDigit,
    Bool.or_eq_true, Bool.and_eq_true, decide_eq_true_eq, ge_iff_le, UInt32.le_def]
  constructor
  · rintro ((⟨h1, h2⟩ | ⟨h1, h2⟩) | ⟨h1, h2⟩)
    · exact Or.inl ⟨h1, h2⟩
    · exact Or.inr (Or.inl ⟨h1, h2⟩)
    · exact Or.inr (Or.inr ⟨h1, h2⟩)
  · rintro (⟨h1, h2⟩ | ⟨h1, h2⟩ | ⟨h1, h2⟩)
    · exact Or.inl (Or.inl ⟨h1, h2⟩)
    · exact Or.inl (Or.inr ⟨h1, h2⟩)
    · exact Or.inr ⟨h1, h2⟩

theorem is_valid_user_token_iff (s : Str) : is_valid_user_token s = true ↔ ident_format s := by
  unfold is_valid_user_token ident_format
  by_cases h : s = [] ∨ s.length > 30
  · rw [if_pos h]
    simp only [Bool.false_eq_true, false_iff]
    rintro ⟨h1, h2, _⟩
    rcases h with h | h
    · rw [h] at h1; simp at h1
    · omega
  · rw [if_neg h]
    have h1 : 1 ≤ s.length := by
      rcases s with _ | ⟨x, xs⟩
      · exact absurd (Or.inl rfl) h
      · simp
    have h2 : s.length ≤ 30 := by
      by_contra hc
      exact h (Or.inr (by omega))
    simp only [List.all_eq_true, Bool.or_eq_true, beq_iff_eq, h1, h2, true_and]
    constructor
    · intro ha c hc
      rcases ha c hc with hx | hx
      · rcases (isalnum_iff c).mp hx with a | a | a
        · exact Or.inl a
        · exact Or.inr (Or.inl a)
        · exact Or.inr (Or.inr (Or.inl a))
      · exact Or.inr (Or.inr (Or.inr hx))
    · intro ha c hc
      rcases ha c hc with a | a | a | a
      · exact Or.inl ((isalnum_iff c).mpr (Or.inl a))
      · exact Or.inl ((isalnum_iff c).mpr (Or.inr (Or.inl a)))
      · exact Or.inl ((isalnum_iff c).mpr (Or.inr (Or.inr a)))
      · exact Or.inr a

theorem is_valid_username_iff (s : Str) :
    is_valid_username s = true ↔ display_name_format s := by
  unfold is_valid_username display_name_format
  by_cases h : s = [] ∨ s.length > 30
  · rw [if_pos h]
    simp only [Bool.false_eq_true, false_iff]
    rintro ⟨h1, h2, _⟩
    rcases h with h | h
    · rw [h] at h1; simp at h1
    · omega
  · rw [if_neg h]
    have h1 : 1 ≤ s.length := by
      rcases s with _ | ⟨x, xs⟩
      · exact absurd (Or.inl rfl) h
      · simp
    have h2 : s.length ≤ 30 := by
      by_contra hc
      exact h (Or.inr (by omega))
    simp only [List.all_eq_true, Bool.not_eq_true', decide_eq_false_iff_not, not_lt, h1, h2,
      true_and]

theorem char_of_toNat (c : Char) (n : Nat) (h : c.toNat = n) : c = Char.ofNat n := by
  rw [← h]
  exact (Char.ofNat_toNat c).symm

/-- The privilege test of `cmd_useradd` (lines 272-273) in terms of the token. -/
theorem privilege_token_iff (privs : Str) (p : Int) :
    (¬ (privs.length ≠ 1 ∨ (!isdigit (privs.getD 0 ' ')) = true) ∧
        p = ((privs.getD 0 ' ').toNat : Int) - 48 ∧ (p = 1 ∨ p = 3 ∨ p = 7)) ↔
      privilege_of_token privs = some p := by
  unfold privilege_of_token
  constructor
  · rintro ⟨h1, h2, h3⟩
    push_neg at h1
    obtain ⟨hl, hd⟩ := h1
    match privs, hl with
    | [c], _ =>
      simp only [List.getD_cons_zero] at h2 hd
      rcases h3 with h | h | h
      · have hc : c = '1' := char_of_toNat c 49 (by omega)
        subst hc; simp [h]
      · have hc : c = '3' := char_of_toNat c 51 (by omega)
        subst hc; simp [h]
      · have hc : c = '7' := char_of_toNat c 55 (by omega)
        subst hc; simp [h]
  · intro h
    split_ifs at h with h1 h3 h7
    · subst h1; simp only [Option.some.injEq] at h; subst h; decide
    · subst h3; simp only [Option.some.injEq] at h; subst h; decide
    · subst h7; simp only [Option.some.injEq] at h; subst h; decide

theorem cmd_useradd_eq (st : State) (uid pw privs name : Str) :
    cmd_useradd st ["useradd".toList, uid, pw, privs, name] =
      if current_priv st ≥ 3 ∧ is_valid_user_token uid = true ∧ is_valid_user_token pw = true ∧
          is_valid_username name = true ∧
          (¬ (privs.length ≠ 1 ∨ (!isdigit (privs.getD 0 ' ')) = true) ∧
            (((privs.getD 0 ' ').toNat : Int) - 48 = 1 ∨ ((privs.getD 0 ' ').toNat : Int) - 48 = 3 ∨
              ((privs.getD 0 ' ').toNat : Int) - 48 = 7)) ∧
          ((privs.getD 0 ' ').toNat : Int) - 48 < current_priv st ∧
          st.accounts.count uid = false then
        Res.done { st with
          accounts := st.accounts.assign uid
            ⟨uid, pw, name, ((privs.getD 0 ' ').toNat : Int) - 48⟩ }
      else Res.fail st := by
  unfold cmd_useradd
  simp only [tok_at_succ, tok_at_zero, List.length_cons, List.length_nil]
  by_cases h1 : current_priv st < 3
  · rw [if_neg (by simp), if_pos h1, if_neg (fun hc => by omega)]
  by_cases h2 : is_valid_user_token uid = true
  swap
  · rw [if_neg (by simp), if_neg h1, if_pos (by simp [h2]), if_neg (fun hc => h2 hc.2.1)]
  by_cases h3 : is_valid_user_token pw = true
  swap
  · rw [if_neg (by simp), if_neg h1, if_pos (by simp [h3]), if_neg (fun hc => h3 hc.2.2.1)]
  by_cases h4 : is_valid_username name = true
  swap
  · rw [if_neg (by simp), if_neg h1, if_pos (by simp [h4]), if_neg (fun hc => h4 hc.2.2.2.1)]
  rw [if_neg (by simp), if_neg h1, if_neg (by simp [h2, h3, h4])]
  by_cases h5 : privs.length ≠ 1 ∨ (!isdigit (privs.getD 0 ' ')) = true
  · rw [if_pos h5, if_neg (fun hc => hc.2.2.2.2.1.1 h5)]
  rw [if_neg h5]
  by_cases h6 : (((privs.getD 0 ' ').toNat : Int) - 48 = 1 ∨
      ((privs.getD 0 ' ').toNat : Int) - 48 = 3 ∨ ((privs.getD 0 ' ').toNat : Int) - 48 = 7)
  swap
  · rw [if_pos h6, if_neg (fun hc => h6 hc.2.2.2.2.1.2)]
  rw [if_neg (not_not.mpr h6)]
  by_cases h7 : ((privs.getD 0 ' ').toNat : Int) - 48 ≥ current_priv st
  · rw [if_pos h7, if_neg (fun hc => by have := hc.2.2.2.2.2.1; omega)]
  rw [if_neg h7]
  by_cases h8 : st.accounts.count uid = true
  · rw [if_pos h8, if_neg (fun hc => by rw [hc.2.2.2.2.2.2] at h8; exact absurd h8 (by decide))]
  rw [if_neg h8, if_pos ⟨by omega, h2, h3, h4, ⟨h5, h6⟩, by omega, by simpa using h8⟩]

/-- A line whose handler returns `true` without output prints nothing. -/
theorem line_done (st st1 : State) (line : Str) (t : List Str)
    (ht : tokenize line = t) (hne : t ≠ [])
    (hq : tok_at t 0 ≠ "quit".toList) (he : tok_at t 0 ≠ "exit".toList)
    (hd : dispatch st t = Res.done st1) :
    process_line st line = ⟨st1, [], false⟩ := by
  rw [process_line_dispatch st line t ht hne hq he, hd]
  simp [Res.done]

/-- A line whose handler returns `false` without touching the globals prints
`Invalid`. -/
theorem line_fail (st : State) (line : Str) (t : List Str)
    (ht : tokenize line = t) (hne : t ≠ [])
    (hq : tok_at t 0 ≠ "quit".toList) (he : tok_at t 0 ≠ "exit".toList)
    (hd : dispatch st t = Res.fail st) :
    process_line st line = ⟨st, invalid_line, false⟩ := by
  rw [process_line_dispatch st line t ht hne hq he, hd]
  simp [Res.fail]

theorem invalid_line_ne_nil : invalid_line ≠ [] := by decide

/-- C15. Account creation: `useradd uid pw p name` succeeds exactly when the
current privilege is at least 3, `uid` and `pw` are identifier tokens (1-30
bytes of letters, digits, underscore), `name` is a display name (1-30 bytes, none
below 32), `p` is a single digit in {1,3,7} strictly below the current privilege,
and `uid` is not yet an account key; on success the account collection gains
exactly the account (uid, pw, name, p), nothing is printed and everything else
is unchanged; otherwise the command prints `Invalid` and changes nothing. -/
theorem useradd_rule (st : State) (line uid pw privs name : Str)
    (ht : tokenize line = ["useradd".toList, uid, pw, privs, name]) :
    (¬ emits_invalid st line ↔
        current_priv st ≥ 3 ∧ ident_format uid ∧ ident_format pw ∧ display_name_format name ∧
          (∃ p, privilege_of_token privs = some p ∧ p < current_priv st) ∧
          st.accounts.count uid = false) ∧
      (∀ p, privilege_of_token privs = some p → ¬ emits_invalid st line →
        process_line st line =
            ⟨{ st with accounts := st.accounts.assign uid ⟨uid, pw, name, p⟩ }, [], false⟩ ∧
          (st.accounts.assign uid ⟨uid, pw, name, p⟩).find uid = some ⟨uid, pw, name, p⟩ ∧
          ∀ k, k ≠ uid →
            (st.accounts.assign uid ⟨uid, pw, name, p⟩).find k = st.accounts.find k) ∧
      (emits_invalid st line → (process_line st line).st = st) := by
  have hd := dispatch_useradd st ["useradd".toList, uid, pw, privs, name] (by rfl)
  rw [cmd_useradd_eq] at hd
  have hcond : (current_priv st ≥ 3 ∧ is_valid_user_token uid = true ∧
      is_valid_user_token pw = true ∧ is_valid_username name = true ∧
      (¬ (privs.length ≠ 1 ∨ (!isdigit (privs.getD 0 ' ')) = true) ∧
        (((privs.getD 0 ' ').toNat : Int) - 48 = 1 ∨ ((privs.getD 0 ' ').toNat : Int) - 48 = 3 ∨
          ((privs.getD 0 ' ').toNat : Int) - 48 = 7)) ∧
      ((privs.getD 0 ' ').toNat : Int) - 48 < current_priv st ∧
      st.accounts.count uid = false) ↔
      (current_priv st ≥ 3 ∧ ident_format uid ∧ ident_format pw ∧ display_name_format name ∧
        (∃ p, privilege_of_token privs = some p ∧ p < current_priv st) ∧
        st.accounts.count uid = false) := by
    rw [is_valid_user_token_iff, is_valid_user_token_iff, is_valid_username_iff]
    constructor
    · rintro ⟨h1, h2, h3, h4, ⟨h5, h6⟩, h7, h8⟩
      exact ⟨h1, h2, h3, h4,
        ⟨_, (privilege_token_iff privs _).mp ⟨h5, rfl, h6⟩, h7⟩, h8⟩
    · rintro ⟨h1, h2, h3, h4, ⟨p, hp1, hp2⟩, h8⟩
      obtain ⟨h5, h6, h7⟩ := (privilege_token_iff privs p).mpr hp1
      subst h6
      exact ⟨h1, h2, h3, h4, ⟨h5, h7⟩, hp2, h8⟩
  refine ⟨?_, ?_, ?_⟩
  · rw [← hcond]
    unfold emits_invalid
    split_ifs at hd with hc
    · rw [line_done st _ line _ ht (by simp) (by simp) (by simp) hd]
      exact iff_of_true (fun (e : [] = invalid_line) => invalid_line_ne_nil e.symm) hc
    · rw [line_fail st line _ ht (by simp) (by simp) (by simp) hd]
      exact iff_of_false (fun h => h rfl) hc
  · intro p hpt hok
    obtain ⟨_, h6, _⟩ := (privilege_token_iff privs p).mpr hpt
    refine ⟨?_, Table.find_assign_same _ _ _, fun k hk => Table.find_assign_other _ _ _ _ hk⟩
    unfold emits_invalid at hok
    split_ifs at hd with hc
    · rw [line_done st _ line _ ht (by simp) (by simp) (by simp) hd, h6]
    · rw [line_fail st line _ ht (by simp) (by simp) (by simp) hd] at hok
      exact absurd rfl hok
  · intro hinv
    unfold emits_invalid at hinv
    split_ifs at hd with hc
    · rw [line_done st _ line _ ht (by simp) (by simp) (by simp) hd] at hinv
      exact absurd hinv.symm invalid_line_ne_nil
    · rw [line_fail st line _ ht (by simp) (by simp) (by simp) hd]

/-- Root creates a privilege-3 account; a second `useradd` of the same user id is
rejected. -/
theorem useradd_rule_witness :
    (¬ emits_invalid (main_loop bootstrap ["su root sjtu".toList]).1
          "useradd u1 p1 3 n1".toList ↔
        current_priv (main_loop bootstrap ["su root sjtu".toList]).1 ≥ 3 ∧
          ident_format "u1".toList ∧ ident_format "p1".toList ∧
          display_name_format "n1".toList ∧
          (∃ p, privilege_of_token "3".toList = some p ∧
            p < current_priv (main_loop bootstrap ["su root sjtu".toList]).1) ∧
          (main_loop bootstrap ["su root sjtu".toList]).1.accounts.count "u1".toList = false) ∧
      process_line (main_loop bootstrap ["su root sjtu".toList]).1 "useradd u1 p1 3 n1".toList =
        ⟨{ (main_loop bootstrap ["su root sjtu".toList]).1 with
            accounts := (main_loop bootstrap ["su root sjtu".toList]).1.accounts.assign
              "u1".toList ⟨"u1".toList, "p1".toList, "n1".toList, 3⟩ }, [], false⟩ ∧
      (process_line (main_loop bootstrap ["su root sjtu".toList, "useradd u1 p1 3 n1".toList]).1
          "useradd u1 p2 1 n2".toList).st =
        (main_loop bootstrap ["su root sjtu".toList, "useradd u1 p1 3 n1".toList]).1 :=
  ⟨(useradd_rule _ "useradd u1 p1 3 n1".toList "u1".toList "p1".toList "3".toList
      "n1".toList (by decide)).1,
    ((useradd_rule _ "useradd u1 p1 3 n1".toList "u1".toList "p1".toList "3".toList
      "n1".toList (by decide)).2.1 3 (by decide) (by decide)).1,
    (useradd_rule _ "useradd u1 p2 1 n2".toList "u1".toList "p2".toList "1".toList
      "n2".toList (by decide)).2.2 (by decide)⟩

theorem cmd_passwd_four (st : State) (u cur new : Str) (acc : Account)
    (hu : is_valid_user_token u = true) (hacc : st.accounts.find u = some acc)
    (hcur : is_valid_user_token cur = true) (hnew : is_valid_user_token new = true) :
    cmd_passwd st ["passwd".toList, u, cur, new] =
      if current_priv st = 7 ∨ acc.password = cur then
        Res.done { st with accounts := st.accounts.assign u { acc with password := new } }
      else Res.fail st := by
  unfold cmd_passwd
  simp only [tok_at_succ, tok_at_zero, List.length_cons, List.length_nil, hu, hacc, hcur, hnew]
  by_cases h7 : current_priv st = 7
  · simp [h7]
  · by_cases hpw : acc.password = cur
    · simp [h7, hpw]
    · simp [h7, hpw]

theorem cmd_passwd_three (st : State) (u new : Str) (acc : Account)
    (hu : is_valid_user_token u = true) (hacc : st.accounts.find u = some acc)
    (hnew : is_valid_user_token new = true) :
    cmd_passwd st ["passwd".toList, u, new] =
      if current_priv st = 7 then
        Res.done { st with accounts := st.accounts.assign u { acc with password := new } }
      else Res.fail st := by
  unfold cmd_passwd
  simp only [tok_at_succ, tok_at_zero, List.length_cons, List.length_nil, hu, hacc, hnew]
  by_cases h7 : current_priv st = 7
  · simp [h7]
  · simp [h7]

/-- C16 (amended). Password change: for an existing account whose user id `u` is
a valid identifier and valid identifier tokens `cur` and `new`: when the current
privilege is not 7, `passwd u cur new` succeeds exactly when `cur` equals the
stored password of `u`, and `passwd u new` prints `Invalid`; when the current
privilege is 7 both forms succeed regardless of `cur`. On success nothing is
printed and only the password of `u` changes (to `new`); on `Invalid` nothing
changes. -/
theorem passwd_rule (st : State) (line u cur new : Str) (acc : Account)
    (hu : is_valid_user_token u = true) (hacc : st.accounts.find u = some acc)
    (hcur : is_valid_user_token cur = true) (hnew : is_valid_user_token new = true) :
    (tokenize line = ["passwd".toList, u, cur, new] →
        (current_priv st ≠ 7 → (¬ emits_invalid st line ↔ cur = acc.password)) ∧
        (current_priv st = 7 → ¬ emits_invalid st line)) ∧
      (tokenize line = ["passwd".toList, u, new] →
        (current_priv st ≠ 7 → emits_invalid st line) ∧
        (current_priv st = 7 → ¬ emits_invalid st line)) ∧
      ((tokenize line = ["passwd".toList, u, cur, new] ∨
          tokenize line = ["passwd".toList, u, new]) →
        (¬ emits_invalid st line →
          process_line st line =
            ⟨{ st with accounts := st.accounts.assign u { acc with password := new } }, [],
              false⟩) ∧
        (emits_invalid st line → (process_line st line).st = st)) ∧
      (st.accounts.assign u { acc with password := new }).find u =
        some { acc with password := new } ∧
      (∀ k, k ≠ u →
        (st.accounts.assign u { acc with password := new }).find k = st.accounts.find k) := by
  have key : (tokenize line = ["passwd".toList, u, cur, new] ∨
      tokenize line = ["passwd".toList, u, new]) →
      ∃ ok : Prop, (ok →
          process_line st line =
            ⟨{ st with accounts := st.accounts.assign u { acc with password := new } }, [],
              false⟩) ∧
        (¬ ok → process_line st line = ⟨st, invalid_line, false⟩) ∧
        (tokenize line = ["passwd".toList, u, cur, new] →
          (ok ↔ (current_priv st = 7 ∨ acc.password = cur))) ∧
        (tokenize line = ["passwd".toList, u, new] → (ok ↔ current_priv st = 7)) := by
    rintro (ht | ht)
    · have hd := dispatch_passwd st ["passwd".toList, u, cur, new] (by rfl)
      rw [cmd_passwd_four st u cur new acc hu hacc hcur hnew] at hd
      refine ⟨current_priv st = 7 ∨ acc.password = cur, ?_, ?_, fun _ => Iff.rfl, ?_⟩
      · intro hc
        rw [if_pos hc] at hd
        exact line_done st _ line _ ht (by simp) (by simp) (by simp) hd
      · intro hc
        rw [if_neg hc] at hd
        exact line_fail st line _ ht (by simp) (by simp) (by simp) hd
      · intro ht2
        rw [ht] at ht2
        simp at ht2
    · have hd := dispatch_passwd st ["passwd".toList, u, new] (by rfl)
      rw [cmd_passwd_three st u new acc hu hacc hnew] at hd
      refine ⟨current_priv st = 7, ?_, ?_, ?_, fun _ => Iff.rfl⟩
      · intro hc
        rw [if_pos hc] at hd
        exact line_done st _ line _ ht (by simp) (by simp) (by simp) hd
      · intro hc
        rw [if_neg hc] at hd
        exact line_fail st line _ ht (by simp) (by simp) (by simp) hd
      · intro ht2
        rw [ht] at ht2
        simp at ht2
  have hinv : ∀ ok : Prop, (ok →
      process_line st line =
        ⟨{ st with accounts := st.accounts.assign u { acc with password := new } }, [],
          false⟩) →
      (¬ ok → process_line st line = ⟨st, invalid_line, false⟩) →
      (¬ emits_invalid st line ↔ ok) := by
    intro ok h1 h2
    unfold emits_invalid
    by_cases hok : ok
    · rw [h1 hok]
      exact iff_of_true (fun (e : [] = invalid_line) => invalid_line_ne_nil e.symm) hok
    · rw [h2 hok]
      exact iff_of_false (fun h => h rfl) hok
  refine ⟨?_, ?_, ?_, Table.find_assign_same _ _ _,
    fun k hk => Table.find_assign_other _ _ _ _ hk⟩
  · intro ht
    obtain ⟨ok, h1, h2, h3, _⟩ := key (Or.inl ht)
    have hi := hinv ok h1 h2
    rw [h3 ht] at hi
    constructor
    · intro h7
      rw [hi]
      constructor
      · rintro (h | h)
        · exact absurd h h7
        · exact h.symm
      · intro h; exact Or.inr h.symm
    · intro h7
      exact hi.mpr (Or.inl h7)
  · intro ht
    obtain ⟨ok, h1, h2, _, h4⟩ := key (Or.inr ht)
    have hi := hinv ok h1 h2
    rw [h4 ht] at hi
    constructor
    · intro h7
      by_contra hc
      exact h7 (hi.mp hc)
    · intro h7
      exact hi.mpr h7
  · intro hforms
    obtain ⟨ok, h1, h2, _, _⟩ := key hforms
    have hi := hinv ok h1 h2
    constructor
    · intro hne
      exact h1 (hi.mp hne)
    · intro hinvd
      have hnok : ¬ ok := fun hok => (hi.mpr hok) hinvd
      rw [h2 hnok]

/-- A user changes the own password with the current one; root changes it
without; an anonymous `passwd u new` is rejected. -/
theorem passwd_rule_witness :
    (¬ emits_invalid (main_loop bootstrap ["register u1 p1 n1".toList]).1
          "passwd u1 p1 p2".toList ↔ "p1".toList = "p1".toList) ∧
      emits_invalid (main_loop bootstrap ["register u1 p1 n1".toList]).1
        "passwd u1 p2".toList ∧
      ¬ emits_invalid (main_loop bootstrap ["register u1 p1 n1".toList, "su root sjtu".toList]).1
        "passwd u1 p2".toList ∧
      process_line (main_loop bootstrap ["register u1 p1 n1".toList]).1
          "passwd u1 p1 p2".toList =
        ⟨{ (main_loop bootstrap ["register u1 p1 n1".toList]).1 with
            accounts := (main_loop bootstrap ["register u1 p1 n1".toList]).1.accounts.assign
              "u1".toList
              { (⟨"u1".toList, "p1".toList, "n1".toList, 1⟩ : Account) with
                password := "p2".toList } }, [], false⟩ :=
  ⟨((passwd_rule (main_loop bootstrap ["register u1 p1 n1".toList]).1 "passwd u1 p1 p2".toList
      "u1".toList "p1".toList "p2".toList ⟨"u1".toList, "p1".toList, "n1".toList, 1⟩
      (by decide) (by decide) (by decide) (by decide)).1 (by decide)).1 (by decide),
    ((passwd_rule (main_loop bootstrap ["register u1 p1 n1".toList]).1 "passwd u1 p2".toList
      "u1".toList "p1".toList "p2".toList ⟨"u1".toList, "p1".toList, "n1".toList, 1⟩
      (by decide) (by decide) (by decide) (by decide)).2.1 (by decide)).1 (by decide),
    ((passwd_rule (main_loop bootstrap ["register u1 p1 n1".toList, "su root sjtu".toList]).1
      "passwd u1 p2".toList
      "u1".toList "p1".toList "p2".toList ⟨"u1".toList, "p1".toList, "n1".toList, 1⟩
      (by decide) (by decide) (by decide) (by decide)).2.1 (by decide)).2 (by decide),
    ((passwd_rule (main_loop bootstrap ["register u1 p1 n1".toList]).1 "passwd u1 p1 p2".toList
      "u1".toList "p1".toList "p2".toList ⟨"u1".toList, "p1".toList, "n1".toList, 1⟩
      (by decide) (by decide) (by decide) (by decide)).2.2.1 (Or.inl (by decide))).1
      (by decide)⟩

/-- C16 (as stated) fails for an account stored under a key that is not an
identifier token: in `su_rule_state` the account `a-b` exists with password `pw`,
the current privilege is not 7 and `cur` equals the stored password, yet
`passwd a-b pw new1` prints `Invalid`. -/
theorem passwd_rule_counterexample :
    su_rule_state.accounts.find "a-b".toList =
        some ⟨"a-b".toList, "pw".toList, "n".toList, 1⟩ ∧
      is_valid_user_token "pw".toList = true ∧ is_valid_user_token "new1".toList = true ∧
      current_priv su_rule_state ≠ 7 ∧
      tokenize "passwd a-b pw new1".toList =
        ["passwd".toList, "a-b".toList, "pw".toList, "new1".toList] ∧
      emits_invalid su_rule_state "passwd a-b pw new1".toList := by
  decide

/-! ## Keyword lists -/

theorem split_fold (s : Str) :
    ∀ (res : List Str) (cur : Str),
      (s.foldl split_step ⟨res, cur⟩).res ++ [(s.foldl split_step ⟨res, cur⟩).cur] =
        res ++ List.splitOnP.go (fun c => c == '|') s cur.reverse := by
  induction s with
  | nil => intro res cur; simp [List.splitOnP.go]
  | cons c t ih =>
    intro res cur
    by_cases hc : (c == '|') = true
    · simp only [List.foldl_cons, split_step, hc, if_true, List.splitOnP.go]
      rw [ih]
      simp
    · simp only [List.foldl_cons, split_step, hc, Bool.false_eq_true, if_false,
        List.splitOnP.go]
      rw [ih]
      simp

/-- The segments `split_keywords` returns are those of splitting at every `|`. -/
theorem split_keywords_eq (s : Str) : split_keywords s = s.splitOn '|' := by
  unfold split_keywords
  have := split_fold s [] []
  simpa [List.splitOn, List.splitOnP] using this

theorem dup_loop_false (segs : List Str) :
    ∀ st : List Str, dup_loop segs st = false ↔
      (∀ x ∈ segs, x ≠ []) ∧ segs.Nodup ∧ ∀ x ∈ segs, x ∉ st := by
  induction segs with
  | nil => intro st; simp [dup_loop]
  | cons x xs ih =>
    intro st
    unfold dup_loop
    by_cases hx : x = []
    · simp [hx]
    · by_cases hm : x ∈ st
      · simp only [hx, if_false, hm, if_true, Bool.true_eq_false, false_iff]
        rintro ⟨_, _, h3⟩
        exact h3 x (List.mem_cons_self _ _) hm
      · simp only [hx, if_false, hm, ih]
        constructor
        · rintro ⟨h1, h2, h3⟩
          refine ⟨?_, ?_, ?_⟩
          · intro y hy
            rcases List.mem_cons.mp hy with e | e
            · rw [e]; exact hx
            · exact h1 y e
          · rw [List.nodup_cons]
            exact ⟨fun hmem => h3 x hmem (List.mem_cons_self _ _), h2⟩
          · intro y hy
            rcases List.mem_cons.mp hy with e | e
            · rw [e]; exact hm
            · exact fun hys => h3 y e (List.mem_cons_of_mem _ hys)
        · rintro ⟨h1, h2, h3⟩
          rw [List.nodup_cons] at h2
          refine ⟨fun y hy => h1 y (List.mem_cons_of_mem _ hy), h2.2, ?_⟩
          intro y hy hys
          rcases List.mem_cons.mp hys with e | e
          · rw [e] at hy; exact h2.1 hy
          · exact h3 y (List.mem_cons_of_mem _ hy) e

theorem is_valid_keyword_iff (v : Str) :
    is_valid_keyword v = true ↔ v.length ≤ 60 ∧ ∀ c ∈ v, 32 ≤ c.toNat ∧ c ≠ '"' := by
  unfold is_valid_keyword
  by_cases h : v.length > 60
  · rw [if_pos h]
    simp only [Bool.false_eq_true, false_iff]
    rintro ⟨h1, _⟩
    omega
  · rw [if_neg h]
    have h1 : v.length ≤ 60 := by omega
    simp only [List.all_eq_true, Bool.not_eq_true', Bool.or_eq_false_iff,
      decide_eq_false_iff_not, not_lt, beq_eq_false_iff_ne, ne_eq, h1, true_and]

/-- C13. Keyword-list validation: the validation `cmd_modify` applies to
`-keyword=v` (`is_valid_keyword` together with `has_duplicate_segments`) accepts
`v` exactly when `v` is at most 60 bytes long, contains no byte below 32 and no
double quote, and the segments obtained by splitting `v` at every `|` are all
non-empty and pairwise distinct; so `a|a`, `a||b` and the empty string are
rejected and `a|b` is accepted. -/
theorem keyword_validation (v : Str) :
    (∀ m : ModAcc, (modify_parse ["-keyword=".toList ++ v] m).isSome = true ↔
        (is_valid_keyword v = true ∧ has_duplicate_segments v = false)) ∧
      ((is_valid_keyword v = true ∧ has_duplicate_segments v = false) ↔
        (v.length ≤ 60 ∧ (∀ c ∈ v, 32 ≤ c.toNat ∧ c ≠ '"') ∧
          (∀ seg ∈ v.splitOn '|', seg ≠ []) ∧ (v.splitOn '|').Nodup)) ∧
      (is_valid_keyword "a|a".toList = true ∧ has_duplicate_segments "a|a".toList = true) ∧
      (is_valid_keyword "a||b".toList = true ∧ has_duplicate_segments "a||b".toList = true) ∧
      (is_valid_keyword [] = true ∧ has_duplicate_segments [] = true) ∧
      (is_valid_keyword "a|b".toList = true ∧ has_duplicate_segments "a|b".toList = false) := by
  refine ⟨?_, ?_, by decide, by decide, by decide, by decide⟩
  · intro m
    by_cases h1 : is_valid_keyword v = true
    · by_cases h2 : has_duplicate_segments v = true
      · simp [modify_parse, List.isPrefixOf, h1, h2]
      · simp [modify_parse, List.isPrefixOf, h1, h2]
    · simp [modify_parse, List.isPrefixOf, h1]
  · rw [is_valid_keyword_iff]
    unfold has_duplicate_segments
    rw [dup_loop_false, split_keywords_eq]
    constructor
    · rintro ⟨⟨h1, h2⟩, h3, h4, _⟩
      exact ⟨h1, h2, h3, h4⟩
    · rintro ⟨h1, h2, h3, h4⟩
      exact ⟨⟨h1, h2⟩, h3, h4, fun x _ => List.not_mem_nil x⟩

/-! ## 64-bit arithmetic of sales -/

/-- C19 fails on the code. After `large_sale_trace` book `1` has the price
9000000000000 cents, accepted by `parse_price`, and stock 2147483647; the line
`buy 1 2147483647` is accepted, the mathematical product is
19327352823000000000000, which is not below 2^63, and the amount that `cmd_buy`
appends to the ledger and prints is the wrapped, negative value
-4834966247610093568. -/
theorem sale_total_overflows :
    Reachable (main_loop bootstrap large_sale_trace).1 ∧
      parse_price "90000000000".toList = some 9000000000000 ∧
      parse_int "2147483647".toList = some 2147483647 ∧
      (main_loop bootstrap large_sale_trace).1.books.find "1".toList =
        some ⟨"1".toList, [], [], [], 9000000000000, 2147483647⟩ ∧
      (9000000000000 : Int) * 2147483647 = 19327352823000000000000 ∧
      ¬ ((9000000000000 : Int) * 2147483647 < 9223372036854775808) ∧
      (process_line (main_loop bootstrap large_sale_trace).1
        "buy 1 2147483647".toList).st.transactions = [-100, -4834966247610093568] ∧
      (process_line (main_loop bootstrap large_sale_trace).1
        "buy 1 2147483647".toList).out = "-48349662476100935.68\n".toList :=
  ⟨⟨large_sale_trace, rfl⟩, by decide⟩

/-! ## Ledger aggregation -/

theorem income_sum_nonneg (l : List Int) : 0 ≤ income_sum l := by
  induction l with
  | nil => simp [income_sum]
  | cons v vs ih =>
    unfold income_sum at ih ⊢
    by_cases hv : v ≥ 0
    · simp only [List.filter_cons, hv, decide_True, if_true, List.sum_cons]
      omega
    · simp only [List.filter_cons, hv, decide_False, Bool.false_eq_true, if_false]
      exact ih

theorem expense_sum_nonneg (l : List Int) : 0 ≤ expense_sum l := by
  induction l with
  | nil => simp [expense_sum]
  | cons v vs ih =>
    unfold expense_sum at ih ⊢
    by_cases hv : v < 0
    · simp only [List.filter_cons, hv, decide_True, if_true, List.map_cons, List.sum_cons]
      omega
    · simp only [List.filter_cons, hv, decide_False, Bool.false_eq_true, if_false]
      exact ih

theorem income_sum_cons (v : Int) (vs : List Int) :
    income_sum (v :: vs) = (if v ≥ 0 then v else 0) + income_sum vs := by
  unfold income_sum
  by_cases hv : v ≥ 0
  · simp [List.filter_cons, hv]
  · simp [List.filter_cons, hv]

theorem expense_sum_cons (v : Int) (vs : List Int) :
    expense_sum (v :: vs) = (if v < 0 then -v else 0) + expense_sum vs := by
  unfold expense_sum
  by_cases hv : v < 0
  · have e : ((v.natAbs : Nat) : Int) = -v := by omega
    simp only [List.filter_cons, hv, decide_True, if_true, List.map_cons, List.sum_cons, e]
  · simp [List.filter_cons, hv]

/-- The summation loop of `cmd_show_finance` computes the two totals as long as
they fit in 64 bits. -/
theorem fin_fold (l : List Int) :
    ∀ i e : Int, 0 ≤ i → 0 ≤ e → i + income_sum l < 9223372036854775808 →
      e + expense_sum l < 9223372036854775808 →
      l.foldl fin_step ⟨i, e⟩ = ⟨i + income_sum l, e + expense_sum l⟩ := by
  induction l with
  | nil => intro i e _ _ _ _; simp [income_sum, expense_sum]
  | cons v vs ih =>
    intro i e hi he h1 h2
    rw [income_sum_cons] at h1 ⊢
    rw [expense_sum_cons] at h2 ⊢
    have hin := income_sum_nonneg vs
    have hex := expense_sum_nonneg vs
    by_cases hv : v ≥ 0
    · have hv2 : ¬ v < 0 := by omega
      rw [if_pos hv] at h1 ⊢
      rw [if_neg hv2] at h2 ⊢
      simp only [List.foldl_cons, fin_step, hv, if_true]
      rw [wrap64_id _ (by omega) (by omega), ih _ _ (by omega) he (by omega) (by omega)]
      congr 1 <;> omega
    · have hv2 : v < 0 := by omega
      rw [if_neg hv] at h1 ⊢
      rw [if_pos hv2] at h2 ⊢
      simp only [List.foldl_cons, fin_step, hv, if_false]
      rw [wrap64_id _ (by omega) (by omega), ih _ _ hi (by omega) (by omega) (by omega)]
      congr 1 <;> omega

theorem fin_line_eq (l : List Int) (h1 : income_sum l < 9223372036854775808)
    (h2 : expense_sum l < 9223372036854775808) :
    fin_line (l.foldl fin_step ⟨0, 0⟩) = finance_text l := by
  rw [fin_fold l 0 0 (le_refl _) (le_refl _) (by omega) (by omega)]
  unfold fin_line finance_text
  simp only [zero_add]
  rw [price_to_str_nonneg _ (income_sum_nonneg l), price_to_str_nonneg _ (expense_sum_nonneg l)]

theorem parse_int_loop_digits_big (fuel : Nat) :
    ∀ n : Nat, n < fuel → 2147483647 < n → parse_int_loop (dec_digits fuel n) 0 = none := by
  induction fuel with
  | zero => intro n h; omega
  | succ fuel ih =>
    intro n hn hb
    unfold dec_digits
    have h10 : ¬ n < 10 := by omega
    rw [if_neg h10, parse_int_loop_append]
    by_cases hq : n / 10 ≤ 2147483647
    · rw [parse_int_loop_digits fuel (n / 10) (by omega) hq]
      obtain ⟨h1, h2⟩ := digit_char_spec (n % 10) (by omega)
      have e : ((n / 10 : Nat) : Int) * 10 + ((n % 10 : Nat) : Int) = (n : Int) := by omega
      have hgt : (n : Int) > 2147483647 := by omega
      simp only [Option.some_bind, parse_int_loop, h1, h2, e, Bool.not_true, Bool.false_eq_true,
        if_false, if_pos hgt]
    · rw [ih (n / 10) (by omega) (by omega)]
      rfl

/-- A count above 2147483647 is not accepted by `parse_int`. -/
theorem parse_int_nat_to_str_big (n : Nat) (h : 2147483647 < n) :
    parse_int (nat_to_str n) = none := by
  unfold parse_int
  split_ifs
  · rfl
  · exact parse_int_loop_digits_big (n + 1) n (by omega) h

/-- A line whose handler returns `true` prints the handler's output. -/
theorem line_ok (st st1 : State) (o : Str) (line : Str) (t : List Str)
    (ht : tokenize line = t) (hne : t ≠ [])
    (hq : tok_at t 0 ≠ "quit".toList) (he : tok_at t 0 ≠ "exit".toList)
    (hd : dispatch st t = ⟨true, st1, o⟩) :
    process_line st line = ⟨st1, o, false⟩ := by
  rw [process_line_dispatch st line t ht hne hq he, hd]
  simp

theorem show_finance_all (st : State) (line : Str) (hpriv : current_priv st = 7)
    (ht : tokenize line = ["show".toList, "finance".toList]) :
    process_line st line = ⟨st, fin_line (st.transactions.foldl fin_step ⟨0, 0⟩), false⟩ := by
  apply line_ok st st _ line _ ht (by simp) (by simp) (by simp)
  rw [dispatch_show st _ (by rfl), if_pos (by simp)]
  simp [cmd_show_finance, hpriv]

theorem show_finance_count (st : State) (line ns : Str) (hpriv : current_priv st = 7)
    (ht : tokenize line = ["show".toList, "finance".toList, ns]) :
    process_line st line =
      match parse_int ns with
      | none => ⟨st, invalid_line, false⟩
      | some cnt =>
        if cnt = 0 then ⟨st, ['\n'], false⟩
        else if cnt > (st.transactions.length : Int) then ⟨st, invalid_line, false⟩
        else
          ⟨st, fin_line ((st.transactions.drop
            (st.transactions.length - cnt.toNat)).foldl fin_step ⟨0, 0⟩), false⟩ := by
  have hd := dispatch_show st ["show".toList, "finance".toList, ns] (by rfl)
  rw [if_pos (by simp)] at hd
  cases hpi : parse_int ns with
  | none =>
    apply line_fail st line _ ht (by simp) (by simp) (by simp)
    rw [hd]
    simp [cmd_show_finance, hpriv, hpi]
  | some cnt =>
    by_cases h0 : cnt = 0
    · simp only [h0, if_true]
      apply line_ok st st _ line _ ht (by simp) (by simp) (by simp)
      rw [hd]
      simp [cmd_show_finance, hpriv, hpi, h0]
    · by_cases hgt : cnt > (st.transactions.length : Int)
      · simp only [h0, if_false, hgt, if_true]
        apply line_fail st line _ ht (by simp) (by simp) (by simp)
        rw [hd]
        simp [cmd_show_finance, hpriv, hpi, h0, hgt, Res.fail]
      · simp only [h0, if_false, hgt]
        apply line_ok st st _ line _ ht (by simp) (by simp) (by simp)
        rw [hd]
        simp [cmd_show_finance, hpriv, hpi, h0, hgt]

/-- C11 (amended). Ledger aggregation at current privilege 7: `show finance`
prints `+ I - E`, where `I` is the sum of the non-negative ledger entries and `E`
the sum of the absolute values of the negative ones, both as 2-decimal currency,
provided `I` and `E` are below 2^63; `show finance n` with
`1 ≤ n ≤ length`, `n ≤ 2147483647` prints the same computed over the last `n`
entries, provided their totals are below 2^63; `show finance 0` prints one blank
line; `show finance n` with `n > length` prints `Invalid`; none of these changes
the state. -/
theorem ledger_aggregation (st : State) (line : Str) (hpriv : current_priv st = 7) :
    (tokenize line = ["show".toList, "finance".toList] →
        income_sum st.transactions < 9223372036854775808 →
        expense_sum st.transactions < 9223372036854775808 →
        process_line st line = ⟨st, finance_text st.transactions, false⟩) ∧
      (∀ n : Nat, tokenize line = ["show".toList, "finance".toList, nat_to_str n] →
        (n = 0 → process_line st line = ⟨st, ['\n'], false⟩) ∧
        (1 ≤ n → n ≤ st.transactions.length → n ≤ 2147483647 →
          income_sum (st.transactions.drop (st.transactions.length - n)) <
            9223372036854775808 →
          expense_sum (st.transactions.drop (st.transactions.length - n)) <
            9223372036854775808 →
          process_line st line =
            ⟨st, finance_text (st.transactions.drop (st.transactions.length - n)), false⟩) ∧
        (n > st.transactions.length → process_line st line = ⟨st, invalid_line, false⟩)) := by
  constructor
  · intro ht h1 h2
    rw [show_finance_all st line hpriv ht, fin_line_eq _ h1 h2]
  · intro n ht
    have hc := show_finance_count st line _ hpriv ht
    by_cases hbig : n ≤ 2147483647
    · rw [parse_int_nat_to_str n hbig] at hc
      simp only at hc
      refine ⟨?_, ?_, ?_⟩
      · intro h0
        rw [hc, if_pos (by omega)]
      · intro h1 h2 _ hi he
        rw [hc, if_neg (by omega), if_neg (by omega), Int.toNat_ofNat, fin_line_eq _ hi he]
      · intro hgt
        rw [hc, if_neg (by omega), if_pos (by omega)]
    · rw [parse_int_nat_to_str_big n (by omega)] at hc
      simp only at hc
      refine ⟨fun h0 => by omega, fun _ _ h3 => by omega, fun _ => hc⟩

/-- The example of the specification: the ledger 500.00, -200.00, 300.00. -/
theorem ledger_aggregation_witness :
    process_line finance_example_state "show finance".toList =
        ⟨finance_example_state, "+ 800.00 - 200.00\n".toList, false⟩ ∧
      process_line finance_example_state "show finance 2".toList =
        ⟨finance_example_state, "+ 300.00 - 200.00\n".toList, false⟩ ∧
      process_line finance_example_state "show finance 0".toList =
        ⟨finance_example_state, ['\n'], false⟩ ∧
      process_line finance_example_state "show finance 99".toList =
        ⟨finance_example_state, invalid_line, false⟩ :=
  ⟨(ledger_aggregation finance_example_state "show finance".toList (by decide)).1
      (by decide) (by decide) (by decide),
    ((ledger_aggregation finance_example_state "show finance 2".toList (by decide)).2 2
      (by decide)).2.1 (by decide) (by decide) (by decide) (by decide) (by decide),
    ((ledger_aggregation finance_example_state "show finance 0".toList (by decide)).2 0
      (by decide)).1 rfl,
    ((ledger_aggregation finance_example_state "show finance 99".toList (by decide)).2 99
      (by decide)).2.2 (by decide)⟩

/-- C11 (as stated) fails in two ways. After `large_ledger_trace` the ledger is
-1.00, 90000000000000000.00, 90000000000000000.00: the income is
180000000000000000.00, but the 64-bit sum wraps and `show finance` prints
`+ -4467440737095516.16 - 1.00`. And on a ledger of 2147483648 entries
`show finance 2147483648` prints `Invalid` although the count does not exceed
the length, because `parse_int` accepts no count above 2147483647. -/
theorem ledger_aggregation_counterexample :
    (current_priv (main_loop bootstrap large_ledger_trace).1 = 7 ∧
        (main_loop bootstrap large_ledger_trace).1.transactions =
          [-100, 9000000000000000000, 9000000000000000000] ∧
        (process_line (main_loop bootstrap large_ledger_trace).1 "show finance".toList).out =
          "+ -4467440737095516.16 - 1.00\n".toList ∧
        finance_text (main_loop bootstrap large_ledger_trace).1.transactions =
          "+ 180000000000000000.00 - 1.00\n".toList) ∧
      (current_priv long_ledger_state = 7 ∧
        tokenize "show finance 2147483648".toList =
          ["show".toList, "finance".toList, nat_to_str 2147483648] ∧
        2147483648 ≤ long_ledger_state.transactions.length ∧
        process_line long_ledger_state "show finance 2147483648".toList =
          ⟨long_ledger_state, invalid_line, false⟩) := by
  refine ⟨by decide, rfl, by decide, ?_, ?_⟩
  · show 2147483648 ≤ (List.replicate 2147483648 (0 : Int)).length
    rw [List.length_replicate]
  · have hc := show_finance_count long_ledger_state "show finance 2147483648".toList
      (nat_to_str 2147483648) rfl (by decide)
    rw [parse_int_nat_to_str_big 2147483648 (by decide)] at hc
    exact hc

/-! ## The ledger is append-only -/

theorem cmd_su_transactions (st : State) (t : List Str) :
    (cmd_su st t).st.transactions = st.transactions := by
  rcases cmd_su_cases st t with ⟨_, h2, _⟩ | ⟨_, _, acc, _, h5⟩
  · rw [h2]
  · rw [h5]

theorem cmd_logout_transactions (st : State) (t : List Str) :
    (cmd_logout st t).st.transactions = st.transactions := by
  unfold cmd_logout
  split_ifs <;> rfl

theorem cmd_register_transactions (st : State) (t : List Str) :
    (cmd_register st t).st.transactions = st.transactions := by
  unfold cmd_register
  dsimp only
  split_ifs <;> rfl

theorem cmd_passwd_transactions (st : State) (t : List Str) :
    (cmd_passwd st t).st.transactions = st.transactions := by
  unfold cmd_passwd
  dsimp only
  cases hf : st.accounts.find (tok_at t 1) with
  | none => split_ifs <;> rfl
  | some acc => dsimp only; split_ifs <;> rfl

theorem cmd_useradd_transactions (st : State) (t : List Str) :
    (cmd_useradd st t).st.transactions = st.transactions := by
  unfold cmd_useradd
  dsimp only
  split_ifs <;> rfl

theorem cmd_delete_transactions (st : State) (t : List Str) :
    (cmd_delete st t).st.transactions = st.transactions := by
  unfold cmd_delete
  dsimp only
  split_ifs <;> rfl

theorem cmd_select_transactions (st : State) (t : List Str) :
    (cmd_select st t).st.transactions = st.transactions := by
  unfold cmd_select
  dsimp only
  split_ifs <;> simp [Res.fail, Res.done]

/-- Every command other than `import` and `buy` leaves the ledger alone. -/
theorem dispatch_transactions_other (st : State) (t : List Str)
    (hi : tok_at t 0 ≠ "import".toList) (hb : tok_at t 0 ≠ "buy".toList) :
    (dispatch st t).st.transactions = st.transactions := by
  by_cases h1 : tok_at t 0 = "su".toList
  · rw [dispatch_su st t h1]; exact cmd_su_transactions st t
  by_cases h2 : tok_at t 0 = "logout".toList
  · rw [dispatch_logout st t h2]; exact cmd_logout_transactions st t
  by_cases h3 : tok_at t 0 = "register".toList
  · rw [dispatch_register st t h3]; exact cmd_register_transactions st t
  by_cases h4 : tok_at t 0 = "passwd".toList
  · rw [dispatch_passwd st t h4]; exact cmd_passwd_transactions st t
  by_cases h5 : tok_at t 0 = "useradd".toList
  · rw [dispatch_useradd st t h5]; exact cmd_useradd_transactions st t
  by_cases h6 : tok_at t 0 = "delete".toList
  · rw [dispatch_delete st t h6]; exact cmd_delete_transactions st t
  by_cases h7 : tok_at t 0 = "show".toList
  · rw [dispatch_show st t h7]
    by_cases hf : t.length ≥ 2 ∧ tok_at t 1 = "finance".toList
    · rw [if_pos hf, cmd_show_finance_state]
    · rw [if_neg hf, cmd_show_state]
  by_cases h9 : tok_at t 0 = "select".toList
  · rw [dispatch_select st t h9]; exact cmd_select_transactions st t
  by_cases h10 : tok_at t 0 = "modify".toList
  · rw [dispatch_modify st t h10]; exact (cmd_modify_frame st t).2.2
  rcases dispatch_other st t h1 h2 h3 h4 h5 h6 h7 hb h9 h10 hi with e | e
  · rw [e, cmd_report_or_log_state]
  · rw [e]; rfl

/-- What `cmd_import` does to the ledger. -/
theorem cmd_import_cases (st : State) (t : List Str) :
    (cmd_import st t = Res.fail st) ∨
      ((cmd_import st t).ok = true ∧ (cmd_import st t).out = [] ∧
        ∃ cost, parse_price (tok_at t 2) = some cost ∧ 0 < cost ∧
          (cmd_import st t).st.transactions = st.transactions ++ [-cost]) := by
  by_cases hok : (cmd_import st t).ok = false
  · left
    unfold cmd_import at hok ⊢
    cases h1 : parse_int (tok_at t 1) with
    | none => simp only [h1] at hok ⊢; split_ifs at hok ⊢ <;> simp_all [Res.fail, Res.done]
    | some qty =>
      cases h2 : parse_price (tok_at t 2) with
      | none => simp only [h1, h2] at hok ⊢; split_ifs at hok ⊢ <;> simp_all [Res.fail, Res.done]
      | some cost =>
        simp only [h1, h2] at hok ⊢
        split_ifs at hok ⊢ <;> simp_all [Res.fail, Res.done]
  · right
    unfold cmd_import at hok ⊢
    cases h1 : parse_int (tok_at t 1) with
    | none => simp only [h1] at hok; split_ifs at hok <;> simp [Res.fail] at hok
    | some qty =>
      cases h2 : parse_price (tok_at t 2) with
      | none => simp only [h1, h2] at hok; split_ifs at hok <;> simp [Res.fail] at hok
      | some cost =>
        simp only [h1, h2] at hok ⊢
        split_ifs at hok ⊢ with a b c d e
        all_goals first
          | (exfalso; simp [Res.fail] at hok; done)
          | exact ⟨rfl, rfl, cost, rfl, by omega, rfl⟩

/-- What `cmd_buy` does to the ledger and prints. -/
theorem cmd_buy_cases (st : State) (t : List Str) :
    (cmd_buy st t = Res.fail st) ∨
      ((cmd_buy st t).ok = true ∧
        ∃ b qty, st.books.find (tok_at t 1) = some b ∧ parse_int (tok_at t 2) = some qty ∧
          0 < qty ∧
          (cmd_buy st t).out = price_to_str (wrap64 (b.price_cents * qty)) ++ ['\n'] ∧
          (cmd_buy st t).st.transactions =
            st.transactions ++ [wrap64 (b.price_cents * qty)]) := by
  by_cases hok : (cmd_buy st t).ok = false
  · left
    unfold cmd_buy at hok ⊢
    dsimp only at hok ⊢
    cases h1 : st.books.find (tok_at t 1) with
    | none => simp only [h1] at hok ⊢; split_ifs at hok ⊢ <;> simp_all [Res.fail]
    | some b =>
      cases h2 : parse_int (tok_at t 2) with
      | none => simp only [h1, h2] at hok ⊢; split_ifs at hok ⊢ <;> simp_all [Res.fail]
      | some qty =>
        simp only [h1, h2] at hok ⊢
        split_ifs at hok ⊢ <;> simp_all [Res.fail]
  · right
    unfold cmd_buy at hok ⊢
    dsimp only at hok ⊢
    cases h1 : st.books.find (tok_at t 1) with
    | none => simp only [h1] at hok; split_ifs at hok <;> simp [Res.fail] at hok
    | some b =>
      cases h2 : parse_int (tok_at t 2) with
      | none => simp only [h1, h2] at hok; split_ifs at hok <;> simp [Res.fail] at hok
      | some qty =>
        simp only [h1, h2] at hok ⊢
        split_ifs at hok ⊢ with a b1 c d e
        all_goals first
          | (exfalso; simp [Res.fail] at hok; done)
          | exact ⟨rfl, b, qty, rfl, rfl, by omega, rfl, rfl⟩

theorem price_to_str_has_dot (x : Int) : '.' ∈ price_to_str x := by
  unfold price_to_str
  simp

theorem buy_output_ne_invalid (x : Int) : price_to_str x ++ ['\n'] ≠ invalid_line := by
  intro h
  have h1 : '.' ∈ price_to_str x ++ ['\n'] := List.mem_append_left _ (price_to_str_has_dot x)
  rw [h] at h1
  revert h1
  decide

/-- The three ways a round of the main loop can go. -/
theorem process_line_cases (st : State) (line : Str) :
    (∃ h, process_line st line = ⟨st, [], h⟩ ∧
        (tokenize line = [] ∨ tok_at (tokenize line) 0 = "quit".toList ∨
          tok_at (tokenize line) 0 = "exit".toList)) ∨
      (tokenize line ≠ [] ∧ tok_at (tokenize line) 0 ≠ "quit".toList ∧
        tok_at (tokenize line) 0 ≠ "exit".toList ∧
        process_line st line =
          ⟨(dispatch st (tokenize line)).st,
            if (dispatch st (tokenize line)).ok then (dispatch st (tokenize line)).out
            else (dispatch st (tokenize line)).out ++ invalid_line, false⟩) := by
  by_cases hsp : line.all is_space = true
  · left
    refine ⟨false, ?_, Or.inl (tokenize_all_space line hsp)⟩
    unfold process_line
    rw [if_pos hsp]
  by_cases hne : tokenize line = []
  · left
    refine ⟨false, ?_, Or.inl hne⟩
    unfold process_line
    rw [if_neg hsp]
    simp only [hne, if_true]
  by_cases hq : tok_at (tokenize line) 0 = "quit".toList ∨
      tok_at (tokenize line) 0 = "exit".toList
  · left
    refine ⟨true, ?_, Or.inr hq⟩
    unfold process_line
    rw [if_neg hsp]
    simp only [hne, if_false, hq, if_true]
  · right
    have hq1 : tok_at (tokenize line) 0 ≠ "quit".toList := fun e => hq (Or.inl e)
    have hq2 : tok_at (tokenize line) 0 ≠ "exit".toList := fun e => hq (Or.inr e)
    exact ⟨hne, hq1, hq2, process_line_dispatch st line _ rfl hne hq1 hq2⟩

theorem import_line (st : State) (line : Str)
    (h : tok_at (tokenize line) 0 = "import".toList) :
    process_line st line = ⟨st, invalid_line, false⟩ ∨
      ((process_line st line).out = [] ∧
        ∃ cost, parse_price (tok_at (tokenize line) 2) = some cost ∧ 0 < cost ∧
          (process_line st line).st.transactions = st.transactions ++ [-cost]) := by
  have hne := tokens_ne_nil _ _ h (by decide)
  have hp := process_line_dispatch st line _ rfl hne (by rw [h]; decide) (by rw [h]; decide)
  rw [dispatch_import st _ h] at hp
  rcases cmd_import_cases st (tokenize line) with e | ⟨h1, h2, cost, h3, h4, h5⟩
  · left
    rw [hp, e]
    simp [Res.fail]
  · right
    rw [hp]
    simp only [h1, if_true]
    exact ⟨h2, cost, h3, h4, h5⟩

theorem buy_line (st : State) (line : Str)
    (h : tok_at (tokenize line) 0 = "buy".toList) :
    process_line st line = ⟨st, invalid_line, false⟩ ∨
      (∃ b qty, st.books.find (tok_at (tokenize line) 1) = some b ∧
        parse_int (tok_at (tokenize line) 2) = some qty ∧ 0 < qty ∧
        (process_line st line).out = price_to_str (wrap64 (b.price_cents * qty)) ++ ['\n'] ∧
        (process_line st line).st.transactions =
          st.transactions ++ [wrap64 (b.price_cents * qty)]) := by
  have hne := tokens_ne_nil _ _ h (by decide)
  have hp := process_line_dispatch st line _ rfl hne (by rw [h]; decide) (by rw [h]; decide)
  rw [dispatch_buy st _ h] at hp
  rcases cmd_buy_cases st (tokenize line) with e | ⟨h1, b, qty, h2, h3, h4, h5, h6⟩
  · left
    rw [hp, e]
    simp [Res.fail]
  · right
    rw [hp]
    simp only [h1, if_true]
    exact ⟨b, qty, h2, h3, h4, h5, h6⟩

theorem other_line (st : State) (line : Str)
    (hi : tok_at (tokenize line) 0 ≠ "import".toList)
    (hb : tok_at (tokenize line) 0 ≠ "buy".toList) :
    (process_line st line).st.transactions = st.transactions := by
  rcases process_line_cases st line with ⟨h, e, _⟩ | ⟨_, _, _, e⟩
  · rw [e]
  · rw [e]
    exact dispatch_transactions_other st _ hi hb

/-- C18 (amended). Ledger is append-only: for every state and every input line
the ledger before the line is an initial segment of the ledger after it, and
it grows by at most one entry: exactly one entry equal to minus the parsed cost
(strictly negative) on a successful `import`, exactly one entry on a successful
`buy`, equal to price times quantity and non-negative when the stored price is
non-negative and the product does not overflow, and no entry for any other
command or for any line that prints `Invalid`. -/
theorem ledger_append_only (st : State) (line : Str) :
    (∃ suffix, (process_line st line).st.transactions = st.transactions ++ suffix ∧
        suffix.length ≤ 1) ∧
      (emits_invalid st line → (process_line st line).st.transactions = st.transactions) ∧
      (tok_at (tokenize line) 0 ≠ "import".toList → tok_at (tokenize line) 0 ≠ "buy".toList →
        (process_line st line).st.transactions = st.transactions) ∧
      (tok_at (tokenize line) 0 = "import".toList → ¬ emits_invalid st line →
        ∃ cost, parse_price (tok_at (tokenize line) 2) = some cost ∧ -cost < 0 ∧
          (process_line st line).st.transactions = st.transactions ++ [-cost]) ∧
      (tok_at (tokenize line) 0 = "buy".toList → ¬ emits_invalid st line →
        ∃ b qty, st.books.find (tok_at (tokenize line) 1) = some b ∧
          parse_int (tok_at (tokenize line) 2) = some qty ∧
          (process_line st line).st.transactions =
            st.transactions ++ [wrap64 (b.price_cents * qty)] ∧
          (0 ≤ b.price_cents → b.price_cents * qty < 9223372036854775808 →
            wrap64 (b.price_cents * qty) = b.price_cents * qty ∧
              0 ≤ b.price_cents * qty)) := by
  refine ⟨?_, ?_, other_line st line, ?_, ?_⟩
  · by_cases hi : tok_at (tokenize line) 0 = "import".toList
    · rcases import_line st line hi with e | ⟨_, cost, _, _, h3⟩
      · exact ⟨[], by rw [e]; simp, by simp⟩
      · exact ⟨[-cost], h3, by simp⟩
    by_cases hb : tok_at (tokenize line) 0 = "buy".toList
    · rcases buy_line st line hb with e | ⟨b, qty, _, _, _, _, h3⟩
      · exact ⟨[], by rw [e]; simp, by simp⟩
      · exact ⟨[_], h3, by simp⟩
    exact ⟨[], by rw [other_line st line hi hb]; simp, by simp⟩
  · intro hinv
    unfold emits_invalid at hinv
    by_cases hi : tok_at (tokenize line) 0 = "import".toList
    · rcases import_line st line hi with e | ⟨h1, _⟩
      · rw [e]
      · rw [h1] at hinv
        exact absurd hinv.symm invalid_line_ne_nil
    by_cases hb : tok_at (tokenize line) 0 = "buy".toList
    · rcases buy_line st line hb with e | ⟨b, qty, _, _, _, h1, _⟩
      · rw [e]
      · rw [h1] at hinv
        exact absurd hinv (buy_output_ne_invalid _)
    exact other_line st line hi hb
  · intro hi hok
    rcases import_line st line hi with e | ⟨_, cost, h1, h2, h3⟩
    · exfalso
      apply hok
      unfold emits_invalid
      rw [e]
    · exact ⟨cost, h1, by omega, h3⟩
  · intro hb hok
    rcases buy_line st line hb with e | ⟨b, qty, h1, h2, h3, _, h5⟩
    · exfalso
      apply hok
      unfold emits_invalid
      rw [e]
    · refine ⟨b, qty, h1, h2, h5, ?_⟩
      intro hp hlt
      have hnn : 0 ≤ b.price_cents * qty := Int.mul_nonneg hp (by omega)
      exact ⟨wrap64_id _ hnn hlt, hnn⟩

/-- An import and a sale on the specification's example values. -/
theorem ledger_append_only_witness :
    (∃ cost, parse_price (tok_at (tokenize "import 5 10".toList) 2) = some cost ∧ -cost < 0 ∧
        (process_line (main_loop bootstrap select_trace).1 "import 5 10".toList).st.transactions =
          (main_loop bootstrap select_trace).1.transactions ++ [-cost]) ∧
      (∃ b qty, buy_example_state.books.find (tok_at (tokenize "buy 111 3".toList) 1) = some b ∧
        parse_int (tok_at (tokenize "buy 111 3".toList) 2) = some qty ∧
        (process_line buy_example_state "buy 111 3".toList).st.transactions =
          buy_example_state.transactions ++ [wrap64 (b.price_cents * qty)] ∧
        (0 ≤ b.price_cents → b.price_cents * qty < 9223372036854775808 →
          wrap64 (b.price_cents * qty) = b.price_cents * qty ∧ 0 ≤ b.price_cents * qty)) ∧
      (process_line buy_example_state "buy 111 10".toList).st.transactions =
        buy_example_state.transactions :=
  ⟨(ledger_append_only (main_loop bootstrap select_trace).1 "import 5 10".toList).2.2.2.1
      (by decide) (by decide),
    (ledger_append_only buy_example_state "buy 111 3".toList).2.2.2.2 (by decide) (by decide),
    (ledger_append_only buy_example_state "buy 111 10".toList).2.1 (by decide)⟩

/-- C18 (as stated) fails for a stored price below zero: in
`negative_price_state` the line `buy 111 1` succeeds, the product -50 does not
overflow, and the entry appended to the ledger is -50, which is negative. -/
theorem ledger_append_only_counterexample :
    negative_price_state.books.find "111".toList = some ⟨"111".toList, [], [], [], -50, 1⟩ ∧
      ¬ emits_invalid negative_price_state "buy 111 1".toList ∧
      wrap64 ((-50 : Int) * 1) = (-50 : Int) * 1 ∧
      (process_line negative_price_state "buy 111 1".toList).st.transactions =
        negative_price_state.transactions ++ [-50] ∧
      ¬ ((0 : Int) ≤ -50) := by
  decide

/-! ## Tokenizer -/

theorem tokenize_eq_finish (line : Str) :
    tokenize line = tokenize_finish (line.foldl tokenize_step ⟨[], [], false⟩) := rfl

theorem fold_spaces_clean (n : Nat) (tok : List Str) :
    (spaces n).foldl tokenize_step ⟨tok, [], false⟩ = ⟨tok, [], false⟩ := by
  induction n with
  | zero => rfl
  | succ n ih =>
    simp only [spaces, List.replicate_succ, List.foldl_cons] at ih ⊢
    simpa [tokenize_step, is_space] using ih

theorem fold_spaces_pending (n : Nat) (tok : List Str) (cur : Str) (hc : cur ≠ []) :
    (spaces (n + 1)).foldl tokenize_step ⟨tok, cur, false⟩ = ⟨tok ++ [cur], [], false⟩ := by
  have h := fold_spaces_clean n (tok ++ [cur])
  simp only [spaces, List.replicate_succ, List.foldl_cons] at h ⊢
  simpa [tokenize_step, is_space, hc] using h

theorem fold_bare (w : Str) (hq : '"' ∉ w) (hs : ' ' ∉ w) :
    ∀ (tok : List Str) (cur : Str),
      w.foldl tokenize_step ⟨tok, cur, false⟩ = ⟨tok, cur ++ w, false⟩ := by
  induction w with
  | nil => intro tok cur; simp
  | cons c cs ih =>
    intro tok cur
    have hcq : (c == '"') = false := by
      rw [beq_eq_false_iff_ne]
      intro e
      exact hq (e ▸ List.mem_cons_self _ _)
    have hcs : is_space c = false := by
      unfold is_space
      rw [beq_eq_false_iff_ne]
      intro e
      exact hs (e ▸ List.mem_cons_self _ _)
    simp only [List.foldl_cons, tokenize_step, hcq, hcs, Bool.false_eq_true, if_false]
    rw [ih (fun h => hq (List.mem_cons_of_mem _ h)) (fun h => hs (List.mem_cons_of_mem _ h))]
    simp

theorem fold_in_quote (w : Str) (hq : '"' ∉ w) :
    ∀ (tok : List Str) (cur : Str),
      w.foldl tokenize_step ⟨tok, cur, true⟩ = ⟨tok, cur ++ w, true⟩ := by
  induction w with
  | nil => intro tok cur; simp
  | cons c cs ih =>
    intro tok cur
    have hcq : (c == '"') = false := by
      rw [beq_eq_false_iff_ne]
      intro e
      exact hq (e ▸ List.mem_cons_self _ _)
    simp only [List.foldl_cons, tokenize_step, hcq, Bool.false_eq_true, if_false, if_true]
    rw [ih (fun h => hq (List.mem_cons_of_mem _ h))]
    simp

theorem fold_quoted (w : Str) (hq : '"' ∉ w) (tok : List Str) :
    ('"' :: (w ++ ['"'])).foldl tokenize_step ⟨tok, [], false⟩ = ⟨tok ++ [w], [], false⟩ := by
  simp only [List.foldl_cons, List.foldl_append, List.foldl_nil]
  have h1 : tokenize_step ⟨tok, [], false⟩ '"' = ⟨tok, [], true⟩ := by
    simp [tokenize_step]
  rw [h1, fold_in_quote w hq]
  simp [tokenize_step]

/-- A written token followed by at least one space leaves the tokenizer with the
token pushed and nothing pending. -/
theorem fold_token_gap (x : Written) (hx : x.ok) (n : Nat) (tok : List Str) :
    (write_token x ++ spaces (n + 1)).foldl tokenize_step ⟨tok, [], false⟩ =
      ⟨tok ++ [x.word], [], false⟩ := by
  rw [List.foldl_append]
  unfold write_token
  by_cases hq : x.quoted = true
  · rw [if_pos hq, fold_quoted x.word hx.1, fold_spaces_clean]
  · have hq2 : x.quoted = false := by simpa using hq
    obtain ⟨hne, hsp⟩ := hx.2 hq2
    rw [if_neg hq, fold_bare x.word hx.1 hsp, List.nil_append, fold_spaces_pending _ _ _ hne]

/-- The last written token followed by any number of spaces. -/
theorem fold_token_end (x : Written) (hx : x.ok) (n : Nat) (tok : List Str) :
    tokenize_finish ((write_token x ++ spaces n).foldl tokenize_step ⟨tok, [], false⟩) =
      tok ++ [x.word] := by
  cases n with
  | succ n => rw [fold_token_gap x hx n tok]; simp [tokenize_finish]
  | zero =>
    simp only [spaces, List.replicate_zero, List.append_nil]
    unfold write_token
    by_cases hq : x.quoted = true
    · rw [if_pos hq, fold_quoted x.word hx.1]
      simp [tokenize_finish]
    · have hq2 : x.quoted = false := by simpa using hq
      obtain ⟨hne, hsp⟩ := hx.2 hq2
      rw [if_neg hq, fold_bare x.word hx.1 hsp]
      simp [tokenize_finish, hne]

theorem fold_written_line (items : List Written) (trail : Nat) :
    (∀ x ∈ items, x.ok) → ∀ tok : List Str,
      tokenize_finish ((written_line items trail).foldl tokenize_step ⟨tok, [], false⟩) =
        tok ++ items.map Written.word := by
  induction items with
  | nil =>
    intro _ tok
    simp [written_line, fold_spaces_clean, tokenize_finish]
  | cons x rest ih =>
    intro hv tok
    have hx := hv x (List.mem_cons_self _ _)
    cases rest with
    | nil =>
      simp only [written_line, List.map_cons, List.map_nil]
      exact fold_token_end x hx trail tok
    | cons y more =>
      simp only [written_line, List.map_cons]
      rw [List.foldl_append, fold_token_gap x hx x.gap tok,
        ih (fun z hz => hv z (List.mem_cons_of_mem _ hz)) (tok ++ [x.word])]
      simp

theorem fold_quote_free (line : Str) (hq : '"' ∉ line) :
    ∀ (tok : List Str) (cur : Str),
      tokenize_finish (line.foldl tokenize_step ⟨tok, cur, false⟩) =
        tok ++ (List.splitOnP.go (fun c => c == ' ') line cur.reverse).filter
          (fun s => decide (s ≠ [])) := by
  induction line with
  | nil =>
    intro tok cur
    by_cases hc : cur = []
    · simp [tokenize_finish, List.splitOnP.go, hc]
    · simp [tokenize_finish, List.splitOnP.go, hc]
  | cons c cs ih =>
    intro tok cur
    have hcq : (c == '"') = false := by
      rw [beq_eq_false_iff_ne]
      intro e
      exact hq (e ▸ List.mem_cons_self _ _)
    have hq2 : '"' ∉ cs := fun h => hq (List.mem_cons_of_mem _ h)
    by_cases hsp : (c == ' ') = true
    · simp only [List.foldl_cons, tokenize_step, hcq, is_space, hsp, Bool.false_eq_true,
        if_false, if_true, List.splitOnP.go]
      rw [ih hq2]
      by_cases hc : cur = []
      · simp [hc]
      · simp [hc]
    · simp only [List.foldl_cons, tokenize_step, hcq, is_space, hsp, Bool.false_eq_true,
        if_false, List.splitOnP.go]
      rw [ih hq2]
      simp

/-- C17. Tokenizer round trip: take tokens none of which contains a double
quote, write each either bare (only when it is non-empty and holds no space) or
between a pair of double quotes, join them with one or more spaces and put any
number of spaces in front and behind: `tokenize` of that line returns exactly
the tokens. In particular a quote-free line tokenizes to its maximal runs of
non-space characters. -/
theorem tokenizer_round_trip (items : List Written) (lead trail : Nat)
    (hv : ∀ x ∈ items, x.ok) :
    tokenize (spaces lead ++ written_line items trail) = items.map Written.word ∧
      ∀ line : Str, '"' ∉ line →
        tokenize line = (line.splitOn ' ').filter (fun s => decide (s ≠ [])) := by
  constructor
  · rw [tokenize_eq_finish, List.foldl_append, fold_spaces_clean,
      fold_written_line items trail hv []]
    simp
  · intro line hq
    rw [tokenize_eq_finish, fold_quote_free line hq [] []]
    simp [List.splitOn, List.splitOnP]

/-- The line `  su  "a b" x ` written from the tokens `su`, `a b`, `x`. -/
theorem tokenizer_round_trip_witness :
    tokenize (spaces 2 ++ written_line
        [⟨"su".toList, false, 1⟩, ⟨"a b".toList, true, 0⟩, ⟨"x".toList, false, 0⟩] 1) =
        [(⟨"su".toList, false, 1⟩ : Written), ⟨"a b".toList, true, 0⟩,
          ⟨"x".toList, false, 0⟩].map Written.word ∧
      spaces 2 ++ written_line
        [⟨"su".toList, false, 1⟩, ⟨"a b".toList, true, 0⟩, ⟨"x".toList, false, 0⟩] 1 =
        "  su  \"a b\" x ".toList ∧
      tokenize "  su  root ".toList =
        ("  su  root ".toList.splitOn ' ').filter (fun s => decide (s ≠ [])) :=
  ⟨(tokenizer_round_trip
      [⟨"su".toList, false, 1⟩, ⟨"a b".toList, true, 0⟩, ⟨"x".toList, false, 0⟩] 2 1
      (by decide)).1,
    by decide,
    (tokenizer_round_trip [] 0 0 (by decide)).2 "  su  root ".toList (by decide)⟩

/-! ## Show queries -/

theorem char_eq_of_toNat (a b : Char) (h : a.toNat = b.toNat) : a = b := by
  rw [char_of_toNat a b.toNat h, Char.ofNat_toNat]

theorem str_lt_irrefl (a : Str) : str_lt a a = false := by
  induction a with
  | nil => rfl
  | cons x xs ih => simp [str_lt, ih]

theorem str_lt_asymm (a : Str) : ∀ b : Str, str_lt a b = true → str_lt b a = false := by
  induction a with
  | nil => intro b _; cases b <;> rfl
  | cons x xs ih =>
    intro b h
    cases b with
    | nil => simp [str_lt] at h
    | cons y ys =>
      unfold str_lt at h ⊢
      by_cases h1 : x.toNat < y.toNat
      · have h2 : ¬ y.toNat < x.toNat := by omega
        simp [h1, h2]
      · by_cases h2 : y.toNat < x.toNat
        · simp [h1, h2] at h
        · simp only [h1, h2, if_false] at h ⊢
          exact ih ys h

theorem str_lt_total (a : Str) :
    ∀ b : Str, str_lt a b = false → str_lt b a = false → a = b := by
  induction a with
  | nil =>
    intro b h1 _
    cases b with
    | nil => rfl
    | cons y ys => simp [str_lt] at h1
  | cons x xs ih =>
    intro b h1 h2
    cases b with
    | nil => simp [str_lt] at h2
    | cons y ys =>
      unfold str_lt at h1 h2
      by_cases c1 : x.toNat < y.toNat
      · simp [c1] at h1
      · by_cases c2 : y.toNat < x.toNat
        · simp [c2] at h2
        · simp only [c1, c2, if_false] at h1 h2
          have hxy : x = y := char_eq_of_toNat x y (by omega)
          rw [hxy, ih ys h1 h2]

theorem str_lt_trans (a : Str) :
    ∀ b c : Str, str_lt a b = true → str_lt b c = true → str_lt a c = true := by
  induction a with
  | nil =>
    intro b c h1 h2
    cases b with
    | nil => simp [str_lt] at h1
    | cons y ys =>
      cases c with
      | nil => simp [str_lt] at h2
      | cons z zs => rfl
  | cons x xs ih =>
    intro b c h1 h2
    cases b with
    | nil => simp [str_lt] at h1
    | cons y ys =>
      cases c with
      | nil => simp [str_lt] at h2
      | cons z zs =>
        unfold str_lt at h1 h2 ⊢
        by_cases c1 : x.toNat < y.toNat
        · by_cases c3 : y.toNat < z.toNat
          · have : x.toNat < z.toNat := by omega
            simp [this]
          · by_cases c4 : z.toNat < y.toNat
            · simp [c3, c4] at h2
            · have : x.toNat < z.toNat := by omega
              simp [this]
        · by_cases c2 : y.toNat < x.toNat
          · simp [c1, c2] at h1
          · simp only [c1, c2, if_false] at h1
            by_cases c3 : y.toNat < z.toNat
            · have : x.toNat < z.toNat := by omega
              simp [this]
            · by_cases c4 : z.toNat < y.toNat
              · simp [c3, c4] at h2
              · simp only [c3, c4, if_false] at h2
                have e1 : ¬ x.toNat < z.toNat := by omega
                have e2 : ¬ z.toNat < x.toNat := by omega
                simp only [e1, e2, if_false]
                exact ih ys zs h1 h2

theorem book_le_total (a b : Book) : book_le a b ∨ book_le b a := by
  unfold book_le
  by_cases h : str_lt b.isbn a.isbn = true
  · right; exact str_lt_asymm _ _ h
  · left; simpa using h

theorem book_le_trans (a b c : Book) (h1 : book_le a b) (h2 : book_le b c) : book_le a c := by
  unfold book_le at h1 h2 ⊢
  by_contra hc
  have hca : str_lt c.isbn a.isbn = true := by simpa using hc
  by_cases hab : str_lt a.isbn b.isbn = true
  · have := str_lt_trans _ _ _ hca hab
    rw [h2] at this
    exact absurd this (by decide)
  · have hab2 : str_lt a.isbn b.isbn = false := by simpa using hab
    have e := str_lt_total _ _ hab2 h1
    rw [e] at hca
    rw [h2] at hca
    exact absurd hca (by decide)

/-- Sorting with the comparator of `cmd_show` puts books with pairwise distinct
isbn fields in strictly ascending byte-wise order and keeps exactly the books. -/
theorem sort_books_spec (l : List Book) (hnd : (l.map Book.isbn).Nodup) :
    (l.insertionSort book_le).Pairwise (fun a b => str_lt a.isbn b.isbn = true) ∧
      ∀ b, b ∈ l.insertionSort book_le ↔ b ∈ l := by
  have hs : (l.insertionSort book_le).Sorted book_le :=
    @List.sorted_insertionSort _ book_le _ ⟨book_le_total⟩ ⟨book_le_trans⟩ l
  have hp := List.perm_insertionSort book_le l
  have hnd2 : ((l.insertionSort book_le).map Book.isbn).Nodup :=
    (List.Perm.nodup_iff (hp.map Book.isbn)).mpr hnd
  refine ⟨?_, fun b => hp.mem_iff⟩
  have hpw : (l.insertionSort book_le).Pairwise (fun a b => a.isbn ≠ b.isbn) := by
    rw [List.Nodup, List.pairwise_map] at hnd2
    exact hnd2
  have hboth := List.Pairwise.and hs hpw
  refine hboth.imp ?_
  rintro a b ⟨hle, hne⟩
  unfold book_le at hle
  by_contra hc
  have hc2 : str_lt a.isbn b.isbn = false := by simpa using hc
  exact hne (str_lt_total _ _ hc2 hle)

theorem Table.mem_of_find {V : Type} (m : Table V) (k : Str) (v : V)
    (h : m.find k = some v) : (k, v) ∈ m := by
  induction m with
  | nil => simp [Table.find] at h
  | cons e rest ih =>
    obtain ⟨k1, v1⟩ := e
    unfold Table.find at h
    by_cases hk : k1 = k
    · rw [if_pos hk] at h
      injection h with h
      rw [hk, h]
      exact List.mem_cons_self _ _
    · rw [if_neg hk] at h
      exact List.mem_cons_of_mem _ (ih h)

theorem Table.find_of_mem {V : Type} (m : Table V) (k : Str) (v : V)
    (hnd : (m.map Prod.fst).Nodup) (h : (k, v) ∈ m) : m.find k = some v := by
  induction m with
  | nil => simp at h
  | cons e rest ih =>
    obtain ⟨k1, v1⟩ := e
    simp only [List.map_cons, List.nodup_cons] at hnd
    unfold Table.find
    rcases List.mem_cons.mp h with e | e
    · injection e with e1 e2
      rw [if_pos e1.symm, e2]
    · have hk : k1 ≠ k := by
        intro hk
        apply hnd.1
        rw [hk]
        exact List.mem_map.mpr ⟨(k, v), e, rfl⟩
      rw [if_neg hk]
      exact ih hnd.2 e

theorem books_keyed_isbns (books : Table Book) (hk : books_keyed books) :
    ((books.map Prod.snd).map Book.isbn).Nodup := by
  have e : (books.map Prod.snd).map Book.isbn = books.map Prod.fst := by
    rw [List.map_map]
    apply List.map_congr_left
    intro x hx
    exact hk.2 x hx
  rw [e]
  exact hk.1

theorem show_select_isbn_eq (books : Table Book) (v : Str) :
    show_select books (ShowMode.isbn v) = (books.find v).toList := by
  show (match books.find v with | some b => [b] | none => []) = (books.find v).toList
  cases books.find v <;> rfl

theorem show_select_isbn (books : Table Book) (v : Str) (b : Book) :
    b ∈ show_select books (ShowMode.isbn v) ↔ books.find v = some b := by
  rw [show_select_isbn_eq, Option.mem_toList]
  rfl

theorem show_select_isbn_length (books : Table Book) (v : Str) :
    (show_select books (ShowMode.isbn v)).length ≤ 1 := by
  rw [show_select_isbn_eq]
  cases books.find v with
  | none => exact Nat.zero_le _
  | some b0 => exact Nat.le_refl _

/-- The books `cmd_show` collects are exactly the stored books that satisfy the
filter, and their isbn fields are pairwise distinct. -/
theorem show_select_spec (books : Table Book) (hk : books_keyed books) (mode : ShowMode) :
    ((show_select books mode).map Book.isbn).Nodup ∧
      ∀ b, b ∈ show_select books mode ↔ (b ∈ books.map Prod.snd ∧ book_matches mode b) := by
  have hnd := books_keyed_isbns books hk
  cases mode with
  | all =>
    refine ⟨hnd, fun b => ?_⟩
    show b ∈ books.map Prod.snd ↔ (b ∈ books.map Prod.snd ∧ True)
    exact ⟨fun h => ⟨h, trivial⟩, fun h => h.1⟩
  | isbn v =>
    constructor
    · have hl := show_select_isbn_length books v
      generalize show_select books (ShowMode.isbn v) = l at hl
      match l, hl with
      | [], _ => exact List.nodup_nil
      | [x], _ => exact List.nodup_singleton _
      | _ :: _ :: _, h => exact absurd h (by simp)
    · intro b
      rw [show_select_isbn]
      show books.find v = some b ↔ (b ∈ books.map Prod.snd ∧ b.isbn = v)
      constructor
      · intro hf
        have hm := Table.mem_of_find books v b hf
        exact ⟨List.mem_map.mpr ⟨(v, b), hm, rfl⟩, hk.2 (v, b) hm⟩
      · rintro ⟨hm, hi⟩
        obtain ⟨e, he, hb⟩ := List.mem_map.mp hm
        have h1 := hk.2 e he
        have h2 : e = (v, b) := by
          rw [← hi, ← hb, h1]
        rw [h2] at he
        exact Table.find_of_mem books v b hk.1 he
  | name v =>
    refine ⟨hnd.sublist ((List.filter_sublist _).map _), fun b => ?_⟩
    show b ∈ (books.map Prod.snd).filter (fun b => decide (b.name = v)) ↔ _
    rw [List.mem_filter, decide_eq_true_eq]
    rfl
  | author v =>
    refine ⟨hnd.sublist ((List.filter_sublist _).map _), fun b => ?_⟩
    show b ∈ (books.map Prod.snd).filter (fun b => decide (b.author = v)) ↔ _
    rw [List.mem_filter, decide_eq_true_eq]
    rfl
  | keyword v =>
    refine ⟨hnd.sublist ((List.filter_sublist _).map _), fun b => ?_⟩
    show b ∈ (books.map Prod.snd).filter
      (fun b => decide (v ∈ split_keywords b.keyword)) ↔ _
    rw [List.mem_filter, decide_eq_true_eq, split_keywords_eq]
    rfl

theorem show_filter_none : show_filter ["show".toList] = some ShowMode.all := by
  decide

theorem show_filter_glued (f : Field) (v : Str) (mode : ShowMode)
    (hok : show_value_ok f v = true) (hm : show_query_mode f v = some mode) :
    show_filter ["show".toList, f.head ++ v] = some mode := by
  cases f
  case price => simp [show_value_ok] at hok
  case isbn =>
    simp only [show_value_ok] at hok
    simp only [show_query_mode, Option.some.injEq] at hm
    simp [show_filter, Field.head, List.isPrefixOf, hok, hm]
  case name =>
    simp only [show_value_ok] at hok
    simp only [show_query_mode, Option.some.injEq] at hm
    simp [show_filter, Field.head, List.isPrefixOf, hok, hm]
  case author =>
    simp only [show_value_ok] at hok
    simp only [show_query_mode, Option.some.injEq] at hm
    simp [show_filter, Field.head, List.isPrefixOf, hok, hm]
  case keyword =>
    simp only [show_value_ok, Bool.and_eq_true, Bool.not_eq_true', decide_eq_false_iff_not] at hok
    simp only [show_query_mode, Option.some.injEq] at hm
    simp [show_filter, Field.head, List.isPrefixOf, hok.1, hok.2, hm]

theorem show_filter_split (f : Field) (v : Str) (mode : ShowMode)
    (hok : show_value_ok f v = true) (hm : show_query_mode f v = some mode) :
    show_filter ["show".toList, f.head, v] = some mode := by
  cases f
  case price => simp [show_value_ok] at hok
  case isbn =>
    simp only [show_value_ok] at hok
    simp only [show_query_mode, Option.some.injEq] at hm
    simp [show_filter, Field.head, List.isPrefixOf, is_show_flag, hok, hm]
  case name =>
    simp only [show_value_ok] at hok
    simp only [show_query_mode, Option.some.injEq] at hm
    simp [show_filter, Field.head, List.isPrefixOf, is_show_flag, hok, hm]
  case author =>
    simp only [show_value_ok] at hok
    simp only [show_query_mode, Option.some.injEq] at hm
    simp [show_filter, Field.head, List.isPrefixOf, is_show_flag, hok, hm]
  case keyword =>
    simp only [show_value_ok, Bool.and_eq_true, Bool.not_eq_true', decide_eq_false_iff_not] at hok
    simp only [show_query_mode, Option.some.injEq] at hm
    simp [show_filter, Field.head, List.isPrefixOf, is_show_flag, hok.1, hok.2, hm]

theorem show_filter_bar (v : Str) (hbar : '|' ∈ v) :
    show_filter ["show".toList, "-keyword=".toList ++ v] = none ∧
      show_filter ["show".toList, "-keyword=".toList, v] = none := by
  constructor
  · by_cases hval : is_valid_keyword v = true
    · simp [show_filter, List.isPrefixOf, hval, hbar]
    · simp [show_filter, List.isPrefixOf, hval]
  · by_cases hval : is_valid_keyword v = true
    · simp [show_filter, List.isPrefixOf, is_show_flag, hval, hbar]
    · simp [show_filter, List.isPrefixOf, is_show_flag, hval]

theorem cmd_show_some (st : State) (t : List Str) (mode : ShowMode)
    (h1 : 1 ≤ t.length) (h3 : t.length ≤ 3) (hpriv : 1 ≤ current_priv st)
    (hf : show_filter t = some mode) :
    cmd_show st t =
      ⟨true, st, show_text ((show_select st.books mode).insertionSort book_le)⟩ := by
  unfold cmd_show show_text
  rw [if_neg (by omega), if_neg (by omega), hf]
  simp only
  split_ifs <;> rfl

theorem cmd_show_ok (st : State) (t : List Str) (hok : (cmd_show st t).ok = true) :
    1 ≤ t.length ∧ t.length ≤ 3 ∧ ∃ mode, show_filter t = some mode := by
  unfold cmd_show at hok
  by_cases hl : t.length < 1 ∨ t.length > 3
  · rw [if_pos hl] at hok
    exact absurd hok (by simp [Res.fail])
  · rw [if_neg hl] at hok
    refine ⟨by omega, by omega, ?_⟩
    cases hf : show_filter t with
    | some mode => exact ⟨mode, rfl⟩
    | none =>
      rw [hf] at hok
      split_ifs at hok <;> exact absurd hok (by simp [Res.fail])

theorem cmd_show_none (st : State) (t : List Str) (hf : show_filter t = none) :
    cmd_show st t = Res.fail st := by
  unfold cmd_show
  rw [hf]
  split_ifs <;> rfl

theorem show_line (st : State) (line : Str)
    (hshow : tok_at (tokenize line) 0 = "show".toList)
    (hfin : tok_at (tokenize line) 1 ≠ "finance".toList) :
    dispatch st (tokenize line) = cmd_show st (tokenize line) ∧ tokenize line ≠ [] ∧
      tok_at (tokenize line) 0 ≠ "quit".toList ∧ tok_at (tokenize line) 0 ≠ "exit".toList := by
  refine ⟨?_, ?_, ?_, ?_⟩
  · rw [dispatch_show st _ hshow, if_neg (fun h => hfin h.2)]
  · intro h
    rw [h] at hshow
    exact absurd hshow (by decide)
  · rw [hshow]
    decide
  · rw [hshow]
    decide

/-- C12. Show query, for a Book table in which each book is stored under its own
isbn (and, the table being a map, under pairwise distinct keys), a current
privilege of at least 1 and a `show` line other than `show finance`. Every
accepted command has a filter, the state is unchanged, and the output is the rows
of exactly the stored books that satisfy the filter, in strictly ascending
byte-wise isbn order, or one blank line when no book qualifies. The written forms
`show`, `show -field=value` and `show -field= value` with a well-formed value are
accepted with the filter they name (every book; isbn, name or author equal to the
value; the value being one of the `|`-delimited segments of the keyword field).
A keyword value containing `|` prints `Invalid`. -/
theorem show_query (st : State) (line : Str) (hpriv : 1 ≤ current_priv st)
    (hk : books_keyed st.books)
    (hshow : tok_at (tokenize line) 0 = "show".toList)
    (hfin : tok_at (tokenize line) 1 ≠ "finance".toList) :
    ((dispatch st (tokenize line)).ok = true →
        ∃ mode rows, show_filter (tokenize line) = some mode ∧
          process_line st line = ⟨st, show_text rows, false⟩ ∧
          rows.Pairwise (fun a b => str_lt a.isbn b.isbn = true) ∧
          ∀ b, b ∈ rows ↔ (b ∈ st.books.map Prod.snd ∧ book_matches mode b)) ∧
      (tokenize line = ["show".toList] →
        (dispatch st (tokenize line)).ok = true ∧
          show_filter (tokenize line) = some ShowMode.all) ∧
      (∀ f v mode, show_value_ok f v = true → show_query_mode f v = some mode →
        (tokenize line = ["show".toList, f.head ++ v] ∨
          tokenize line = ["show".toList, f.head, v]) →
        (dispatch st (tokenize line)).ok = true ∧ show_filter (tokenize line) = some mode) ∧
      (∀ v, '|' ∈ v →
        (tokenize line = ["show".toList, "-keyword=".toList ++ v] ∨
          tokenize line = ["show".toList, "-keyword=".toList, v]) →
        process_line st line = ⟨st, invalid_line, false⟩) := by
  obtain ⟨hd, hne, hq, he⟩ := show_line st line hshow hfin
  have accept : ∀ mode, 1 ≤ (tokenize line).length → (tokenize line).length ≤ 3 →
      show_filter (tokenize line) = some mode →
      (dispatch st (tokenize line)).ok = true ∧ show_filter (tokenize line) = some mode := by
    intro mode h1 h3 hf
    rw [hd, cmd_show_some st _ mode h1 h3 hpriv hf]
    exact ⟨rfl, hf⟩
  refine ⟨?_, ?_, ?_, ?_⟩
  · intro hok
    rw [hd] at hok
    obtain ⟨h1, h3, mode, hf⟩ := cmd_show_ok st _ hok
    obtain ⟨hnd, hmem⟩ := show_select_spec st.books hk mode
    obtain ⟨hsorted, hperm⟩ := sort_books_spec (show_select st.books mode) hnd
    refine ⟨mode, (show_select st.books mode).insertionSort book_le, hf, ?_, hsorted, ?_⟩
    · apply line_ok st st _ line _ rfl hne hq he
      rw [hd, cmd_show_some st _ mode h1 h3 hpriv hf]
    · intro b
      rw [hperm b, hmem b]
  · intro ht
    apply accept
    · rw [ht]; decide
    · rw [ht]; decide
    · rw [ht]
      exact show_filter_none
  · intro f v mode hv hm ht
    apply accept
    · rcases ht with ht | ht <;> rw [ht] <;> simp
    · rcases ht with ht | ht <;> rw [ht] <;> simp
    · rcases ht with ht | ht <;> rw [ht]
      · exact show_filter_glued f v mode hv hm
      · exact show_filter_split f v mode hv hm
  · intro v hbar ht
    apply line_fail st line _ rfl hne hq he
    rw [hd]
    apply cmd_show_none
    rcases ht with ht | ht <;> rw [ht]
    · exact (show_filter_bar v hbar).1
    · exact (show_filter_bar v hbar).2

/-- The keyword query `y` over three books stored out of order: the two books
tagged `y` are listed, isbn `111` before `222`; the tag `xy` of book `333` does not
count, and a query for an absent name prints one blank line. -/
theorem show_query_witness :
    1 ≤ current_priv show_example_state ∧ books_keyed show_example_state.books ∧
      (∃ mode rows, show_filter (tokenize "show -keyword=y".toList) = some mode ∧
        process_line show_example_state "show -keyword=y".toList =
          ⟨show_example_state, show_text rows, false⟩ ∧
        rows.Pairwise (fun a b => str_lt a.isbn b.isbn = true) ∧
        ∀ b, b ∈ rows ↔
          (b ∈ show_example_state.books.map Prod.snd ∧ book_matches mode b)) ∧
      process_line show_example_state "show -keyword=y".toList =
        ⟨show_example_state,
          "111\tn1\tau\ty|z\t2.50\t2\n222\tn2\tau\tx|y\t1.00\t1\n".toList, false⟩ ∧
      process_line show_example_state "show -name=\"n4\"".toList =
        ⟨show_example_state, "\n".toList, false⟩ :=
  ⟨by decide, ⟨by decide, by decide⟩,
    (show_query show_example_state "show -keyword=y".toList (by decide)
      ⟨by decide, by decide⟩ (by decide) (by decide)).1 (by decide),
    by decide, by decide⟩

/-! ## The rename branch of `modify` -/

theorem written_line_bare (x : Str) :
    ∀ (n : Nat) (w : Str),
      written_line (⟨w, false, 0⟩ :: List.replicate n ⟨x, false, 0⟩) 0 =
        w ++ (List.replicate n (' ' :: x)).flatten := by
  intro n
  induction n with
  | zero =>
    intro w
    simp [written_line, write_token, spaces]
  | succ n ih =>
    intro w
    rw [List.replicate_succ, List.replicate_succ, List.flatten_cons]
    show write_token ⟨w, false, 0⟩ ++ spaces (0 + 1) ++
      written_line (⟨x, false, 0⟩ :: List.replicate n ⟨x, false, 0⟩) 0 = _
    rw [ih x]
    simp [write_token, spaces]

theorem tokenize_filler_line :
    tokenize filler_line = "foo".toList :: List.replicate 7 (List.replicate 184 'x') := by
  have hok : ∀ y ∈ (⟨"foo".toList, false, 0⟩ : Written) ::
      List.replicate 7 ⟨List.replicate 184 'x', false, 0⟩, y.ok := by
    intro y hy
    rcases List.mem_cons.mp hy with h | h
    · rw [h]; decide
    · rw [List.eq_of_mem_replicate h]
      refine ⟨?_, fun _ => ⟨?_, ?_⟩⟩
      · intro hm
        exact absurd (List.eq_of_mem_replicate hm) (by decide)
      · intro he
        exact absurd (congrArg List.length he) (by rw [List.length_replicate]; decide)
      · intro hm
        exact absurd (List.eq_of_mem_replicate hm) (by decide)
  have h := fold_written_line _ 0 hok []
  rw [written_line_bare] at h
  simp only [List.nil_append, List.map_cons, List.map_replicate] at h
  rw [tokenize_eq_finish]
  exact h

theorem dispatch_unknown (st : State) (t : List Str) (h : tok_at t 0 = "foo".toList) :
    dispatch st t = Res.fail st := by
  simp [dispatch, h]

/-- Whether a line leaves the loop does not depend on the globals. -/
theorem process_line_halt (st st1 : State) (line : Str) :
    (process_line st line).halt = (process_line st1 line).halt := by
  unfold process_line
  by_cases h1 : line.all is_space = true
  · simp only [h1, if_true]
  · simp only [h1, if_false, Bool.false_eq_true]
    by_cases h2 : tokenize line = []
    · simp only [h2, if_true]
    · simp only [h2, if_false]
      by_cases h3 : tok_at (tokenize line) 0 = "quit".toList ∨
          tok_at (tokenize line) 0 = "exit".toList
      · simp only [h3, if_true]
      · simp only [h3, if_false]

/-- The state after one more line, when none of the lines before it is `quit`
or `exit`. -/
theorem main_loop_snoc_state (st : State) (lines : List Str) (line : Str) :
    (∀ l ∈ lines, (process_line bootstrap l).halt = false) →
      (main_loop st (lines ++ [line])).1 = (process_line (main_loop st lines).1 line).st := by
  induction lines generalizing st with
  | nil =>
    intro _
    show (main_loop st [line]).1 = (process_line st line).st
    unfold main_loop
    by_cases hh : (process_line st line).halt = true
    · simp only [hh, if_true]
    · simp only [hh, if_false, Bool.false_eq_true]
      rfl
  | cons l rest ih =>
    intro h
    have hl : (process_line st l).halt = false := by
      rw [process_line_halt st bootstrap l]
      exact h l (List.mem_cons_self _ _)
    have hr : ∀ x ∈ rest, (process_line bootstrap x).halt = false :=
      fun x hx => h x (List.mem_cons_of_mem _ hx)
    show (main_loop st (l :: (rest ++ [line]))).1 =
      (process_line (main_loop st (l :: rest)).1 line).st
    have e1 : (main_loop st (l :: (rest ++ [line]))).1 =
        (main_loop (process_line st l).st (rest ++ [line])).1 := by
      rw [main_loop]
      simp only [hl, Bool.false_eq_true, if_false]
    have e2 : (main_loop st (l :: rest)).1 = (main_loop (process_line st l).st rest).1 := by
      rw [main_loop]
      simp only [hl, Bool.false_eq_true, if_false]
    rw [e1, e2]
    exact ih _ hr

/-- The filler line is answered with `Invalid` and changes nothing. -/
theorem filler_line_rejected (st : State) :
    process_line st filler_line = ⟨st, invalid_line, false⟩ := by
  apply line_fail st filler_line _ tokenize_filler_line (by simp) (by simp) (by simp)
  exact dispatch_unknown st _ (by simp)

/-- C6 fails on the code. After `dangling_rename_trace` the root session
(privilege 7) selects the book stored under the key `IIIIIIIIIIIIIIIIII`, whose
isbn field is that key and whose author is `AAAAAAAAAAAAAAAAAAAAAAAA`. The line
`modify -ISBN=6` is a well-formed `modify` that assigns an ISBN different from
the key and not yet a key, and it is accepted. Its commit takes the rename branch
of line 330, where `books.erase(b.isbn)` destroys the entry `b` refers to and
`b = books[new_isbn]` then writes through the dangling reference, so the program
does not keep the unassigned fields as the claim requires. Every accepted rename
of a book stored under its own isbn executes that write. -/
theorem rename_writes_through_erased_entry :
    Reachable (main_loop bootstrap dangling_rename_trace).1 ∧
      (main_loop bootstrap dangling_rename_trace).1.login_stack =
        [⟨"root".toList, 7, "IIIIIIIIIIIIIIIIII".toList⟩] ∧
      (main_loop bootstrap dangling_rename_trace).1.books.find "IIIIIIIIIIIIIIIIII".toList =
        some ⟨"IIIIIIIIIIIIIIIIII".toList, [], "AAAAAAAAAAAAAAAAAAAAAAAA".toList, [], 0, 0⟩ ∧
      tokenize "modify -ISBN=6".toList = modify_tokens [⟨Field.isbn, "6".toList, false⟩] ∧
      Assign.valid ⟨Field.isbn, "6".toList, false⟩ = true ∧
      "6".toList ≠ "IIIIIIIIIIIIIIIIII".toList ∧
      (main_loop bootstrap dangling_rename_trace).1.books.count "6".toList = false ∧
      ¬ emits_invalid (main_loop bootstrap dangling_rename_trace).1 "modify -ISBN=6".toList ∧
      modify_writes_erased (main_loop bootstrap dangling_rename_trace).1
        (tokenize "modify -ISBN=6".toList) = true ∧
      (∀ (st : State) (line : Str) (c : Context) (rest : List Context) (b : Book)
          (asg : List Assign) (n : Str),
        st.login_stack = c :: rest → c.privilege ≥ 3 → c.selected_isbn ≠ [] →
        st.books.find c.selected_isbn = some b → b.isbn = c.selected_isbn →
        tokenize line = modify_tokens asg → asg ≠ [] → (∀ a ∈ asg, a.valid = true) →
        assigned Field.isbn asg = some n → n ≠ c.selected_isbn → st.books.count n = false →
        ¬ emits_invalid st line ∧ modify_writes_erased st (tokenize line) = true) := by
  have hs : (main_loop bootstrap dangling_rename_trace).1 =
      (main_loop bootstrap ["su root sjtu".toList, "select IIIIIIIIIIIIIIIIII".toList,
        "modify -author=AAAAAAAAAAAAAAAAAAAAAAAA".toList]).1 := by
    have e := main_loop_snoc_state bootstrap ["su root sjtu".toList,
      "select IIIIIIIIIIIIIIIIII".toList, "modify -author=AAAAAAAAAAAAAAAAAAAAAAAA".toList]
      filler_line (by decide)
    rw [filler_line_rejected] at e
    exact e
  refine ⟨⟨dangling_rename_trace, rfl⟩, ?_, ?_, by decide, by decide, by decide, ?_, ?_, ?_, ?_⟩
  · rw [hs]; decide
  · rw [hs]; decide
  · rw [hs]; decide
  · rw [hs]; decide
  · rw [hs]; decide
  · intro st line c rest b asg n hstack hpriv hsel hb hkey ht hne hv hn hnk hfree
    refine ⟨?_, keyed_rename_writes_erased st line c rest b asg n hstack hpriv hsel hb hkey ht
      hne hv hn hnk hfree⟩
    have hcs : current_selected st = c.selected_isbn := by simp [current_selected, hstack]
    have hl := modify_line st line asg b ht hne hv (by simpa [current_priv, hstack] using hpriv)
      (by rw [hcs]; exact hsel) (by rw [hcs]; exact hb)
    rw [if_neg (by rw [foldl_set_isbn asg (ModAcc.init b) |>.1, hn]; simp [hfree])] at hl
    unfold emits_invalid
    rw [hl]
    exact fun h => invalid_line_ne_nil h.symm

end Bookstore
